import Mathlib

/-! The class template qs_vector of src/QS_Vector.hh.

A shallow embedding of the class template `qs_vector<T>` and of the memory it
works on.

* `int` is embedded as `Int`.  The definitions of namespace `qs_vector` compute
  on the integers; they describe the executions in which no `int` operation
  leaves the range of `int`.  The two members that add to `_size`,
  `atomic_Index_Inc` and `appendList`, are also given on 32-bit `int`, as
  `int32.atomic_Index_Inc` and `int32.appendList`: there a sum is stored with
  two's complement wrap-around, and the list of `appendList` is a pointer into
  the memory.
* A pointer `T*` is a natural number: `0` is the null pointer and `k + 1` names
  the `k`-th block ever handed out by the allocation service.
* A slot of a buffer holds `Option T`: `none` is a slot that was allocated but
  never written.
* An access `_data[i]` outside a live block has no defined behaviour; the
  embedding reports it as `Result.undefined`.
* A failed `qs_assert` halts the process; the embedding reports it as
  `Result.abort`, carrying the object and the memory as they were at that point.
-/

namespace QSVector

/-- Modelled from the spec: the enumeration `MemoryControl::AllocationPolicy` is
declared in MemoryControl.hh, which is absent.  The source names only `HOST_MEM`;
every other tag of the enumeration is `OTHER tag`. -/
inductive AllocationPolicy
  | HOST_MEM
  | OTHER (tag : Nat)
  deriving DecidableEq

/-- Build parameters: whether `USE_CALIPER` is defined, and `sizeof(T)`. -/
structure Build where
  USE_CALIPER : Bool
  sizeofT : Nat
  deriving DecidableEq

/-- One block handed out by the allocation service: the element count and the
policy tag it was requested with, its slots, and whether it is still live. -/
structure Block (T : Type) where
  count : Int
  policy : AllocationPolicy
  cells : List (Option T)
  live : Bool
  deriving DecidableEq

/-- Calls made to the allocation service: `allocate` with the pointer it
returned, `deallocate` with the pointer it was given. -/
inductive Event
  | allocate (ptr : Nat) (count : Int) (policy : AllocationPolicy)
  | deallocate (ptr : Nat) (count : Int) (policy : AllocationPolicy)
  deriving DecidableEq

/-- Calls made to the Caliper data tracker: `cali_datatracker_track(ptr, label,
bytes)` and `cali_datatracker_untrack(ptr)`. -/
inductive TrackEvent
  | track (ptr : Nat) (label : List Nat) (bytes : Int)
  | untrack (ptr : Nat)
  deriving DecidableEq

/-- The memory the containers live in: every block ever allocated, the calls
made to the allocation service and the calls made to the data tracker, each in
the order they happened. -/
structure Memory (T : Type) where
  blocks : List (Block T)
  trace : List Event
  tracked : List TrackEvent
  deriving DecidableEq

/-- The data members of `qs_vector<T>` (lines 235-241). -/
structure qs_vector (T : Type) where
  _data : Nat
  _capacity : Int
  _size : Int
  _isOpen : Bool
  _memPolicy : AllocationPolicy
  _label : List Nat
  _tracking : Bool
  deriving DecidableEq

/-- Outcome of a constructor or member function: it returns `ret` leaving the
object `this` and the memory `m`; or a `qs_assert` fails and the process halts
with the object and the memory as given; or it runs into undefined behaviour. -/
inductive Result (α : Type) (T : Type)
  | ok (ret : α) (this : qs_vector T) (m : Memory T)
  | abort (this : qs_vector T) (m : Memory T)
  | undefined
  deriving DecidableEq

/-- The block a pointer names, if any. -/
def Memory.block? {T : Type} (m : Memory T) (data : Nat) : Option (Block T) :=
  match data with
  | 0 => none
  | k + 1 => m.blocks[k]?

/-- Read of `data[index]`: `none` when the access is outside a live block. -/
def load {T : Type} (m : Memory T) (data : Nat) (index : Int) : Option (Option T) :=
  match m.block? data with
  | none => none
  | some b => if b.live = true ∧ 0 ≤ index then b.cells[index.toNat]? else none

/-- Write `data[index] = v`: `none` when the access is outside a live block. -/
def store {T : Type} (m : Memory T) (data : Nat) (index : Int) (v : Option T) :
    Option (Memory T) :=
  match data with
  | 0 => none
  | k + 1 =>
    match m.blocks[k]? with
    | none => none
    | some b =>
      if b.live = true ∧ 0 ≤ index ∧ index.toNat < b.cells.length then
        some { m with blocks := m.blocks.set k { b with cells := b.cells.set index.toNat v } }
      else none

/-- Modelled from the spec: `MemoryControl::allocate<T>(count, policy)` is defined
in MemoryControl.hh, which is absent.  The spec: given an element count and a
policy tag, returns owned, uninitialized, typed storage.  The service is taken
to satisfy every request; the storage is a block never handed out before. -/
def allocate {T : Type} (count : Int) (policy : AllocationPolicy) (m : Memory T) :
    Nat × Memory T :=
  (m.blocks.length + 1,
   { blocks := m.blocks ++
       [{ count := count, policy := policy, cells := List.replicate count.toNat none,
          live := true }],
     trace := m.trace ++ [Event.allocate (m.blocks.length + 1) count policy],
     tracked := m.tracked })

/-- The blocks after the block named by `data` is reclaimed. -/
def release {T : Type} (blocks : List (Block T)) (data : Nat) : List (Block T) :=
  match data with
  | 0 => blocks
  | k + 1 =>
    match blocks[k]? with
    | none => blocks
    | some b => blocks.set k { b with live := false }

/-- Modelled from the spec: `MemoryControl::deallocate(data, count, policy)` is
defined in MemoryControl.hh, which is absent.  The spec: reclaims the storage
given the element count and the policy tag.  The call is recorded with the
arguments it was given and the block named by `data` stops being live. -/
def deallocate {T : Type} (data : Nat) (count : Int) (policy : AllocationPolicy)
    (m : Memory T) : Memory T :=
  { blocks := release m.blocks data,
    trace := m.trace ++ [Event.deallocate data count policy],
    tracked := m.tracked }

/-- Modelled from the spec: the macro `ATOMIC_CAPTURE(x, v, p)` is defined in
AtomicMacro.hh, which is absent.  The spec: an atomic fetch-and-add returning the
pre-update value.  The pair is the new `x` and the captured `p`.  The sum is the
one of the integers: this is the macro as long as the sum is a value of `int`;
`int32.ATOMIC_CAPTURE` stores it in an `int`. -/
def ATOMIC_CAPTURE (x v : Int) : Int × Int :=
  (x + v, x)

/-- The counting loop `for (ii = lo; ii < lo + n; ++ii) body(ii)`, with `n` the
number of iterations; it stops at the first iteration with undefined behaviour. -/
def forLoop {T : Type} (body : Int → Memory T → Option (Memory T)) :
    Nat → Int → Memory T → Option (Memory T)
  | 0, _, m => some m
  | n + 1, ii, m =>
    match body ii m with
    | none => none
    | some m1 => forLoop body n (ii + 1) m1

/-- The assignment `dst[ii] = src[ii]` of one element between two buffers. -/
def copyElem {T : Type} (src dst : Nat) (ii : Int) (m : Memory T) : Option (Memory T) :=
  match load m src ii with
  | none => none
  | some v => store m dst ii v

/-- The call `std::strncpy(dest, src, n)`, as the `n` characters written to
`dest`: the characters of `src` before its first NUL, at most `n`, then NULs.  A
source that ends before a NUL is read as terminated there. -/
def strncpy (src : List Nat) (n : Nat) : List Nat :=
  ((src.take n).takeWhile (fun ch => ch != 0)) ++
    List.replicate (n - ((src.take n).takeWhile (fun ch => ch != 0)).length) 0

namespace qs_vector

variable {T : Type}

/-- The member `apply_label` (lines 216-224). -/
def apply_label (cfg : Build) (this : qs_vector T) (m : Memory T) :
    qs_vector T × Memory T :=
  if cfg.USE_CALIPER = true then
    if 0 < this._capacity ∧ this._label.headD 0 ≠ 0 then
      ({ this with _tracking := true },
       { m with tracked := m.tracked ++
           [TrackEvent.track this._data this._label (this._capacity * (cfg.sizeofT : Int))] })
    else (this, m)
  else (this, m)

/-- The member `delete_label` (lines 226-233). -/
def delete_label (cfg : Build) (this : qs_vector T) (m : Memory T) :
    qs_vector T × Memory T :=
  if cfg.USE_CALIPER = true then
    if this._tracking = true then
      ({ this with _tracking := false },
       { m with tracked := m.tracked ++ [TrackEvent.untrack this._data] })
    else (this, m)
  else (this, m)

/-- The member `set_label` (lines 60-67).  The argument is `none` for a null
pointer, else the characters it points to. -/
def set_label (cfg : Build) (label : Option (List Nat)) (this : qs_vector T) (m : Memory T) :
    qs_vector T × Memory T :=
  let s1 := delete_label cfg this m
  let this1 := { s1.1 with _label := List.replicate 64 0 }
  match label with
  | none => (this1, s1.2)
  | some l =>
    if l.headD 0 ≠ 0 then
      apply_label cfg { this1 with _label := strncpy l 63 ++ this1._label.drop 63 } s1.2
    else (this1, s1.2)

/-- The default constructor (line 22). -/
def default : qs_vector T :=
  { _data := 0, _capacity := 0, _size := 0, _memPolicy := AllocationPolicy.HOST_MEM,
    _isOpen := false, _label := List.replicate 64 0, _tracking := false }

/-- The constructor `qs_vector(int size, AllocationPolicy, const char* label)`
(lines 24-29). -/
def sized (cfg : Build) (size : Int) (memPolicy : AllocationPolicy)
    (label : Option (List Nat)) (m : Memory T) : Result Unit T :=
  let a := allocate size memPolicy m
  let this : qs_vector T :=
    { _data := a.1, _capacity := size, _size := size, _memPolicy := memPolicy,
      _isOpen := false, _label := List.replicate 64 0, _tracking := false }
  let s := set_label cfg label this a.2
  Result.ok () s.1 s.2

/-- The constructor `qs_vector(int size, const T& value, AllocationPolicy,
const char* label)` (lines 32-41). -/
def filled (cfg : Build) (size : Int) (value : T) (memPolicy : AllocationPolicy)
    (label : Option (List Nat)) (m : Memory T) : Result Unit T :=
  let a := allocate size memPolicy m
  let this : qs_vector T :=
    { _data := a.1, _capacity := size, _size := size, _memPolicy := memPolicy,
      _isOpen := false, _label := List.replicate 64 0, _tracking := false }
  match forLoop (fun ii mm => store mm this._data ii (some value))
      (this._capacity - 0).toNat 0 a.2 with
  | none => Result.undefined
  | some m1 =>
    let s := set_label cfg label this m1
    Result.ok () s.1 s.2

/-- The copy constructor (lines 43-52). -/
def copy (cfg : Build) (aa : qs_vector T) (m : Memory T) : Result Unit T :=
  let a := allocate aa._capacity aa._memPolicy m
  let this : qs_vector T :=
    { _data := a.1, _capacity := aa._capacity, _size := aa._size,
      _memPolicy := aa._memPolicy, _isOpen := aa._isOpen,
      _label := List.replicate 64 0, _tracking := false }
  match forLoop (copyElem aa._data this._data) (this._size - 0).toNat 0 a.2 with
  | none => Result.undefined
  | some m1 =>
    let s := set_label cfg (some aa._label) this m1
    Result.ok () s.1 s.2

/-- The destructor (lines 54-58): what is left of the memory. -/
def destroy (cfg : Build) (this : qs_vector T) (m : Memory T) : Memory T :=
  let s := delete_label cfg this m
  deallocate s.1._data s.1._size s.1._memPolicy s.2

/-- The member `swap` (lines 70-79): the new `this` and the new `other`. -/
def swap (this other : qs_vector T) : qs_vector T × qs_vector T :=
  ({ _data := other._data, _capacity := other._capacity, _size := other._size,
     _memPolicy := other._memPolicy, _isOpen := other._isOpen, _label := other._label,
     _tracking := other._tracking },
   { _data := this._data, _capacity := this._capacity, _size := this._size,
     _memPolicy := this._memPolicy, _isOpen := this._isOpen, _label := this._label,
     _tracking := this._tracking })

/-- The copy assignment `operator=` (lines 82-90).  `thisAddr` and `aaAddr` are
the addresses of the two objects, compared by `&aa != this`; the temporary is
destroyed when its scope ends. -/
def operator_assign (cfg : Build) (thisAddr aaAddr : Nat) (this aa : qs_vector T)
    (m : Memory T) : Result Unit T :=
  if aaAddr ≠ thisAddr then
    match copy cfg aa m with
    | Result.ok _ temp m1 =>
      let sw := swap this temp
      Result.ok () sw.1 (destroy cfg sw.2 m1)
    | Result.abort _ _ => Result.abort this m
    | Result.undefined => Result.undefined
  else Result.ok () this m

/-- The member `get_memPolicy` (lines 93-96). -/
def get_memPolicy (this : qs_vector T) : AllocationPolicy :=
  this._memPolicy

/-- The member `push_back` (lines 98-103). -/
def push_back (dataElem : T) (this : qs_vector T) (m : Memory T) : Result Unit T :=
  if this._isOpen = true then
    match store m this._data this._size (some dataElem) with
    | none => Result.undefined
    | some m1 => Result.ok () { this with _size := this._size + 1 } m1
  else Result.abort this m

/-- The member `Open` (line 105). -/
def Open (this : qs_vector T) (m : Memory T) : Result Unit T :=
  Result.ok () { this with _isOpen := true } m

/-- The member `Close` (line 106). -/
def Close (this : qs_vector T) (m : Memory T) : Result Unit T :=
  Result.ok () { this with _isOpen := false } m

/-- The member `operator[]` (lines 109-118), read through the reference it
returns. -/
def operator_index (index : Int) (this : qs_vector T) (m : Memory T) :
    Result (Option T) T :=
  match load m this._data index with
  | none => Result.undefined
  | some v => Result.ok v this m

/-- The member `capacity` (lines 121-124). -/
def capacity (this : qs_vector T) : Int :=
  this._capacity

/-- The member `size` (lines 127-130). -/
def size (this : qs_vector T) : Int :=
  this._size

/-- The member `reserve` (lines 137-144). -/
def reserve (cfg : Build) (size : Int) (memPolicy : AllocationPolicy)
    (this : qs_vector T) (m : Memory T) : Result Unit T :=
  if this._capacity = 0 then
    let a := allocate size memPolicy m
    let s := apply_label cfg
      { this with _capacity := size, _memPolicy := memPolicy, _data := a.1 } a.2
    Result.ok () s.1 s.2
  else Result.abort this m

/-- The member `resize(int size, AllocationPolicy)` (lines 146-154). -/
def resize (cfg : Build) (size : Int) (memPolicy : AllocationPolicy)
    (this : qs_vector T) (m : Memory T) : Result Unit T :=
  if this._capacity = 0 then
    let a := allocate size memPolicy m
    let s := apply_label cfg
      { this with _capacity := size, _size := size, _memPolicy := memPolicy, _data := a.1 } a.2
    Result.ok () s.1 s.2
  else Result.abort this m

/-- The member `resize(int size, const T& value, AllocationPolicy)`
(lines 156-167). -/
def resize_value (cfg : Build) (size : Int) (value : T) (memPolicy : AllocationPolicy)
    (this : qs_vector T) (m : Memory T) : Result Unit T :=
  if this._capacity = 0 then
    let a := allocate size memPolicy m
    let s := apply_label cfg
      { this with _capacity := size, _size := size, _memPolicy := memPolicy, _data := a.1 } a.2
    match forLoop (fun ii mm => store mm s.1._data ii (some value))
        (s.1._capacity - 0).toNat 0 s.2 with
    | none => Result.undefined
    | some m1 => Result.ok () s.1 m1
  else Result.abort this m

/-- The member `empty` (lines 169-172). -/
def empty (this : qs_vector T) : Bool :=
  decide (this._size = 0)

/-- The member `eraseEnd` (lines 174-177). -/
def eraseEnd (NewEnd : Int) (this : qs_vector T) (m : Memory T) : Result Unit T :=
  Result.ok () { this with _size := NewEnd } m

/-- The member `pop_back` (lines 179-182). -/
def pop_back (this : qs_vector T) (m : Memory T) : Result Unit T :=
  Result.ok () { this with _size := this._size - 1 } m

/-- The member `clear` (lines 184-187). -/
def clear (this : qs_vector T) (m : Memory T) : Result Unit T :=
  Result.ok () { this with _size := 0 } m

/-- The member `appendList` (lines 189-201), for a sum `_size + listSize` that is
a value of `int` and a list outside the buffer of the container: the argument
`list` gives the element the pointer holds at each offset.  `int32.appendList`
is the member on 32-bit `int` with `list` a pointer into the memory. -/
def appendList (listSize : Int) (list : Nat → T) (this : qs_vector T) (m : Memory T) :
    Result Unit T :=
  if this._size + listSize < this._capacity then
    let size := this._size
    let this1 := { this with _size := this._size + listSize }
    match forLoop (fun i mm => store mm this1._data i (some (list (i - size).toNat)))
        (this1._size - size).toNat size m with
    | none => Result.undefined
    | some m1 => Result.ok () this1 m1
  else Result.abort this m

/-- The member `atomic_Index_Inc` (lines 205-212), for a sum `_size + inc` that
is a value of `int`; `int32.atomic_Index_Inc` is the member on 32-bit `int`. -/
def atomic_Index_Inc (inc : Int) (this : qs_vector T) (m : Memory T) : Result Int T :=
  let r := ATOMIC_CAPTURE this._size inc
  Result.ok r.2 { this with _size := r.1 } m

/-- A sequence of `push_back` calls, one per value, in list order; it stops at
the first call that does not return. -/
def push_back_all : List T → qs_vector T → Memory T → Result Unit T
  | [], this, m => Result.ok () this m
  | v :: vs, this, m =>
    match push_back v this m with
    | Result.ok _ this1 m1 => push_back_all vs this1 m1
    | Result.abort this1 m1 => Result.abort this1 m1
    | Result.undefined => Result.undefined

/-- Concurrent callers of `atomic_Index_Inc`: caller `k` asks for `incs[k]`, and
`order` lists the callers in the order in which their calls, each one atomic
step, take effect.  Returned: every caller paired with the start index it got. -/
def atomicCalls (incs : List Int) :
    List Nat → qs_vector T → Memory T → Result (List (Nat × Int)) T
  | [], this, m => Result.ok [] this m
  | k :: rest, this, m =>
    match atomic_Index_Inc (incs.getD k 0) this m with
    | Result.ok r this1 m1 =>
      match atomicCalls incs rest this1 m1 with
      | Result.ok rs this2 m2 => Result.ok ((k, r) :: rs) this2 m2
      | Result.abort this2 m2 => Result.abort this2 m2
      | Result.undefined => Result.undefined
    | Result.abort this1 m1 => Result.abort this1 m1
    | Result.undefined => Result.undefined

end qs_vector

/-- The running sums `s0, s0 + x0, s0 + x0 + x1, ...` of a list, one per entry. -/
def startsOf (s0 : Int) : List Int → List Int
  | [] => []
  | x :: xs => s0 :: startsOf (s0 + x) xs

/-- The range `[start, start + inc)` of indices reserved by one call. -/
def inRange (start inc x : Int) : Prop :=
  start ≤ x ∧ x < start + inc

/-- The storage invariant of the spec: `_data` is null with capacity 0, or it
names a live block that was requested for `_capacity` elements and holds that
many slots. -/
def ValidStorage {T : Type} (m : Memory T) (c : qs_vector T) : Prop :=
  match m.block? c._data with
  | some b => b.live = true ∧ b.count = c._capacity ∧ b.cells.length = c._capacity.toNat
  | none => c._data = 0 ∧ c._capacity = 0

/-- Between the memories `m` and `m1` the pointer `p` became a buffer of the
allocation service: it names no block in `m`, and in `m1` it names a live block
requested for `count` elements from `policy`, holding that many slots. -/
def AllocatedFor {T : Type} (m m1 : Memory T) (p : Nat) (count : Int)
    (policy : AllocationPolicy) : Prop :=
  m.block? p = none ∧
    ∃ b, m1.block? p = some b ∧ b.live = true ∧ b.count = count ∧ b.policy = policy ∧
      b.cells.length = count.toNat

/-- A label as the class keeps it: its characters before the first NUL, at most
63 of them, then NULs up to 64 characters. -/
def LabelOK (l : List Nat) : Prop :=
  (l.takeWhile (fun ch => ch != 0)).length ≤ 63 ∧
    l = l.takeWhile (fun ch => ch != 0) ++
      List.replicate (64 - (l.takeWhile (fun ch => ch != 0)).length) 0

instance (start inc x : Int) : Decidable (inRange start inc x) :=
  inferInstanceAs (Decidable (_ ∧ _))

instance {T : Type} (m : Memory T) (c : qs_vector T) : Decidable (ValidStorage m c) :=
  match h : m.block? c._data with
  | some b =>
    decidable_of_iff (b.live = true ∧ b.count = c._capacity ∧
      b.cells.length = c._capacity.toNat) (by unfold ValidStorage; rw [h])
  | none => decidable_of_iff (c._data = 0 ∧ c._capacity = 0) (by unfold ValidStorage; rw [h])

instance {T : Type} (m m1 : Memory T) (p : Nat) (count : Int) (policy : AllocationPolicy) :
    Decidable (AllocatedFor m m1 p count policy) :=
  match h : m1.block? p with
  | some b =>
    decidable_of_iff ((m.block? p).isNone = true ∧ b.live = true ∧ b.count = count ∧
      b.policy = policy ∧ b.cells.length = count.toNat)
      (by
        unfold AllocatedFor
        rw [h]
        simp [Option.isNone_iff_eq_none])
  | none => isFalse (by
      unfold AllocatedFor
      rw [h]
      simp)

instance (l : List Nat) : Decidable (LabelOK l) :=
  inferInstanceAs (Decidable (_ ∧ _))

/-- A build without Caliper, `sizeof(T) = 8`. -/
def exBuild : Build :=
  { USE_CALIPER := false, sizeofT := 8 }

/-- The memory before anything is allocated. -/
def exEmpty : Memory Nat :=
  { blocks := [], trace := [], tracked := [] }

/-- The memory after `reserve(1)` on a default-constructed container. -/
def exM1 : Memory Nat :=
  { blocks := [{ count := 1, policy := AllocationPolicy.HOST_MEM, cells := [none],
                 live := true }],
    trace := [Event.allocate 1 1 AllocationPolicy.HOST_MEM], tracked := [] }

/-- The container after the default constructor and `reserve(1)`. -/
def exC1 : qs_vector Nat :=
  { _data := 1, _capacity := 1, _size := 0, _isOpen := false,
    _memPolicy := AllocationPolicy.HOST_MEM, _label := List.replicate 64 0,
    _tracking := false }

/-- The container `exC1` after `Open()`. -/
def exC2 : qs_vector Nat :=
  { exC1 with _isOpen := true }

/-- The container `exC2` after `push_back(5)`: open, and full. -/
def exFull : qs_vector Nat :=
  { exC2 with _size := 1 }

/-- The memory after that `push_back(5)`. -/
def exFullMem : Memory Nat :=
  { blocks := [{ count := 1, policy := AllocationPolicy.HOST_MEM, cells := [some 5],
                 live := true }],
    trace := [Event.allocate 1 1 AllocationPolicy.HOST_MEM], tracked := [] }

/-- The container `exC1` after `atomic_Index_Inc(2)`: its size is past its
capacity. -/
def exOver : qs_vector Nat :=
  { exC1 with _size := 2 }

/-- A memory with two live buffers, of one and of four elements. -/
def exTwo : Memory Nat :=
  { blocks := [{ count := 1, policy := AllocationPolicy.HOST_MEM, cells := [some 5],
                 live := true },
               { count := 4, policy := AllocationPolicy.OTHER 1,
                 cells := [some 7, some 8, none, none], live := true }],
    trace := [Event.allocate 1 1 AllocationPolicy.HOST_MEM,
              Event.allocate 2 4 (AllocationPolicy.OTHER 1)],
    tracked := [] }

/-- The owner of the first buffer of `exTwo`. -/
def exA : qs_vector Nat :=
  { _data := 1, _capacity := 1, _size := 1, _isOpen := false,
    _memPolicy := AllocationPolicy.HOST_MEM, _label := List.replicate 64 0,
    _tracking := false }

/-- The owner of the second buffer of `exTwo`: open, two of four elements. -/
def exB : qs_vector Nat :=
  { _data := 2, _capacity := 4, _size := 2, _isOpen := true,
    _memPolicy := AllocationPolicy.OTHER 1, _label := List.replicate 64 0,
    _tracking := false }

/-- The memory after `reserve(100)` on a default-constructed container. -/
def exM100 : Memory Nat :=
  { blocks := [{ count := 100, policy := AllocationPolicy.HOST_MEM,
                 cells := List.replicate 100 none, live := true }],
    trace := [Event.allocate 1 100 AllocationPolicy.HOST_MEM], tracked := [] }

/-- The container after the default constructor and `reserve(100)`: capacity
100, size 0. -/
def exC100 : qs_vector Nat :=
  { _data := 1, _capacity := 100, _size := 0, _isOpen := false,
    _memPolicy := AllocationPolicy.HOST_MEM, _label := List.replicate 64 0,
    _tracking := false }

/-- The largest value of `int` (32 bits, two's complement). -/
def INT_MAX : Int :=
  2147483647

/-- The smallest value of `int`. -/
def INT_MIN : Int :=
  -2147483648

/-- The integer is a value of `int`. -/
def isInt (x : Int) : Prop :=
  INT_MIN ≤ x ∧ x ≤ INT_MAX

instance (x : Int) : Decidable (isInt x) := by
  unfold isInt
  infer_instance

/-- The value an `int` holds after the integer `x` is stored in it: the value of
`int` congruent to `x` modulo 2^32 (two's complement wrap-around). -/
def toInt32 (x : Int) : Int :=
  (x - INT_MIN) % 4294967296 + INT_MIN

/-- Modelled from the spec: the macro `ATOMIC_CAPTURE(x, v, p)` of the absent
AtomicMacro.hh, an atomic fetch-and-add returning the pre-update value, on an
`int` variable `x`: the sum is stored with wrap-around.  The pair is the new `x`
and the captured `p`. -/
def int32.ATOMIC_CAPTURE (x v : Int) : Int × Int :=
  (toInt32 (x + v), x)

/-- The member `atomic_Index_Inc` (lines 205-212) on 32-bit `int`. -/
def qs_vector.int32.atomic_Index_Inc {T : Type} (inc : Int) (this : qs_vector T)
    (m : Memory T) : Result Int T :=
  let r := int32.ATOMIC_CAPTURE this._size inc
  Result.ok r.2 { this with _size := r.1 } m

/-- Concurrent callers of `atomic_Index_Inc` on 32-bit `int`: caller `k` asks for
`incs[k]`, and `order` lists the callers in the order in which their calls, each
one atomic step, take effect.  Returned: every caller paired with the start
index it got. -/
def qs_vector.int32.atomicCalls {T : Type} (incs : List Int) :
    List Nat → qs_vector T → Memory T → Result (List (Nat × Int)) T
  | [], this, m => Result.ok [] this m
  | k :: rest, this, m =>
    match qs_vector.int32.atomic_Index_Inc (incs.getD k 0) this m with
    | Result.ok r this1 m1 =>
      match qs_vector.int32.atomicCalls incs rest this1 m1 with
      | Result.ok rs this2 m2 => Result.ok ((k, r) :: rs) this2 m2
      | Result.abort this2 m2 => Result.abort this2 m2
      | Result.undefined => Result.undefined
    | Result.abort this1 m1 => Result.abort this1 m1
    | Result.undefined => Result.undefined

/-- A pointer `T*` into a buffer: the block it points into and the index of the
element it points at. -/
structure Ptr where
  block : Nat
  index : Int
  deriving DecidableEq

/-- The assignment `_data[i] = list[i - size]` in the loop of `appendList`: the
element is read through the pointer `list`, then written. -/
def appendElem {T : Type} (list : Ptr) (size : Int) (data : Nat) (i : Int)
    (m : Memory T) : Option (Memory T) :=
  match load m list.block (list.index + (i - size)) with
  | none => none
  | some v => store m data i v

/-- The member `appendList` (lines 189-201) on 32-bit `int`, with the argument
`list` a pointer into the memory: the sum `_size + listSize` of the assertion
and of `_size += listSize` is stored with wrap-around, and every element is read
through `list` at the moment it is copied. -/
def qs_vector.int32.appendList {T : Type} (listSize : Int) (list : Ptr)
    (this : qs_vector T) (m : Memory T) : Result Unit T :=
  if toInt32 (this._size + listSize) < this._capacity then
    let size := this._size
    let this1 := { this with _size := toInt32 (this._size + listSize) }
    match forLoop (appendElem list size this1._data) (this1._size - size).toNat size m with
    | none => Result.undefined
    | some m1 => Result.ok () this1 m1
  else Result.abort this m

/-! ## Several containers in one memory -/

/-- A write `c[index] = v` through the reference that the non-const `operator[]`
(lines 115-118) returns. -/
def qs_vector.operator_index_assign {T : Type} (index : Int) (v : T) (this : qs_vector T)
    (m : Memory T) : Result Unit T :=
  match store m this._data index (some v) with
  | none => Result.undefined
  | some m1 => Result.ok () this m1

/-- The object and the memory a call leaves when it returns; `none` when it
aborts or has undefined behaviour. -/
def Result.state? {α T : Type} : Result α T → Option (qs_vector T × Memory T)
  | Result.ok _ this m => some (this, m)
  | Result.abort _ _ => none
  | Result.undefined => none

/-- The public member functions that can change the object or the memory, with
their arguments. -/
inductive Method (T : Type)
  | set_label (label : Option (List Nat))
  | push_back (dataElem : T)
  | Open
  | Close
  | operator_index_assign (index : Int) (v : T)
  | reserve (size : Int) (memPolicy : AllocationPolicy)
  | resize (size : Int) (memPolicy : AllocationPolicy)
  | resize_value (size : Int) (value : T) (memPolicy : AllocationPolicy)
  | eraseEnd (NewEnd : Int)
  | pop_back
  | clear
  | appendList (listSize : Int) (list : Nat → T)
  | atomic_Index_Inc (inc : Int)

/-- One call of a member function on the object `this`: the object and the
memory it leaves, `none` when the call does not return. -/
def Method.run {T : Type} (cfg : Build) :
    Method T → qs_vector T → Memory T → Option (qs_vector T × Memory T)
  | Method.set_label label, this, m => some (qs_vector.set_label cfg label this m)
  | Method.push_back dataElem, this, m => (qs_vector.push_back dataElem this m).state?
  | Method.Open, this, m => (qs_vector.Open this m).state?
  | Method.Close, this, m => (qs_vector.Close this m).state?
  | Method.operator_index_assign index v, this, m =>
    (qs_vector.operator_index_assign index v this m).state?
  | Method.reserve size memPolicy, this, m => (qs_vector.reserve cfg size memPolicy this m).state?
  | Method.resize size memPolicy, this, m => (qs_vector.resize cfg size memPolicy this m).state?
  | Method.resize_value size value memPolicy, this, m =>
    (qs_vector.resize_value cfg size value memPolicy this m).state?
  | Method.eraseEnd NewEnd, this, m => (qs_vector.eraseEnd NewEnd this m).state?
  | Method.pop_back, this, m => (qs_vector.pop_back this m).state?
  | Method.clear, this, m => (qs_vector.clear this m).state?
  | Method.appendList listSize list, this, m =>
    (qs_vector.appendList listSize list this m).state?
  | Method.atomic_Index_Inc inc, this, m => (qs_vector.atomic_Index_Inc inc this m).state?

/-- The objects of a program, by address, and the memory they share.  An
address whose object was destroyed holds `none`. -/
structure World (T : Type) where
  objs : List (Option (qs_vector T))
  mem : Memory T
  deriving DecidableEq

/-- The world before any object is constructed. -/
def World.empty {T : Type} : World T :=
  { objs := [], mem := { blocks := [], trace := [], tracked := [] } }

/-- The live object at an address, if any. -/
def World.get? {T : Type} (w : World T) (a : Nat) : Option (qs_vector T) :=
  match w.objs[a]? with
  | some (some c) => some c
  | _ => none

/-- The public operations on a world of containers: the four constructors (the
new object takes the next address), the destructor, copy assignment
`this = aa`, `this.swap(other)`, and a member call on the object at `this`. -/
inductive Op (T : Type)
  | construct
  | construct_sized (size : Int) (memPolicy : AllocationPolicy) (label : Option (List Nat))
  | construct_filled (size : Int) (value : T) (memPolicy : AllocationPolicy)
      (label : Option (List Nat))
  | construct_copy (aa : Nat)
  | destruct (this : Nat)
  | assign (this aa : Nat)
  | swap (this other : Nat)
  | call (this : Nat) (f : Method T)

/-- One operation on a world: the world it leaves, `none` when an address names
no live object or the operation does not return. -/
def step {T : Type} (cfg : Build) : Op T → World T → Option (World T)
  | Op.construct, w => some { objs := w.objs ++ [some qs_vector.default], mem := w.mem }
  | Op.construct_sized size memPolicy label, w =>
    match (qs_vector.sized cfg size memPolicy label w.mem).state? with
    | some s => some { objs := w.objs ++ [some s.1], mem := s.2 }
    | none => none
  | Op.construct_filled size value memPolicy label, w =>
    match (qs_vector.filled cfg size value memPolicy label w.mem).state? with
    | some s => some { objs := w.objs ++ [some s.1], mem := s.2 }
    | none => none
  | Op.construct_copy aa, w =>
    match w.get? aa with
    | some src =>
      match (qs_vector.copy cfg src w.mem).state? with
      | some s => some { objs := w.objs ++ [some s.1], mem := s.2 }
      | none => none
    | none => none
  | Op.destruct this, w =>
    match w.get? this with
    | some c => some { objs := w.objs.set this none, mem := qs_vector.destroy cfg c w.mem }
    | none => none
  | Op.assign this aa, w =>
    match w.get? this, w.get? aa with
    | some c, some src =>
      match (qs_vector.operator_assign cfg this aa c src w.mem).state? with
      | some s => some { objs := w.objs.set this (some s.1), mem := s.2 }
      | none => none
    | _, _ => none
  | Op.swap this other, w =>
    match w.get? this, w.get? other with
    | some c, some d =>
      some { objs := (w.objs.set this (some (qs_vector.swap c d).1)).set other
                       (some (qs_vector.swap c d).2),
             mem := w.mem }
    | _, _ => none
  | Op.call this f, w =>
    match w.get? this with
    | some c =>
      match f.run cfg c w.mem with
      | some s => some { objs := w.objs.set this (some s.1), mem := s.2 }
      | none => none
    | none => none

/-- A sequence of operations, each on the world the one before left; `none` as
soon as one of them does not return. -/
def run {T : Type} (cfg : Build) : List (Op T) → World T → Option (World T)
  | [], w => some w
  | op :: ops, w =>
    match step cfg op w with
    | some w1 => run cfg ops w1
    | none => none

/-- The caller contract of a member call: the element count asked for is a
non-negative `int`, a write goes to an index inside the buffer, and the size
stays within `[0, capacity]`. -/
def Method.inContract {T : Type} : Method T → qs_vector T → Bool
  | Method.push_back _, c => decide (c._size < c._capacity)
  | Method.operator_index_assign index _, c => decide (0 ≤ index ∧ index < c._capacity)
  | Method.reserve size _, _ => decide (0 ≤ size ∧ size ≤ INT_MAX)
  | Method.resize size _, _ => decide (0 ≤ size ∧ size ≤ INT_MAX)
  | Method.resize_value size _ _, _ => decide (0 ≤ size ∧ size ≤ INT_MAX)
  | Method.eraseEnd NewEnd, c => decide (0 ≤ NewEnd ∧ NewEnd ≤ c._size)
  | Method.pop_back, c => decide (0 < c._size)
  | Method.appendList listSize _, c =>
    decide (0 ≤ listSize ∧ c._size + listSize < c._capacity)
  | Method.atomic_Index_Inc inc, c => decide (0 ≤ inc ∧ inc ≤ c._capacity - c._size)
  | _, _ => true

/-- The caller contract of an operation: the one of the member call, and for a
sized constructor an element count that is a non-negative `int`. -/
def Op.inContract {T : Type} : Op T → World T → Bool
  | Op.construct_sized size _ _, _ => decide (0 ≤ size ∧ size ≤ INT_MAX)
  | Op.construct_filled size _ _ _, _ => decide (0 ≤ size ∧ size ≤ INT_MAX)
  | Op.call this f, w =>
    match w.get? this with
    | some c => f.inContract c
    | none => true
  | _, _ => true

/-- Every operation of a sequence is called inside its contract, in the world
the operations before it left. -/
def allInContract {T : Type} (cfg : Build) : List (Op T) → World T → Bool
  | [], _ => true
  | op :: ops, w =>
    op.inContract w &&
      match step cfg op w with
      | some w1 => allInContract cfg ops w1
      | none => true

/-- A `qs_assert` of the member call fails on the object: `push_back` on a closed
container, `reserve` or `resize` on a capacity other than 0, `appendList` with
`size + listSize >= capacity`. -/
def Method.asserts {T : Type} : Method T → qs_vector T → Bool
  | Method.push_back _, c => !c._isOpen
  | Method.reserve _ _, c => decide (c._capacity ≠ 0)
  | Method.resize _ _, c => decide (c._capacity ≠ 0)
  | Method.resize_value _ _ _, c => decide (c._capacity ≠ 0)
  | Method.appendList listSize _, c => decide (¬ c._size + listSize < c._capacity)
  | _, _ => false

/-- The operation halts without undefined behaviour: an address it is given
names no live object, or a `qs_assert` of the member call fails. -/
def Op.halts {T : Type} : Op T → World T → Bool
  | Op.construct_copy aa, w => (w.get? aa).isNone
  | Op.destruct this, w => (w.get? this).isNone
  | Op.assign this aa, w => (w.get? this).isNone || (w.get? aa).isNone
  | Op.swap this other, w => (w.get? this).isNone || (w.get? other).isNone
  | Op.call this f, w =>
    match w.get? this with
    | some c => f.asserts c
    | none => true
  | _, _ => false

/-- The operation ends the lifetime of the object at `a` or exchanges its whole
state: its destructor, a copy assignment to it, a swap with it. -/
def Op.rebinds {T : Type} (a : Nat) : Op T → Bool
  | Op.destruct this => decide (this = a)
  | Op.assign this _ => decide (this = a)
  | Op.swap this other => decide (this = a) || decide (other = a)
  | _ => false

/-- The operation is the call `Open()` or `Close()` on the object at `a`. -/
def Op.opensOrCloses {T : Type} (a : Nat) : Op T → Bool
  | Op.call this Method.Open => decide (this = a)
  | Op.call this Method.Close => decide (this = a)
  | _ => false

/-- The operation is a member call on the object at `a`. -/
def Op.isCallOn {T : Type} (a : Nat) : Op T → Bool
  | Op.call this _ => decide (this = a)
  | _ => false

/-- The block named by `_data`, if any, was requested from the policy the
container records. -/
def PolicyOK {T : Type} (m : Memory T) (c : qs_vector T) : Prop :=
  match m.block? c._data with
  | some b => b.policy = c._memPolicy
  | none => True

instance {T : Type} (m : Memory T) (c : qs_vector T) : Decidable (PolicyOK m c) :=
  match h : m.block? c._data with
  | some b => decidable_of_iff (b.policy = c._memPolicy) (by unfold PolicyOK; rw [h])
  | none => isTrue (by unfold PolicyOK; rw [h]; trivial)

/-- The record of calls matches the blocks: `allocate` was called for a pointer
with a count and a policy exactly when the pointer names a block requested with
that count and policy. -/
def MemOK {T : Type} (m : Memory T) : Prop :=
  ∀ (q : Nat) (n : Int) (p : AllocationPolicy),
    Event.allocate q n p ∈ m.trace ↔ ∃ b, m.block? q = some b ∧ b.count = n ∧ b.policy = p

/-- Every call `deallocate(q, n, p)` on record with a non-null pointer names the
policy of the call `allocate` that returned `q`. -/
def DeallocOK {T : Type} (m : Memory T) : Prop :=
  ∀ (q : Nat) (n : Int) (p : AllocationPolicy),
    Event.deallocate q n p ∈ m.trace → q = 0 ∨ ∃ n1, Event.allocate q n1 p ∈ m.trace

/-- The memory `m1` comes from `m` by writes into the buffer `p` only: the record
of calls is the same, every other block is the same, and the block named by `p`
differs at most in what its slots hold. -/
def StoresTo {T : Type} (p : Nat) (m m1 : Memory T) : Prop :=
  m1.trace = m.trace ∧ (∀ q, q ≠ p → m1.block? q = m.block? q) ∧
    (∀ b, m.block? p = some b →
      ∃ cells1, m1.block? p = some { b with cells := cells1 } ∧
        cells1.length = b.cells.length) ∧
    (m.block? p = none → m1.block? p = none)

/-- The call on `c` in `m` left `c1` in `m1` with the buffer it had: same
pointer, capacity and policy, and only that buffer written. -/
def KeepsBuffer {T : Type} (c : qs_vector T) (m : Memory T) (c1 : qs_vector T)
    (m1 : Memory T) : Prop :=
  c1._data = c._data ∧ c1._capacity = c._capacity ∧ c1._memPolicy = c._memPolicy ∧
    StoresTo c._data m m1

/-- The object `c1` in `m1` holds a buffer obtained from the memory `m` by one
call `allocate(c1._capacity, c1._memPolicy)`, and nothing else of `m` changed. -/
def FreshBuffer {T : Type} (m : Memory T) (c1 : qs_vector T) (m1 : Memory T) : Prop :=
  c1._data = m.blocks.length + 1 ∧
    m1.trace = m.trace ++ [Event.allocate (m.blocks.length + 1) c1._capacity c1._memPolicy] ∧
    (∃ cells1, m1.block? (m.blocks.length + 1) =
        some { count := c1._capacity, policy := c1._memPolicy, cells := cells1, live := true } ∧
      cells1.length = c1._capacity.toNat) ∧
    ∀ q, q ≠ m.blocks.length + 1 → m1.block? q = m.block? q

/-- The invariant of a world: the record of calls matches the blocks, every live
object owns its storage under the policy it records, and two live objects never
share a buffer. -/
def WorldOK {T : Type} (w : World T) : Prop :=
  MemOK w.mem ∧ DeallocOK w.mem ∧
    (∀ a c, w.get? a = some c → ValidStorage w.mem c ∧ PolicyOK w.mem c) ∧
    ∀ a b ca cb, a ≠ b → w.get? a = some ca → w.get? b = some cb →
      ca._data = 0 ∨ ca._data ≠ cb._data

/-- The size invariant of the spec, for every live object of a world. -/
def SizeOK {T : Type} (w : World T) : Prop :=
  ∀ a c, w.get? a = some c → 0 ≤ c._size ∧ c._size ≤ c._capacity

/-- A run inside every caller contract: a container is default-constructed,
reserves two elements from policy 1, is opened and takes one element; a second
container is copy-constructed from it and loses its last element. -/
def exRunOps : List (Op Nat) :=
  [Op.construct, Op.call 0 (Method.reserve 2 (AllocationPolicy.OTHER 1)),
   Op.call 0 Method.Open, Op.call 0 (Method.push_back 7), Op.construct_copy 0,
   Op.call 1 Method.pop_back]

/-- The first container of the world `exRunOps` leaves. -/
def exRun0 : qs_vector Nat :=
  { _data := 1, _capacity := 2, _size := 1, _isOpen := true,
    _memPolicy := AllocationPolicy.OTHER 1, _label := List.replicate 64 0,
    _tracking := false }

/-- The second container of the world `exRunOps` leaves. -/
def exRun1 : qs_vector Nat :=
  { _data := 2, _capacity := 2, _size := 0, _isOpen := true,
    _memPolicy := AllocationPolicy.OTHER 1, _label := List.replicate 64 0,
    _tracking := false }

/-- The world `exRunOps` leaves. -/
def exRunW : World Nat :=
  { objs := [some exRun0, some exRun1],
    mem :=
      { blocks := [{ count := 2, policy := AllocationPolicy.OTHER 1,
                     cells := [some 7, none], live := true },
                   { count := 2, policy := AllocationPolicy.OTHER 1,
                     cells := [some 7, none], live := true }],
        trace := [Event.allocate 1 2 (AllocationPolicy.OTHER 1),
                  Event.allocate 2 2 (AllocationPolicy.OTHER 1)],
        tracked := [] } }

/-- Further operations on `exRunW`, none of them a swap with, an assignment to
or the destruction of the container at address 1. -/
def exMoreOps : List (Op Nat) :=
  [Op.call 1 (Method.push_back 9), Op.call 1 (Method.operator_index_assign 1 4),
   Op.call 0 Method.clear, Op.call 1 Method.Close]

/-- The world `exMoreOps` leaves from `exRunW`. -/
def exMoreW : World Nat :=
  { objs := [some { exRun0 with _size := 0 },
             some { exRun1 with _size := 1, _isOpen := false }],
    mem :=
      { blocks := [{ count := 2, policy := AllocationPolicy.OTHER 1,
                     cells := [some 7, none], live := true },
                   { count := 2, policy := AllocationPolicy.OTHER 1,
                     cells := [some 9, some 4], live := true }],
        trace := [Event.allocate 1 2 (AllocationPolicy.OTHER 1),
                  Event.allocate 2 2 (AllocationPolicy.OTHER 1)],
        tracked := [] } }

/-- The world after the default constructor and `pop_back()`. -/
def exPopW : World Nat :=
  { objs := [some { (qs_vector.default : qs_vector Nat) with _size := -1 }],
    mem := { blocks := [], trace := [], tracked := [] } }

/-- The world after the default constructor, `reserve(1)` and
`atomic_Index_Inc(2)`. -/
def exOverW : World Nat :=
  { objs := [some exOver], mem := exM1 }

/-- The world after the default constructor, `reserve(1)`, `Open()` and
`push_back(5)`: one open container, full. -/
def exFullW : World Nat :=
  { objs := [some exFull], mem := exFullMem }

/-- The default-constructed container after `Open()`: open, with no buffer. -/
def exOpen0 : qs_vector Nat :=
  { (qs_vector.default : qs_vector Nat) with _isOpen := true }

/-- Operations on `exMoreW` without `Open()` on, a swap with, an assignment to or
the destruction of the closed container at address 1. -/
def exShutOps : List (Op Nat) :=
  [Op.call 1 Method.pop_back, Op.call 0 (Method.push_back 3), Op.call 1 Method.Close]

/-- The world `exShutOps` leaves from `exMoreW`. -/
def exShutW : World Nat :=
  { objs := [some exRun0, some { exRun1 with _size := 0, _isOpen := false }],
    mem :=
      { blocks := [{ count := 2, policy := AllocationPolicy.OTHER 1,
                     cells := [some 3, none], live := true },
                   { count := 2, policy := AllocationPolicy.OTHER 1,
                     cells := [some 9, some 4], live := true }],
        trace := [Event.allocate 1 2 (AllocationPolicy.OTHER 1),
                  Event.allocate 2 2 (AllocationPolicy.OTHER 1)],
        tracked := [] } }

/-- The first four operations of `exRunOps`: they build the container `exRun0`. -/
def exSrcOps : List (Op Nat) :=
  [Op.construct, Op.call 0 (Method.reserve 2 (AllocationPolicy.OTHER 1)),
   Op.call 0 Method.Open, Op.call 0 (Method.push_back 7)]

/-- The world `exSrcOps` leaves. -/
def exSrcW : World Nat :=
  { objs := [some exRun0],
    mem :=
      { blocks := [{ count := 2, policy := AllocationPolicy.OTHER 1,
                     cells := [some 7, none], live := true }],
        trace := [Event.allocate 1 2 (AllocationPolicy.OTHER 1)],
        tracked := [] } }

/-- The world after copy construction from the container of `exSrcW`. -/
def exCopyW : World Nat :=
  { objs := [some exRun0, some { exRun1 with _size := 1 }], mem := exRunW.mem }

/-- Member calls on the copy at address 1. -/
def exCopyMuts : List (Op Nat) :=
  [Op.call 1 Method.pop_back, Op.call 1 (Method.push_back 9),
   Op.call 1 (Method.operator_index_assign 1 4), Op.call 1 Method.clear]

/-- The world `exCopyMuts` leaves from `exCopyW`. -/
def exMutW : World Nat :=
  { objs := [some exRun0, some exRun1], mem := exMoreW.mem }

/-- The default-constructed container after `atomic_Index_Inc(2147483647)`: its
size is the largest `int`. -/
def exMax : qs_vector Nat :=
  { (qs_vector.default : qs_vector Nat) with _size := 2147483647 }

/-- The container `exMax` after `atomic_Index_Inc(1)` on 32-bit `int`: its size
is the smallest `int`. -/
def exMin : qs_vector Nat :=
  { (qs_vector.default : qs_vector Nat) with _size := -2147483648 }

/-- The operation is the call `Open()` on the object at `a`. -/
def Op.opens {T : Type} (a : Nat) : Op T → Bool
  | Op.call this Method.Open => decide (this = a)
  | _ => false

/-- The member function is `Open` or `Close`. -/
def Method.isOpenClose {T : Type} : Method T → Bool
  | Method.Open => true
  | Method.Close => true
  | _ => false

section Lemmas

variable {T : Type}

theorem block?_succ (m : Memory T) (k : Nat) : m.block? (k + 1) = m.blocks[k]? := rfl

theorem block?_fresh (m : Memory T) : m.block? (m.blocks.length + 1) = none := by
  simp [Memory.block?]

theorem block?_lt (m : Memory T) (p : Nat) (b : Block T) (h : m.block? p = some b) :
    p ≠ 0 ∧ p ≤ m.blocks.length := by
  cases p with
  | zero => simp [Memory.block?] at h
  | succ k =>
    simp only [Memory.block?] at h
    have := (List.getElem?_eq_some.1 h).1
    omega

theorem allocate_fst (count : Int) (policy : AllocationPolicy) (m : Memory T) :
    (allocate count policy m).1 = m.blocks.length + 1 := rfl

theorem allocate_trace (count : Int) (policy : AllocationPolicy) (m : Memory T) :
    (allocate count policy m).2.trace =
      m.trace ++ [Event.allocate (m.blocks.length + 1) count policy] := rfl

theorem allocate_block?_new (count : Int) (policy : AllocationPolicy) (m : Memory T) :
    (allocate count policy m).2.block? (m.blocks.length + 1) =
      some { count := count, policy := policy, cells := List.replicate count.toNat none,
             live := true } := by
  simp [Memory.block?, allocate]

theorem allocate_block?_old (count : Int) (policy : AllocationPolicy) (m : Memory T) (q : Nat)
    (hq : q ≠ m.blocks.length + 1) :
    (allocate count policy m).2.block? q = m.block? q := by
  cases q with
  | zero => rfl
  | succ k =>
    simp only [Memory.block?, allocate]
    rcases Nat.lt_or_ge k m.blocks.length with h | h
    · rw [List.getElem?_append_left h]
    · have hk : m.blocks.length < k := by omega
      rw [List.getElem?_eq_none (by simp; omega), List.getElem?_eq_none (by omega)]

theorem load_of_block (m : Memory T) (p : Nat) (b : Block T) (i : Int)
    (hb : m.block? p = some b) (hl : b.live = true) (hi : 0 ≤ i) :
    load m p i = b.cells[i.toNat]? := by
  simp [load, hb, hl, hi]

theorem store_spec (m : Memory T) (p : Nat) (b : Block T) (i : Int) (v : Option T)
    (hb : m.block? p = some b) (hl : b.live = true) (hi : 0 ≤ i)
    (hlt : i.toNat < b.cells.length) :
    ∃ m1, store m p i v = some m1 ∧ m1.trace = m.trace ∧
      m1.blocks.length = m.blocks.length ∧
      m1.block? p = some { b with cells := b.cells.set i.toNat v } ∧
      ∀ q, q ≠ p → m1.block? q = m.block? q := by
  cases p with
  | zero => simp [Memory.block?] at hb
  | succ k =>
    simp only [Memory.block?] at hb
    have hk := (List.getElem?_eq_some.1 hb).1
    refine ⟨{ m with blocks := m.blocks.set k { b with cells := b.cells.set i.toNat v } },
      by simp [store, hb, hl, hi, hlt], rfl, by simp, ?_, ?_⟩
    · simp [Memory.block?, hk]
    · intro q hq
      cases q with
      | zero => rfl
      | succ j =>
        have : k ≠ j := by omega
        simp [Memory.block?, List.getElem?_set_ne this]

theorem store_eq_none_of (m : Memory T) (p : Nat) (i : Int) (v : Option T)
    (h : ∀ b, m.block? p = some b → ¬ (b.live = true ∧ 0 ≤ i ∧ i.toNat < b.cells.length)) :
    store m p i v = none := by
  cases p with
  | zero => rfl
  | succ k =>
    simp only [store]
    cases hb : m.blocks[k]? with
    | none => rfl
    | some b =>
      have := h b (by simpa [Memory.block?] using hb)
      simp [this]


theorem forLoop_store_spec (Inv : Memory T → Prop)
    (body : Int → Memory T → Option (Memory T)) (p : Nat) (f : Int → Option T)
    (hInv : ∀ i v mm mm1, Inv mm → store mm p i v = some mm1 → Inv mm1)
    (n : Nat) : ∀ (lo : Nat) (m : Memory T) (b : Block T),
      (∀ (j : Nat) mm, lo ≤ j → j < lo + n → Inv mm → body j mm = store mm p j (f j)) →
      Inv m → m.block? p = some b →
      b.live = true → lo + n ≤ b.cells.length →
      ∃ m1 cells1, forLoop body n (lo : Int) m = some m1 ∧ m1.trace = m.trace ∧
        m1.blocks.length = m.blocks.length ∧
        m1.block? p = some { b with cells := cells1 } ∧ cells1.length = b.cells.length ∧
        (∀ j : Nat, cells1[j]? =
          if lo ≤ j ∧ j < lo + n then some (f (j : Int)) else b.cells[j]?) ∧
        (∀ q, q ≠ p → m1.block? q = m.block? q) ∧ Inv m1 := by
  induction n with
  | zero =>
    intro lo m b _ hI hb _ _
    refine ⟨m, b.cells, rfl, rfl, rfl, hb, rfl, ?_, fun _ _ => rfl, hI⟩
    intro j
    have : ¬ (lo ≤ j ∧ j < lo + 0) := by omega
    rw [if_neg this]
  | succ n ih =>
    intro lo m b hbody hI hb hl hlen
    obtain ⟨m1, hst, htr, hlen1, hb1, hframe⟩ :=
      store_spec m p b (lo : Int) (f lo) hb hl (by omega) (by simp; omega)
    obtain ⟨m2, cells2, hloop, htr2, hlen2, hb2, hc2, hget, hframe2, hI2⟩ :=
      ih (lo + 1) m1 _ (fun j mm h1 h2 hmm => hbody j mm (by omega) (by omega) hmm)
        (hInv _ _ _ _ hI hst) hb1 hl (by simp; omega)
    refine ⟨m2, cells2, ?_, by rw [htr2, htr], by rw [hlen2, hlen1], hb2, by simpa using hc2,
      ?_, fun q hq => by rw [hframe2 q hq, hframe q hq], hI2⟩
    · simp only [forLoop, hbody lo m (le_refl _) (by omega) hI, hst]
      simpa using hloop
    · intro j
      rw [hget j]
      simp only [Int.toNat_ofNat]
      by_cases h1 : lo + 1 ≤ j ∧ j < lo + 1 + n
      · have : lo ≤ j ∧ j < lo + (n + 1) := by omega
        simp [h1, this]
      · by_cases h2 : lo = j
        · subst h2
          have : lo ≤ lo ∧ lo < lo + (n + 1) := by omega
          rw [if_neg h1, if_pos this, List.getElem?_set_self (by omega)]
        · have : ¬ (lo ≤ j ∧ j < lo + (n + 1)) := by omega
          rw [if_neg h1, if_neg this, List.getElem?_set_ne h2]


theorem load_congr (m m1 : Memory T) (q : Nat) (i : Int) (h : m1.block? q = m.block? q) :
    load m1 q i = load m q i := by
  simp [load, h]

namespace qs_vector

theorem apply_label_frame (cfg : Build) (this : qs_vector T) (m : Memory T) :
    (apply_label cfg this m).1._data = this._data ∧
    (apply_label cfg this m).1._capacity = this._capacity ∧
    (apply_label cfg this m).1._size = this._size ∧
    (apply_label cfg this m).1._isOpen = this._isOpen ∧
    (apply_label cfg this m).1._memPolicy = this._memPolicy ∧
    (apply_label cfg this m).1._label = this._label ∧
    (apply_label cfg this m).2.blocks = m.blocks ∧
    (apply_label cfg this m).2.trace = m.trace := by
  unfold apply_label
  split_ifs <;> simp

theorem delete_label_frame (cfg : Build) (this : qs_vector T) (m : Memory T) :
    (delete_label cfg this m).1._data = this._data ∧
    (delete_label cfg this m).1._capacity = this._capacity ∧
    (delete_label cfg this m).1._size = this._size ∧
    (delete_label cfg this m).1._isOpen = this._isOpen ∧
    (delete_label cfg this m).1._memPolicy = this._memPolicy ∧
    (delete_label cfg this m).1._label = this._label ∧
    (delete_label cfg this m).2.blocks = m.blocks ∧
    (delete_label cfg this m).2.trace = m.trace := by
  unfold delete_label
  split_ifs <;> simp

theorem set_label_frame (cfg : Build) (label : Option (List Nat)) (this : qs_vector T)
    (m : Memory T) :
    (set_label cfg label this m).1._data = this._data ∧
    (set_label cfg label this m).1._capacity = this._capacity ∧
    (set_label cfg label this m).1._size = this._size ∧
    (set_label cfg label this m).1._isOpen = this._isOpen ∧
    (set_label cfg label this m).1._memPolicy = this._memPolicy ∧
    (set_label cfg label this m).2.blocks = m.blocks ∧
    (set_label cfg label this m).2.trace = m.trace := by
  obtain ⟨d1, d2, d3, d4, d5, _, d7, d8⟩ := delete_label_frame cfg this m
  unfold set_label
  cases label with
  | none => exact ⟨d1, d2, d3, d4, d5, d7, d8⟩
  | some l =>
    simp only
    split_ifs
    · obtain ⟨a1, a2, a3, a4, a5, _, a7, a8⟩ := apply_label_frame cfg
        { (delete_label cfg this m).1 with
          _label := strncpy l 63 ++ (List.replicate 64 0).drop 63 } (delete_label cfg this m).2
      exact ⟨by rw [a1]; exact d1, by rw [a2]; exact d2, by rw [a3]; exact d3,
        by rw [a4]; exact d4, by rw [a5]; exact d5, by rw [a7]; exact d7, by rw [a8]; exact d8⟩
    · exact ⟨d1, d2, d3, d4, d5, d7, d8⟩

theorem block?_of_blocks_eq (m m1 : Memory T) (h : m1.blocks = m.blocks) (q : Nat) :
    m1.block? q = m.block? q := by
  cases q with
  | zero => rfl
  | succ k => simp [Memory.block?, h]

end qs_vector

end Lemmas

/-! ## Operations and claims -/

namespace qs_vector

section Operations

variable {T : Type}

theorem store_some_frame (m m1 : Memory T) (p : Nat) (i : Int) (v : Option T)
    (h : store m p i v = some m1) :
    m1.trace = m.trace ∧ ∀ q, q ≠ p → m1.block? q = m.block? q := by
  cases p with
  | zero => simp [store] at h
  | succ k =>
    simp only [store] at h
    cases hb : m.blocks[k]? with
    | none => simp [hb] at h
    | some b =>
      rw [hb] at h
      simp only at h
      split_ifs at h
      cases h
      refine ⟨rfl, ?_⟩
      intro q hq
      cases q with
      | zero => rfl
      | succ j =>
        have : k ≠ j := by omega
        simp [Memory.block?, List.getElem?_set_ne this]

theorem validStorage_block (m : Memory T) (c : qs_vector T) (hv : ValidStorage m c)
    (hc : 0 < c._capacity) :
    ∃ b, m.block? c._data = some b ∧ b.live = true ∧ b.count = c._capacity ∧
      b.cells.length = c._capacity.toNat := by
  unfold ValidStorage at hv
  cases hb : m.block? c._data with
  | none =>
    rw [hb] at hv
    simp only at hv
    omega
  | some b =>
    rw [hb] at hv
    exact ⟨b, rfl, hv⟩

theorem validStorage_ne_fresh (m : Memory T) (c : qs_vector T) (hv : ValidStorage m c) :
    c._data ≠ m.blocks.length + 1 := by
  unfold ValidStorage at hv
  cases hb : m.block? c._data with
  | none =>
    rw [hb] at hv
    simp only at hv
    omega
  | some b =>
    have := block?_lt m _ b hb
    omega

theorem load_store_frame (m m1 : Memory T) (p : Nat) (b : Block T) (n : Nat) (v : Option T)
    (hb : m.block? p = some b)
    (hb1 : m1.block? p = some { b with cells := b.cells.set n v })
    (hfr : ∀ q, q ≠ p → m1.block? q = m.block? q) (q : Nat) (i : Int)
    (h : q ≠ p ∨ i ≠ (n : Int)) : load m1 q i = load m q i := by
  by_cases hq : q = p
  · subst hq
    have hi : i ≠ (n : Int) := by
      rcases h with h | h
      · exact absurd rfl h
      · exact h
    simp only [load, hb, hb1]
    by_cases hc : b.live = true ∧ 0 ≤ i
    · rw [if_pos hc, if_pos hc, List.getElem?_set_ne (by omega)]
    · rw [if_neg hc, if_neg hc]
  · exact load_congr m m1 q i (hfr q hq)

theorem takeWhile_nonzero (s : List Nat) (k : Nat) (hs : ∀ ch ∈ s, ch ≠ 0) :
    (s ++ List.replicate k 0).takeWhile (fun ch => ch != 0) = s := by
  induction s with
  | nil =>
    cases k with
    | zero => simp
    | succ k => simp [List.replicate_succ]
  | cons a t ih =>
    have ha : a ≠ 0 := hs a (by simp)
    simp only [List.cons_append]
    rw [List.takeWhile_cons_of_pos (by simpa using ha), ih (fun ch hch => hs ch (by simp [hch]))]

theorem strncpy_labelOK (s : List Nat) (hs : ∀ ch ∈ s, ch ≠ 0) (hlen : s.length ≤ 63) :
    strncpy (s ++ List.replicate (64 - s.length) 0) 63 ++ (List.replicate 64 0).drop 63 =
      s ++ List.replicate (64 - s.length) 0 := by
  have htake : (s ++ List.replicate (64 - s.length) 0).take 63 =
      s ++ List.replicate (63 - s.length) 0 := by
    rw [List.take_append_eq_append_take, List.take_of_length_le hlen, List.take_replicate]
    congr 2
    omega
  unfold strncpy
  rw [htake, takeWhile_nonzero s _ hs, List.drop_replicate, List.append_assoc,
    List.append_replicate_replicate]
  congr 2
  omega

theorem labelOK_exists (l : List Nat) (h : LabelOK l) :
    ∃ s : List Nat, (∀ ch ∈ s, ch ≠ 0) ∧ s.length ≤ 63 ∧
      l = s ++ List.replicate (64 - s.length) 0 :=
  ⟨l.takeWhile (fun ch => ch != 0), fun _ hch => by simpa using List.mem_takeWhile_imp hch,
    h.1, h.2⟩

theorem labelOK_of_exists (s : List Nat) (hs : ∀ ch ∈ s, ch ≠ 0) (hlen : s.length ≤ 63) :
    LabelOK (s ++ List.replicate (64 - s.length) 0) := by
  unfold LabelOK
  rw [takeWhile_nonzero s _ hs]
  exact ⟨hlen, rfl⟩

theorem labelOK_headD (l : List Nat) (h : LabelOK l) (h0 : ¬ l.headD 0 ≠ 0) :
    l = List.replicate 64 0 := by
  obtain ⟨s, hs, hlen, rfl⟩ := labelOK_exists l h
  cases s with
  | nil => rfl
  | cons a t =>
    exfalso
    apply h0
    simpa using hs a (by simp)

theorem set_label_label (cfg : Build) (l : List Nat) (this : qs_vector T) (m : Memory T)
    (h : LabelOK l) : (set_label cfg (some l) this m).1._label = l := by
  unfold set_label
  simp only
  split_ifs with h0
  · rw [(apply_label_frame cfg _ _).2.2.2.2.2.1]
    obtain ⟨s, hs, hlen, rfl⟩ := labelOK_exists l h
    exact strncpy_labelOK s hs hlen
  · exact (labelOK_headD l h h0).symm

theorem operator_index_of_block (c : qs_vector T) (m : Memory T) (b : Block T) (i : Int)
    (v : Option T) (hb : m.block? c._data = some b) (hl : b.live = true) (hi : 0 ≤ i)
    (hv : b.cells[i.toNat]? = some v) :
    operator_index i c m = Result.ok v c m := by
  simp [operator_index, load_of_block m c._data b i hb hl hi, hv]

theorem fill_spec (value : T) (p n : Nat) (m : Memory T) (b : Block T)
    (hb : m.block? p = some b) (hl : b.live = true) (hn : n ≤ b.cells.length) :
    ∃ m1 cells1, forLoop (fun ii mm => store mm p ii (some value)) n 0 m = some m1 ∧
      m1.trace = m.trace ∧ m1.blocks.length = m.blocks.length ∧
      m1.block? p = some { b with cells := cells1 } ∧ cells1.length = b.cells.length ∧
      (∀ j, j < n → cells1[j]? = some (some value)) ∧
      (∀ j, n ≤ j → cells1[j]? = b.cells[j]?) ∧
      ∀ q, q ≠ p → m1.block? q = m.block? q := by
  obtain ⟨m1, cells1, h1, h2, h3, h4, h5, h6, h7, _⟩ :=
    forLoop_store_spec (fun _ => True) (fun ii mm => store mm p ii (some value)) p
      (fun _ => some value) (fun _ _ _ _ _ _ => trivial) n 0 m b
      (fun _ _ _ _ _ => rfl) trivial hb hl (by omega)
  refine ⟨m1, cells1, by simpa using h1, h2, h3, h4, h5, ?_, ?_, h7⟩
  · intro j hj
    rw [h6 j, if_pos (by omega)]
  · intro j hj
    rw [h6 j, if_neg (by omega)]

theorem reserve_ok (cfg : Build) (N : Int) (policy : AllocationPolicy) (c : qs_vector T)
    (m : Memory T) (h : c._capacity = 0) :
    ∃ c1 m1, reserve cfg N policy c m = Result.ok () c1 m1 ∧
      c1._data = m.blocks.length + 1 ∧ c1._capacity = N ∧ c1._size = c._size ∧
      c1._isOpen = c._isOpen ∧ c1._memPolicy = policy ∧
      m1.blocks = (allocate N policy m).2.blocks ∧
      m1.trace = m.trace ++ [Event.allocate (m.blocks.length + 1) N policy] := by
  obtain ⟨a1, a2, a3, a4, a5, _, a7, a8⟩ := apply_label_frame cfg
    { c with _capacity := N, _memPolicy := policy, _data := (allocate N policy m).1 }
    (allocate N policy m).2
  exact ⟨_, _, by simp only [reserve, h, if_true], a1, a2, a3, a4, a5, a7, a8⟩

theorem resize_ok (cfg : Build) (N : Int) (policy : AllocationPolicy) (c : qs_vector T)
    (m : Memory T) (h : c._capacity = 0) :
    ∃ c1 m1, resize cfg N policy c m = Result.ok () c1 m1 ∧
      c1._data = m.blocks.length + 1 ∧ c1._capacity = N ∧ c1._size = N ∧
      c1._isOpen = c._isOpen ∧ c1._memPolicy = policy ∧
      m1.blocks = (allocate N policy m).2.blocks ∧
      m1.trace = m.trace ++ [Event.allocate (m.blocks.length + 1) N policy] := by
  obtain ⟨a1, a2, a3, a4, a5, _, a7, a8⟩ := apply_label_frame cfg
    { c with _capacity := N, _size := N, _memPolicy := policy,
             _data := (allocate N policy m).1 }
    (allocate N policy m).2
  exact ⟨_, _, by simp only [resize, h, if_true], a1, a2, a3, a4, a5, a7, a8⟩

theorem resize_value_ok (cfg : Build) (N : Int) (value : T) (policy : AllocationPolicy)
    (c : qs_vector T) (m : Memory T) (h : c._capacity = 0) :
    ∃ c1 m1 cells1, resize_value cfg N value policy c m = Result.ok () c1 m1 ∧
      c1._data = m.blocks.length + 1 ∧ c1._capacity = N ∧ c1._size = N ∧
      c1._isOpen = c._isOpen ∧ c1._memPolicy = policy ∧
      m1.block? (m.blocks.length + 1) =
        some { count := N, policy := policy, cells := cells1, live := true } ∧
      cells1.length = N.toNat ∧ (∀ j, j < N.toNat → cells1[j]? = some (some value)) ∧
      (∀ q, q ≠ m.blocks.length + 1 → m1.block? q = m.block? q) ∧
      m1.trace = m.trace ++ [Event.allocate (m.blocks.length + 1) N policy] := by
  obtain ⟨a1, a2, a3, a4, a5, _, a7, a8⟩ := apply_label_frame cfg
    { c with _capacity := N, _size := N, _memPolicy := policy,
             _data := (allocate N policy m).1 }
    (allocate N policy m).2
  have hblk := block?_of_blocks_eq _ _ a7
  obtain ⟨m1, cells1, h1, h2, _, h4, h5, h6, _, h8⟩ :=
    fill_spec value (m.blocks.length + 1) N.toNat
      (apply_label cfg
        { c with _capacity := N, _size := N, _memPolicy := policy,
                 _data := (allocate N policy m).1 } (allocate N policy m).2).2 _
      ((hblk _).trans (allocate_block?_new N policy m)) rfl (by simp)
  refine ⟨(apply_label cfg
        { c with _capacity := N, _size := N, _memPolicy := policy,
                 _data := (allocate N policy m).1 } (allocate N policy m).2).1, m1, cells1,
    ?_, a1, a2, a3, a4, a5, h4, by simpa using h5, h6, ?_, ?_⟩
  · have e1 : (apply_label cfg
        { c with _capacity := N, _size := N, _memPolicy := policy,
                 _data := (allocate N policy m).1 } (allocate N policy m).2).1._data
        = m.blocks.length + 1 := a1
    have e2 : (apply_label cfg
        { c with _capacity := N, _size := N, _memPolicy := policy,
                 _data := (allocate N policy m).1 } (allocate N policy m).2).1._capacity
        = N := a2
    simp only [resize_value, h, if_true, e1, e2, sub_zero, h1]
  · intro q hq
    rw [h8 q hq, hblk, allocate_block?_old N policy m q hq]
  · rw [h2, a8, allocate_trace]

theorem sized_ok (cfg : Build) (N : Int) (policy : AllocationPolicy)
    (label : Option (List Nat)) (m : Memory T) :
    ∃ c m1, sized cfg N policy label m = Result.ok () c m1 ∧
      c._data = m.blocks.length + 1 ∧ c._capacity = N ∧ c._size = N ∧
      c._isOpen = false ∧ c._memPolicy = policy ∧
      m1.blocks = (allocate N policy m).2.blocks ∧
      m1.trace = m.trace ++ [Event.allocate (m.blocks.length + 1) N policy] := by
  obtain ⟨a1, a2, a3, a4, a5, a7, a8⟩ := set_label_frame cfg label
    { _data := (allocate N policy m).1, _capacity := N, _size := N, _memPolicy := policy,
      _isOpen := false, _label := List.replicate 64 0, _tracking := false }
    (allocate N policy m).2
  exact ⟨_, _, rfl, a1, a2, a3, a4, a5, a7, a8⟩

theorem filled_ok (cfg : Build) (N : Int) (value : T) (policy : AllocationPolicy)
    (label : Option (List Nat)) (m : Memory T) :
    ∃ c m1 cells1, filled cfg N value policy label m = Result.ok () c m1 ∧
      c._data = m.blocks.length + 1 ∧ c._capacity = N ∧ c._size = N ∧
      c._isOpen = false ∧ c._memPolicy = policy ∧
      m1.block? (m.blocks.length + 1) =
        some { count := N, policy := policy, cells := cells1, live := true } ∧
      cells1.length = N.toNat ∧ (∀ j, j < N.toNat → cells1[j]? = some (some value)) ∧
      (∀ q, q ≠ m.blocks.length + 1 → m1.block? q = m.block? q) ∧
      m1.trace = m.trace ++ [Event.allocate (m.blocks.length + 1) N policy] := by
  obtain ⟨m1, cells1, h1, h2, _, h4, h5, h6, _, h8⟩ :=
    fill_spec value (m.blocks.length + 1) N.toNat (allocate N policy m).2 _
      (allocate_block?_new N policy m) rfl (by simp)
  obtain ⟨a1, a2, a3, a4, a5, a7, a8⟩ := set_label_frame cfg label
    { _data := (allocate N policy m).1, _capacity := N, _size := N, _memPolicy := policy,
      _isOpen := false, _label := List.replicate 64 0, _tracking := false } m1
  refine ⟨(set_label cfg label
    { _data := (allocate N policy m).1, _capacity := N, _size := N, _memPolicy := policy,
      _isOpen := false, _label := List.replicate 64 0, _tracking := false } m1).1,
    (set_label cfg label
    { _data := (allocate N policy m).1, _capacity := N, _size := N, _memPolicy := policy,
      _isOpen := false, _label := List.replicate 64 0, _tracking := false } m1).2,
    cells1, ?_, a1, a2, a3, a4, a5, ?_, by simpa using h5, h6, ?_, ?_⟩
  · simp only [filled, allocate_fst, sub_zero, h1]
  · rw [block?_of_blocks_eq _ _ a7, h4]
  · intro q hq
    rw [block?_of_blocks_eq _ _ a7, h8 q hq, allocate_block?_old N policy m q hq]
  · rw [a8, h2, allocate_trace]

theorem allocatedFor_of (m m1 : Memory T) (N : Int) (policy : AllocationPolicy)
    (cells1 : List (Option T))
    (hb : m1.block? (m.blocks.length + 1) =
      some { count := N, policy := policy, cells := cells1, live := true })
    (hc : cells1.length = N.toNat) :
    AllocatedFor m m1 (m.blocks.length + 1) N policy :=
  ⟨block?_fresh m, _, hb, rfl, rfl, rfl, hc⟩

theorem allocatedFor_of_blocks (m m1 : Memory T) (N : Int) (policy : AllocationPolicy)
    (hb : m1.blocks = (allocate N policy m).2.blocks) :
    AllocatedFor m m1 (m.blocks.length + 1) N policy :=
  allocatedFor_of m m1 N policy _
    ((block?_of_blocks_eq _ _ hb _).trans (allocate_block?_new N policy m)) (by simp)

theorem copy_ok_nat (cfg : Build) (aa : qs_vector T) (m : Memory T) (hv : ValidStorage m aa)
    (h1 : aa._size.toNat ≤ aa._capacity.toNat) :
    ∃ c2 m1 cells1, copy cfg aa m = Result.ok () c2 m1 ∧
      c2._data = m.blocks.length + 1 ∧ c2._capacity = aa._capacity ∧ c2._size = aa._size ∧
      c2._isOpen = aa._isOpen ∧ c2._memPolicy = aa._memPolicy ∧
      (LabelOK aa._label → c2._label = aa._label) ∧
      m1.block? (m.blocks.length + 1) =
        some { count := aa._capacity, policy := aa._memPolicy, cells := cells1, live := true } ∧
      cells1.length = aa._capacity.toNat ∧
      (∀ j, j < aa._size.toNat → ∃ x, load m aa._data (j : Int) = some x ∧ cells1[j]? = some x) ∧
      (∀ q, q ≠ m.blocks.length + 1 → m1.block? q = m.block? q) ∧
      m1.trace = m.trace ++ [Event.allocate (m.blocks.length + 1) aa._capacity aa._memPolicy] := by
  have hne := validStorage_ne_fresh m aa hv
  have hsrc : ∀ j, j < aa._size.toNat → ∃ x, load m aa._data (j : Int) = some x := by
    intro j hj
    obtain ⟨b, hb, hl, _, hlen⟩ := validStorage_block m aa hv (by omega)
    rw [load_of_block m aa._data b j hb hl (by omega)]
    have : j < b.cells.length := by rw [hlen]; omega
    exact ⟨_, List.getElem?_eq_getElem this⟩
  obtain ⟨m1, cells1, e1, e2, _, e4, e5, e6, e7, _⟩ :=
    forLoop_store_spec (fun mm => mm.block? aa._data = m.block? aa._data)
      (copyElem aa._data (m.blocks.length + 1))
      (m.blocks.length + 1) (fun ii => (load m aa._data ii).getD none)
      (fun i v mm mm1 hI hs => ((store_some_frame mm mm1 _ i v hs).2 _ hne).trans hI)
      aa._size.toNat 0 (allocate aa._capacity aa._memPolicy m).2 _
      (fun j mm _ hj hI => by
        obtain ⟨x, hx⟩ := hsrc j (by omega)
        simp only [copyElem, load_congr m mm aa._data j hI, hx, Option.getD_some])
      (allocate_block?_old _ _ m _ hne) (allocate_block?_new _ _ m) rfl (by simp; omega)
  obtain ⟨a1, a2, a3, a4, a5, a7, a8⟩ := set_label_frame cfg (some aa._label)
    { _data := (allocate aa._capacity aa._memPolicy m).1, _capacity := aa._capacity,
      _size := aa._size, _memPolicy := aa._memPolicy, _isOpen := aa._isOpen,
      _label := List.replicate 64 0, _tracking := false } m1
  refine ⟨(set_label cfg (some aa._label)
    { _data := (allocate aa._capacity aa._memPolicy m).1, _capacity := aa._capacity,
      _size := aa._size, _memPolicy := aa._memPolicy, _isOpen := aa._isOpen,
      _label := List.replicate 64 0, _tracking := false } m1).1,
    (set_label cfg (some aa._label)
    { _data := (allocate aa._capacity aa._memPolicy m).1, _capacity := aa._capacity,
      _size := aa._size, _memPolicy := aa._memPolicy, _isOpen := aa._isOpen,
      _label := List.replicate 64 0, _tracking := false } m1).2,
    cells1, ?_, a1, a2, a3, a4, a5, set_label_label cfg _ _ _, ?_, by simpa using e5, ?_, ?_,
    ?_⟩
  · have e1' : forLoop (copyElem aa._data (m.blocks.length + 1))
        aa._size.toNat 0 (allocate aa._capacity aa._memPolicy m).2 = some m1 := by
      simpa using e1
    simp only [copy, allocate_fst, sub_zero, e1']
  · rw [block?_of_blocks_eq _ _ a7, e4]
  · intro j hj
    obtain ⟨x, hx⟩ := hsrc j hj
    refine ⟨x, hx, ?_⟩
    rw [e6 j, if_pos (by omega), hx]
    rfl
  · intro q hq
    rw [block?_of_blocks_eq _ _ a7, e7 q hq, allocate_block?_old _ _ m q hq]
  · rw [a8, e2, allocate_trace]

theorem copy_ok (cfg : Build) (aa : qs_vector T) (m : Memory T) (hv : ValidStorage m aa)
    (h1 : aa._size ≤ aa._capacity) :
    ∃ c2 m1 cells1, copy cfg aa m = Result.ok () c2 m1 ∧
      c2._data = m.blocks.length + 1 ∧ c2._capacity = aa._capacity ∧ c2._size = aa._size ∧
      c2._isOpen = aa._isOpen ∧ c2._memPolicy = aa._memPolicy ∧
      (LabelOK aa._label → c2._label = aa._label) ∧
      m1.block? (m.blocks.length + 1) =
        some { count := aa._capacity, policy := aa._memPolicy, cells := cells1, live := true } ∧
      cells1.length = aa._capacity.toNat ∧
      (∀ j, j < aa._size.toNat → ∃ x, load m aa._data (j : Int) = some x ∧ cells1[j]? = some x) ∧
      (∀ q, q ≠ m.blocks.length + 1 → m1.block? q = m.block? q) ∧
      m1.trace = m.trace ++ [Event.allocate (m.blocks.length + 1) aa._capacity aa._memPolicy] :=
  copy_ok_nat cfg aa m hv (by omega)

theorem release_block? (m m2 : Memory T) (p : Nat) (h : m2.blocks = release m.blocks p) :
    (∀ q, q ≠ p → m2.block? q = m.block? q) ∧
    (∀ b, m.block? p = some b → m2.block? p = some { b with live := false }) := by
  cases p with
  | zero =>
    have h' : m2.blocks = m.blocks := h
    exact ⟨fun q _ => block?_of_blocks_eq _ _ h' q, fun b hb => by simp [Memory.block?] at hb⟩
  | succ k =>
    simp only [release] at h
    cases hb : m.blocks[k]? with
    | none =>
      rw [hb] at h
      exact ⟨fun q _ => block?_of_blocks_eq _ _ h q,
        fun b hb' => by simp [Memory.block?, hb] at hb'⟩
    | some b0 =>
      rw [hb] at h
      simp only at h
      have hk := (List.getElem?_eq_some.1 hb).1
      constructor
      · intro q hq
        cases q with
        | zero => rfl
        | succ j =>
          have : k ≠ j := by omega
          simp [Memory.block?, h, List.getElem?_set_ne this]
      · intro b hb'
        have : b = b0 := by
          simp only [Memory.block?] at hb'
          rw [hb] at hb'
          exact (Option.some.inj hb').symm
        subst this
        simp [Memory.block?, h, hk]

theorem destroy_spec (cfg : Build) (x : qs_vector T) (m : Memory T) :
    (destroy cfg x m).trace = m.trace ++ [Event.deallocate x._data x._size x._memPolicy] ∧
    (destroy cfg x m).blocks = release m.blocks x._data := by
  obtain ⟨d1, _, d3, _, d5, _, d7, d8⟩ := delete_label_frame cfg x m
  simp only [destroy, deallocate, d1, d3, d5, d7, d8, and_self]

theorem push_back_ok (v : T) (c : qs_vector T) (m : Memory T) (b : Block T)
    (hopen : c._isOpen = true) (hb : m.block? c._data = some b) (hl : b.live = true)
    (h0 : 0 ≤ c._size) (hlt : c._size.toNat < b.cells.length) :
    ∃ m1, push_back v c m = Result.ok () { c with _size := c._size + 1 } m1 ∧
      m1.trace = m.trace ∧
      m1.block? c._data = some { b with cells := b.cells.set c._size.toNat (some v) } ∧
      ∀ q, q ≠ c._data → m1.block? q = m.block? q := by
  obtain ⟨m1, e, h1, _, h3, h4⟩ := store_spec m c._data b c._size (some v) hb hl h0 hlt
  exact ⟨m1, by simp only [push_back, hopen, if_true, e], h1, h3, h4⟩

theorem push_back_all_ok (vs : List T) : ∀ (c : qs_vector T) (m : Memory T) (b : Block T),
    c._isOpen = true → m.block? c._data = some b → b.live = true → 0 ≤ c._size →
    c._size.toNat + vs.length ≤ b.cells.length →
    ∃ m1 cells1, push_back_all vs c m =
        Result.ok () { c with _size := c._size + (vs.length : Int) } m1 ∧
      m1.trace = m.trace ∧ m1.block? c._data = some { b with cells := cells1 } ∧
      cells1.length = b.cells.length ∧
      (∀ j, cells1[j]? =
        if c._size.toNat ≤ j ∧ j < c._size.toNat + vs.length
        then (vs[j - c._size.toNat]?).map some else b.cells[j]?) ∧
      ∀ q, q ≠ c._data → m1.block? q = m.block? q := by
  induction vs with
  | nil =>
    intro c m b _ hb _ _ _
    refine ⟨m, b.cells, ?_, rfl, hb, rfl, ?_, fun _ _ => rfl⟩
    · cases c
      simp [push_back_all]
    · intro j
      rw [if_neg (by simp)]
  | cons v vs ih =>
    intro c m b hopen hb hl h0 hlen
    simp only [List.length_cons] at hlen
    obtain ⟨m1, e, h1, h3, h4⟩ := push_back_ok v c m b hopen hb hl h0 (by omega)
    obtain ⟨m2, cells2, e2, g1, g3, g4, g5, g6⟩ :=
      ih { c with _size := c._size + 1 } m1
        { b with cells := b.cells.set c._size.toNat (some v) } hopen h3 hl
        (by simp only; omega)
        (by simp only [List.length_set]; omega)
    have hnat : (c._size + 1).toNat = c._size.toNat + 1 := by omega
    refine ⟨m2, cells2, ?_, by rw [g1, h1], g3, by simpa using g4, ?_,
      fun q hq => by rw [g6 q hq, h4 q hq]⟩
    · simp only [push_back_all, e, e2, List.length_cons]
      congr 2
      push_cast
      ring
    · intro j
      rw [g5 j]
      simp only [hnat, List.length_cons]
      by_cases hj1 : c._size.toNat + 1 ≤ j ∧ j < c._size.toNat + 1 + vs.length
      · rw [if_pos hj1, if_pos (by omega)]
        have : j - c._size.toNat = (j - (c._size.toNat + 1)) + 1 := by omega
        rw [this, List.getElem?_cons_succ]
      · rw [if_neg hj1]
        by_cases hj2 : c._size.toNat = j
        · subst hj2
          rw [if_pos (by omega), List.getElem?_set_self (by omega)]
          simp
        · rw [if_neg (by omega), List.getElem?_set_ne hj2]

theorem appendList_ok (listSize : Int) (list : Nat → T) (c : qs_vector T) (m : Memory T)
    (b : Block T) (hb : m.block? c._data = some b) (hl : b.live = true)
    (h0 : 0 ≤ c._size) (hlt : c._size + listSize < c._capacity)
    (hlen : c._size.toNat + listSize.toNat ≤ b.cells.length) :
    ∃ m1 cells1, appendList listSize list c m =
        Result.ok () { c with _size := c._size + listSize } m1 ∧
      m1.trace = m.trace ∧ m1.block? c._data = some { b with cells := cells1 } ∧
      cells1.length = b.cells.length ∧
      (∀ j : Nat, cells1[j]? =
        if c._size.toNat ≤ j ∧ j < c._size.toNat + listSize.toNat
        then some (some (list (j - c._size.toNat))) else b.cells[j]?) ∧
      ∀ q, q ≠ c._data → m1.block? q = m.block? q := by
  obtain ⟨m1, cells1, e1, e2, _, e4, e5, e6, e7, _⟩ :=
    forLoop_store_spec (fun _ => True)
      (fun i mm => store mm c._data i (some (list (i - c._size).toNat))) c._data
      (fun i => some (list (i - c._size).toNat)) (fun _ _ _ _ _ _ => trivial)
      listSize.toNat c._size.toNat m b (fun _ _ _ _ _ => rfl) trivial hb hl hlen
  refine ⟨m1, cells1, ?_, e2, e4, e5, ?_, e7⟩
  · have hn : (c._size + listSize - c._size).toNat = listSize.toNat := by
      congr 1
      ring
    have hlo : ((c._size.toNat : Nat) : Int) = c._size := Int.toNat_of_nonneg h0
    rw [hlo] at e1
    simp only [appendList, hlt, if_true, hn, e1]
  · intro j
    rw [e6 j]
    by_cases hj : c._size.toNat ≤ j ∧ j < c._size.toNat + listSize.toNat
    · rw [if_pos hj, if_pos hj]
      have : ((j : Int) - c._size).toNat = j - c._size.toNat := by omega
      rw [this]
    · rw [if_neg hj, if_neg hj]

theorem map_getD_range (l : List Int) :
    (List.range l.length).map (fun k => l.getD k 0) = l := by
  apply List.ext_getElem
  · simp
  · intro i h1 h2
    simp [List.getD_eq_getElem?_getD, List.getElem?_eq_getElem h2]

theorem sum_map_getD_of_perm (incs : List Int) (order : List Nat)
    (hperm : order.Perm (List.range incs.length)) :
    (order.map (fun k => incs.getD k 0)).sum = incs.sum := by
  rw [(hperm.map _).sum_eq, map_getD_range]

theorem getD_nonneg_of_perm (incs : List Int) (order : List Nat)
    (hnn : ∀ x ∈ incs, 0 ≤ x) (hperm : order.Perm (List.range incs.length)) :
    ∀ k ∈ order, 0 ≤ incs.getD k 0 := by
  intro k hk
  have hlt : k < incs.length := List.mem_range.1 (hperm.mem_iff.1 hk)
  rw [List.getD_eq_getElem?_getD, List.getElem?_eq_getElem hlt]
  exact hnn _ (List.getElem_mem _)

theorem atomicCalls_spec (incs : List Int) (order : List Nat) :
    ∀ (c : qs_vector T) (m : Memory T), (∀ k ∈ order, 0 ≤ incs.getD k 0) →
    ∃ rets, atomicCalls incs order c m =
        Result.ok rets
          { c with _size := c._size + (order.map (fun k => incs.getD k 0)).sum } m ∧
      rets.map Prod.fst = order ∧
      rets.map Prod.snd = startsOf c._size (order.map (fun k => incs.getD k 0)) ∧
      (∀ a ∈ rets, c._size ≤ a.2 ∧
        a.2 + incs.getD a.1 0 ≤ c._size + (order.map (fun k => incs.getD k 0)).sum) ∧
      rets.Pairwise (fun a b => ∀ x : Int,
        ¬ (inRange a.2 (incs.getD a.1 0) x ∧ inRange b.2 (incs.getD b.1 0) x)) ∧
      (∀ x : Int, inRange c._size (order.map (fun k => incs.getD k 0)).sum x ↔
        ∃ a ∈ rets, inRange a.2 (incs.getD a.1 0) x) := by
  induction order with
  | nil =>
    intro c m _
    refine ⟨[], ?_, rfl, rfl, ?_, List.Pairwise.nil, ?_⟩
    · cases c
      simp [atomicCalls]
    · intro a ha
      cases ha
    · intro x
      simp only [inRange, List.map_nil, List.sum_nil, add_zero, List.not_mem_nil, false_and,
        exists_false, iff_false]
      omega
  | cons k rest ih =>
    intro c m hnn
    have hk : 0 ≤ incs.getD k 0 := hnn k (by simp)
    have hrest : ∀ j ∈ rest, 0 ≤ incs.getD j 0 := fun j hj => hnn j (by simp [hj])
    obtain ⟨rets, e, h1, h2, h3, h4, h5⟩ :=
      ih { c with _size := c._size + incs.getD k 0 } m hrest
    have hsum : 0 ≤ (rest.map (fun k => incs.getD k 0)).sum := by
      apply List.sum_nonneg
      intro x hx
      obtain ⟨j, hj, rfl⟩ := List.mem_map.1 hx
      exact hrest j hj
    refine ⟨(k, c._size) :: rets, ?_, ?_, ?_, ?_, ?_, ?_⟩
    · simp only [atomicCalls, atomic_Index_Inc, ATOMIC_CAPTURE, e, List.map_cons, List.sum_cons]
      congr 2
      ring
    · simp [h1]
    · simp only [List.map_cons, startsOf] 
      rw [h2]
    · intro a ha
      rcases List.mem_cons.1 ha with rfl | ha
      · simp only [List.map_cons, List.sum_cons]
        omega
      · have := h3 a ha
        simp only [List.map_cons, List.sum_cons] at this ⊢
        omega
    · refine List.Pairwise.cons ?_ h4
      intro a ha x hx
      have := (h3 a ha).1
      simp only [inRange] at this hx
      omega
    · intro x
      have h5x := h5 x
      simp only [inRange, List.map_cons, List.sum_cons, List.mem_cons, exists_eq_or_imp]
        at h5x ⊢
      rw [← h5x]
      omega

theorem labelOK_zeros : LabelOK (List.replicate 64 0) := by
  decide

theorem strncpy_is_labelOK (l : List Nat) :
    LabelOK (strncpy l 63 ++ (List.replicate 64 0).drop 63) := by
  have hlen : ((l.take 63).takeWhile (fun ch => ch != 0)).length ≤ 63 :=
    le_trans (List.takeWhile_sublist _).length_le (List.length_take_le _ _)
  have hs : ∀ ch ∈ (l.take 63).takeWhile (fun ch => ch != 0), ch ≠ 0 := by
    intro ch hch
    simpa using List.mem_takeWhile_imp hch
  have heq : strncpy l 63 ++ (List.replicate 64 0).drop 63 =
      (l.take 63).takeWhile (fun ch => ch != 0) ++
        List.replicate (64 - ((l.take 63).takeWhile (fun ch => ch != 0)).length) 0 := by
    unfold strncpy
    rw [List.drop_replicate, List.append_assoc, List.append_replicate_replicate]
    congr 2
    omega
  rw [heq]
  exact labelOK_of_exists _ hs hlen

theorem set_label_labelOK (cfg : Build) (label : Option (List Nat)) (this : qs_vector T)
    (m : Memory T) : LabelOK (set_label cfg label this m).1._label := by
  unfold set_label
  cases label with
  | none => exact labelOK_zeros
  | some l =>
    simp only
    split_ifs
    · rw [(apply_label_frame cfg _ _).2.2.2.2.2.1]
      exact strncpy_is_labelOK l
    · exact labelOK_zeros

theorem default_labelOK : LabelOK (qs_vector.default : qs_vector T)._label :=
  labelOK_zeros

/-! ## The claims -/

/-- C3 as stated fails: the container reached by `reserve(1)`, `Open()` and
`push_back(5)` is open and full; the next `push_back(6)` writes index 1 of a
one-element buffer, which is undefined behaviour, so it does not succeed. -/
theorem C3_counterexample :
    reserve exBuild 1 AllocationPolicy.HOST_MEM qs_vector.default exEmpty =
      Result.ok () exC1 exM1 ∧
    Open exC1 exM1 = Result.ok () exC2 exM1 ∧
    push_back 5 exC2 exM1 = Result.ok () exFull exFullMem ∧
    exFull._isOpen = true ∧
    push_back 6 exFull exFullMem = Result.undefined := by
  decide

/-- C3, amended. `push_back(v)` aborts exactly when `_isOpen` is false, and then
the object and the memory are as they were.  When `_isOpen` is true and the
container owns its buffer with `0 <= size < capacity`, it returns: with `n` the
size before, index `n` then reads `v`, the size is `n + 1`, every other element
of every buffer reads as before, and capacity, open flag, policy and the record
of allocation calls are as before.  So after the calls `push_back` of `k` values
on an open container that owns its buffer, with `0 <= n` and `n + k <= capacity`,
the values read through `operator[]` at the indices `n .. n+k-1` in call order.
When `_isOpen` is true and the size is outside `[0, capacity)`, the write is out
of bounds: undefined behaviour. -/
theorem C3_push_back (v : T) (vs : List T) (c : qs_vector T) (m : Memory T) :
    (push_back v c m = Result.abort c m ↔ c._isOpen = false) ∧
    (c._isOpen = true → ValidStorage m c → 0 ≤ c._size → c._size < c._capacity →
      ∃ c1 m1, push_back v c m = Result.ok () c1 m1 ∧
        c1 = { _data := c._data, _capacity := c._capacity, _size := c._size + 1,
               _isOpen := c._isOpen, _memPolicy := c._memPolicy, _label := c._label,
               _tracking := c._tracking } ∧
        operator_index c._size c1 m1 = Result.ok (some v) c1 m1 ∧
        (∀ (q : Nat) (i : Int), q ≠ c._data ∨ i ≠ c._size → load m1 q i = load m q i) ∧
        m1.trace = m.trace) ∧
    (c._isOpen = true → ValidStorage m c → 0 ≤ c._size →
      c._size + (vs.length : Int) ≤ c._capacity →
      ∃ c1 m1, push_back_all vs c m = Result.ok () c1 m1 ∧
        c1._size = c._size + (vs.length : Int) ∧ c1._capacity = c._capacity ∧
        c1._isOpen = c._isOpen ∧ c1._memPolicy = c._memPolicy ∧ c1._data = c._data ∧
        ∀ (j : Nat) (hj : j < vs.length),
          operator_index (c._size + (j : Int)) c1 m1 =
            Result.ok (some (vs.get ⟨j, hj⟩)) c1 m1) ∧
    (c._isOpen = true → ValidStorage m c → c._size < 0 ∨ c._capacity ≤ c._size →
      push_back v c m = Result.undefined) := by
  refine ⟨?_, ?_, ?_, ?_⟩
  · constructor
    · intro h
      cases ho : c._isOpen with
      | false => rfl
      | true =>
        simp only [push_back, ho, if_true] at h
        cases hs : store m c._data c._size (some v) with
        | none => simp [hs] at h
        | some m1 => simp [hs] at h
    · intro h
      simp [push_back, h]
  · intro hopen hv h0 hlt
    obtain ⟨b, hb, hl, _, hlen⟩ := validStorage_block m c hv (by omega)
    obtain ⟨m1, e, h1, h3, h4⟩ := push_back_ok v c m b hopen hb hl h0 (by omega)
    refine ⟨_, m1, e, rfl, ?_, ?_, h1⟩
    · exact operator_index_of_block _ m1 _ c._size (some v) h3 hl h0
        (by simp only; rw [List.getElem?_set_self (by omega)])
    · intro q i h
      refine load_store_frame m m1 c._data b c._size.toNat (some v) hb h3 h4 q i ?_
      rcases h with h | h
      · exact Or.inl h
      · exact Or.inr (by omega)
  · intro hopen hv h0 hle
    cases vs with
    | nil =>
      refine ⟨c, m, rfl, by simp, rfl, rfl, rfl, rfl, ?_⟩
      intro j hj
      simp at hj
    | cons w ws =>
      have hpos : 0 < c._capacity := by
        simp only [List.length_cons] at hle
        push_cast at hle
        omega
      obtain ⟨b, hb, hl, _, hlen⟩ := validStorage_block m c hv hpos
      obtain ⟨m1, cells1, e, _, g3, _, g5, _⟩ :=
        push_back_all_ok (w :: ws) c m b hopen hb hl h0 (by omega)
      refine ⟨_, m1, e, rfl, rfl, rfl, rfl, rfl, ?_⟩
      intro j hj
      refine operator_index_of_block _ m1 _ _ _ g3 hl (by omega) ?_
      have hidx : (c._size + (j : Int)).toNat = c._size.toNat + j := by omega
      simp only [hidx]
      rw [g5, if_pos (by omega)]
      have : c._size.toNat + j - c._size.toNat = j := by omega
      rw [this, List.getElem?_eq_getElem hj]
      rfl
  · intro hopen hv hout
    have hnone : store m c._data c._size (some v) = none := by
      apply store_eq_none_of
      intro b hb hc
      unfold ValidStorage at hv
      rw [hb] at hv
      obtain ⟨_, _, hlen⟩ := hv
      omega
    simp only [push_back, hopen, if_true, hnone]

/-- C3 amended, at a concrete input: an open container of capacity 4 holding two
elements, and two further values. -/
theorem C3_push_back_witness :
    exB._isOpen = true ∧ ValidStorage exTwo exB ∧ 0 ≤ exB._size ∧
    exB._size + (([11, 12] : List Nat).length : Int) ≤ exB._capacity ∧
    ∃ c1 m1, push_back_all [11, 12] exB exTwo = Result.ok () c1 m1 ∧
      c1._size = exB._size + (([11, 12] : List Nat).length : Int) ∧
      c1._capacity = exB._capacity ∧
      c1._isOpen = exB._isOpen ∧ c1._memPolicy = exB._memPolicy ∧ c1._data = exB._data ∧
      ∀ (j : Nat) (hj : j < ([11, 12] : List Nat).length),
        operator_index (exB._size + (j : Int)) c1 m1 =
          Result.ok (some (([11, 12] : List Nat).get ⟨j, hj⟩)) c1 m1 :=
  ⟨rfl, (by decide), by decide, by decide,
    (C3_push_back 10 [11, 12] exB exTwo).2.2.1 rfl (by decide) (by decide) (by decide)⟩

/-- C4. For every container `C` that owns its buffer, with `size <= capacity`
(so also with `0 <= size <= capacity`), the copy constructor returns `C2` with
the size, capacity, policy and open flag of `C`; its `_data` is a buffer obtained
by one call `allocate(capacity, policy)`; every index `0 <= i < size` reads
through `operator[]` the same in `C2` as in `C`; and the buffer of `C`, like
every other buffer, is as before. -/
theorem C4_copy_constructor (cfg : Build) (C : qs_vector T) (m : Memory T)
    (hv : ValidStorage m C) (hsize : C._size ≤ C._capacity) :
    ∃ C2 m1, copy cfg C m = Result.ok () C2 m1 ∧
      C2._size = C._size ∧ C2._capacity = C._capacity ∧
      C2._memPolicy = C._memPolicy ∧ C2._isOpen = C._isOpen ∧
      AllocatedFor m m1 C2._data C._capacity C._memPolicy ∧
      m1.trace = m.trace ++ [Event.allocate C2._data C._capacity C._memPolicy] ∧
      (∀ i : Int, 0 ≤ i → i < C._size →
        ∃ v, operator_index i C m = Result.ok v C m ∧
          operator_index i C2 m1 = Result.ok v C2 m1) ∧
      (∀ q, q ≠ C2._data → m1.block? q = m.block? q) := by
  obtain ⟨C2, m1, cells1, e, h1, h2, h3, h4, h5, _, h7, h8, h9, h10, h11⟩ :=
    copy_ok cfg C m hv hsize
  refine ⟨C2, m1, e, h3, h2, h5, h4, ?_, ?_, ?_, ?_⟩
  · rw [h1]
    exact ⟨block?_fresh m, _, h7, rfl, rfl, rfl, h8⟩
  · rw [h1, h11]
  · intro i hi hlt
    obtain ⟨x, hx, hc⟩ := h9 i.toNat (by omega)
    rw [Int.toNat_of_nonneg hi] at hx
    refine ⟨x, by simp [operator_index, hx], ?_⟩
    exact operator_index_of_block C2 m1 _ i x (by rw [h1]; exact h7) rfl hi hc
  · rw [h1]
    exact h10

/-- C4, at a concrete input: the owner of a four-element buffer holding two
elements. -/
theorem C4_copy_constructor_witness :
    ValidStorage exTwo exB ∧ exB._size ≤ exB._capacity ∧
    ∃ C2 m1, copy exBuild exB exTwo = Result.ok () C2 m1 ∧
      C2._size = exB._size ∧ C2._capacity = exB._capacity ∧
      C2._memPolicy = exB._memPolicy ∧ C2._isOpen = exB._isOpen ∧
      AllocatedFor exTwo m1 C2._data exB._capacity exB._memPolicy ∧
      m1.trace = exTwo.trace ++ [Event.allocate C2._data exB._capacity exB._memPolicy] ∧
      (∀ i : Int, 0 ≤ i → i < exB._size →
        ∃ v, operator_index i exB exTwo = Result.ok v exB exTwo ∧
          operator_index i C2 m1 = Result.ok v C2 m1) ∧
      (∀ q, q ≠ C2._data → m1.block? q = exTwo.block? q) :=
  ⟨(by decide), by decide,
    C4_copy_constructor exBuild exB exTwo (by decide) (by decide)⟩

/-- C6. Self-assignment, the call `C = C` in which `&aa == this`, returns with
every data member of `C` as before and with the memory as before: same buffers,
same elements, and no call to the allocation service. -/
theorem C6_self_assignment (cfg : Build) (addr : Nat) (c : qs_vector T) (m : Memory T) :
    operator_assign cfg addr addr c c m = Result.ok () c m := by
  simp [operator_assign]

/-- C7. For every `N >= 0` and every policy, the sized constructor without a
fill value returns an object with `_size = _capacity = N` and the given policy,
whose `_data` is a buffer obtained by one call `allocate(N, policy)`; the sized
constructor with a fill value `V` does the same and every index `0 <= i < N`
then reads `V` through `operator[]`. -/
theorem C7_sized_constructors (cfg : Build) (N : Int) (V : T) (policy : AllocationPolicy)
    (label : Option (List Nat)) (m : Memory T) (hN : 0 ≤ N) :
    (∃ c m1, sized cfg N policy label m = Result.ok () c m1 ∧
      c._size = N ∧ c._capacity = N ∧ c._memPolicy = policy ∧
      AllocatedFor m m1 c._data N policy ∧
      m1.trace = m.trace ++ [Event.allocate c._data N policy]) ∧
    (∃ c m1, filled cfg N V policy label m = Result.ok () c m1 ∧
      c._size = N ∧ c._capacity = N ∧ c._memPolicy = policy ∧
      AllocatedFor m m1 c._data N policy ∧
      m1.trace = m.trace ++ [Event.allocate c._data N policy] ∧
      ∀ i : Int, 0 ≤ i → i < N → operator_index i c m1 = Result.ok (some V) c m1) := by
  constructor
  · obtain ⟨c, m1, e, h1, h2, h3, _, h5, h6, h7⟩ := sized_ok cfg N policy label m
    refine ⟨c, m1, e, h3, h2, h5, ?_, ?_⟩
    · rw [h1]
      exact allocatedFor_of_blocks m m1 N policy h6
    · rw [h1, h7]
  · obtain ⟨c, m1, cells1, e, h1, h2, h3, _, h5, h6, h7, h8, _, h10⟩ :=
      filled_ok cfg N V policy label m
    refine ⟨c, m1, e, h3, h2, h5, ?_, ?_, ?_⟩
    · rw [h1]
      exact allocatedFor_of m m1 N policy cells1 h6 h7
    · rw [h1, h10]
    · intro i hi hlt
      exact operator_index_of_block c m1 _ i (some V) (by rw [h1]; exact h6) rfl hi
        (h8 i.toNat (by omega))

/-- C7, at a concrete input: three elements, fill value 7. -/
theorem C7_sized_constructors_witness :
    (0 : Int) ≤ 3 ∧
    (∃ c m1, sized exBuild 3 AllocationPolicy.HOST_MEM none exEmpty = Result.ok () c m1 ∧
      c._size = 3 ∧ c._capacity = 3 ∧ c._memPolicy = AllocationPolicy.HOST_MEM ∧
      AllocatedFor exEmpty m1 c._data 3 AllocationPolicy.HOST_MEM ∧
      m1.trace = exEmpty.trace ++ [Event.allocate c._data 3 AllocationPolicy.HOST_MEM]) ∧
    (∃ c m1, filled exBuild 3 7 AllocationPolicy.HOST_MEM none exEmpty = Result.ok () c m1 ∧
      c._size = 3 ∧ c._capacity = 3 ∧ c._memPolicy = AllocationPolicy.HOST_MEM ∧
      AllocatedFor exEmpty m1 c._data 3 AllocationPolicy.HOST_MEM ∧
      m1.trace = exEmpty.trace ++ [Event.allocate c._data 3 AllocationPolicy.HOST_MEM] ∧
      ∀ i : Int, 0 ≤ i → i < 3 → operator_index i c m1 = Result.ok (some 7) c m1) :=
  ⟨by decide, C7_sized_constructors exBuild 3 7 AllocationPolicy.HOST_MEM none exEmpty
    (by decide)⟩

/-- C9. Each of `reserve(N, policy)`, `resize(N, policy)` and
`resize(N, value, policy)` aborts, with the object and the memory as they were
(so without a call to the allocation service), exactly when `_capacity` is not 0
at the call; when `_capacity` is 0 each of them returns. -/
theorem C9_deferred_allocation_guard (cfg : Build) (N : Int) (value : T)
    (policy : AllocationPolicy) (c : qs_vector T) (m : Memory T) :
    (reserve cfg N policy c m = Result.abort c m ↔ c._capacity ≠ 0) ∧
    (resize cfg N policy c m = Result.abort c m ↔ c._capacity ≠ 0) ∧
    (resize_value cfg N value policy c m = Result.abort c m ↔ c._capacity ≠ 0) ∧
    (c._capacity = 0 →
      (∃ c1 m1, reserve cfg N policy c m = Result.ok () c1 m1) ∧
      (∃ c1 m1, resize cfg N policy c m = Result.ok () c1 m1) ∧
      (∃ c1 m1, resize_value cfg N value policy c m = Result.ok () c1 m1)) := by
  refine ⟨?_, ?_, ?_, ?_⟩
  · constructor
    · intro h h0
      obtain ⟨c1, m1, e, _⟩ := reserve_ok cfg N policy c m h0
      rw [e] at h
      cases h
    · intro h
      simp [reserve, h]
  · constructor
    · intro h h0
      obtain ⟨c1, m1, e, _⟩ := resize_ok cfg N policy c m h0
      rw [e] at h
      cases h
    · intro h
      simp [resize, h]
  · constructor
    · intro h h0
      obtain ⟨c1, m1, _, e, _⟩ := resize_value_ok cfg N value policy c m h0
      rw [e] at h
      cases h
    · intro h
      simp [resize_value, h]
  · intro h0
    obtain ⟨c1, m1, e, _⟩ := reserve_ok cfg N policy c m h0
    obtain ⟨c2, m2, e2, _⟩ := resize_ok cfg N policy c m h0
    obtain ⟨c3, m3, _, e3, _⟩ := resize_value_ok cfg N value policy c m h0
    exact ⟨⟨c1, m1, e⟩, ⟨c2, m2, e2⟩, ⟨c3, m3, e3⟩⟩

/-- C9, at a concrete input: the default-constructed container, capacity 0. -/
theorem C9_deferred_allocation_guard_witness :
    (qs_vector.default : qs_vector Nat)._capacity = 0 ∧
    ((∃ c1 m1, reserve exBuild 4 AllocationPolicy.HOST_MEM qs_vector.default exEmpty =
        Result.ok () c1 m1) ∧
      (∃ c1 m1, resize exBuild 4 AllocationPolicy.HOST_MEM qs_vector.default exEmpty =
        Result.ok () c1 m1) ∧
      (∃ c1 m1, resize_value exBuild 4 7 AllocationPolicy.HOST_MEM qs_vector.default exEmpty =
        Result.ok () c1 m1)) :=
  ⟨rfl, (C9_deferred_allocation_guard exBuild 4 7 AllocationPolicy.HOST_MEM
    qs_vector.default exEmpty).2.2.2 rfl⟩

/-- C10. On a container with `_capacity = 0`: `reserve(N, policy)` returns with
`_capacity = N`, the policy recorded, `_size` as before and `_data` a buffer
obtained by one call `allocate(N, policy)`; `resize(N, policy)` does the same
and sets `_size = N`; `resize(N, value, policy)` does as `resize(N, policy)` and
every index `0 <= i < N` then reads `value` through `operator[]`. -/
theorem C10_deferred_allocation (cfg : Build) (N : Int) (value : T)
    (policy : AllocationPolicy) (c : qs_vector T) (m : Memory T) (h : c._capacity = 0) :
    (∃ c1 m1, reserve cfg N policy c m = Result.ok () c1 m1 ∧
      c1._capacity = N ∧ c1._memPolicy = policy ∧ c1._size = c._size ∧
      AllocatedFor m m1 c1._data N policy ∧
      m1.trace = m.trace ++ [Event.allocate c1._data N policy]) ∧
    (∃ c1 m1, resize cfg N policy c m = Result.ok () c1 m1 ∧
      c1._capacity = N ∧ c1._memPolicy = policy ∧ c1._size = N ∧
      AllocatedFor m m1 c1._data N policy ∧
      m1.trace = m.trace ++ [Event.allocate c1._data N policy]) ∧
    (∃ c1 m1, resize_value cfg N value policy c m = Result.ok () c1 m1 ∧
      c1._capacity = N ∧ c1._memPolicy = policy ∧ c1._size = N ∧
      AllocatedFor m m1 c1._data N policy ∧
      m1.trace = m.trace ++ [Event.allocate c1._data N policy] ∧
      ∀ i : Int, 0 ≤ i → i < N → operator_index i c1 m1 = Result.ok (some value) c1 m1) := by
  refine ⟨?_, ?_, ?_⟩
  · obtain ⟨c1, m1, e, h1, h2, h3, _, h5, h6, h7⟩ := reserve_ok cfg N policy c m h
    refine ⟨c1, m1, e, h2, h5, h3, ?_, ?_⟩
    · rw [h1]
      exact allocatedFor_of_blocks m m1 N policy h6
    · rw [h1, h7]
  · obtain ⟨c1, m1, e, h1, h2, h3, _, h5, h6, h7⟩ := resize_ok cfg N policy c m h
    refine ⟨c1, m1, e, h2, h5, h3, ?_, ?_⟩
    · rw [h1]
      exact allocatedFor_of_blocks m m1 N policy h6
    · rw [h1, h7]
  · obtain ⟨c1, m1, cells1, e, h1, h2, h3, _, h5, h6, h7, h8, _, h10⟩ :=
      resize_value_ok cfg N value policy c m h
    refine ⟨c1, m1, e, h2, h5, h3, ?_, ?_, ?_⟩
    · rw [h1]
      exact allocatedFor_of m m1 N policy cells1 h6 h7
    · rw [h1, h10]
    · intro i hi hlt
      exact operator_index_of_block c1 m1 _ i (some value) (by rw [h1]; exact h6) rfl hi
        (h8 i.toNat (by omega))

/-- C10, at a concrete input: the default-constructed container, `N = 4`. -/
theorem C10_deferred_allocation_witness :
    (qs_vector.default : qs_vector Nat)._capacity = 0 ∧
    ∃ c1 m1, resize_value exBuild 4 7 AllocationPolicy.HOST_MEM qs_vector.default exEmpty =
        Result.ok () c1 m1 ∧
      c1._capacity = 4 ∧ c1._memPolicy = AllocationPolicy.HOST_MEM ∧ c1._size = 4 ∧
      AllocatedFor exEmpty m1 c1._data 4 AllocationPolicy.HOST_MEM ∧
      m1.trace = exEmpty.trace ++ [Event.allocate c1._data 4 AllocationPolicy.HOST_MEM] ∧
      ∀ i : Int, 0 ≤ i → i < 4 → operator_index i c1 m1 = Result.ok (some 7) c1 m1 :=
  ⟨rfl, (C10_deferred_allocation exBuild 4 7 AllocationPolicy.HOST_MEM qs_vector.default exEmpty
    rfl).2.2⟩

/-! ## Worlds of containers: the invariant of every reachable state -/

theorem storesTo_refl (p : Nat) (m : Memory T) : StoresTo p m m :=
  ⟨rfl, fun _ _ => rfl, fun b hb => ⟨b.cells, hb, rfl⟩, fun h => h⟩

theorem storesTo_trans (p : Nat) (m m1 m2 : Memory T) (h1 : StoresTo p m m1)
    (h2 : StoresTo p m1 m2) : StoresTo p m m2 := by
  obtain ⟨a1, a2, a3, a4⟩ := h1
  obtain ⟨b1, b2, b3, b4⟩ := h2
  refine ⟨b1.trans a1, fun q hq => (b2 q hq).trans (a2 q hq), ?_, fun h => b4 (a4 h)⟩
  intro b hb
  obtain ⟨cells1, hc1, hl1⟩ := a3 b hb
  obtain ⟨cells2, hc2, hl2⟩ := b3 _ hc1
  exact ⟨cells2, hc2, hl2.trans hl1⟩

theorem storesTo_of_store (m m1 : Memory T) (p : Nat) (i : Int) (v : Option T)
    (h : store m p i v = some m1) : StoresTo p m m1 := by
  obtain ⟨f1, f2⟩ := store_some_frame m m1 p i v h
  refine ⟨f1, f2, ?_, ?_⟩
  · intro b hb
    by_cases hc : b.live = true ∧ 0 ≤ i ∧ i.toNat < b.cells.length
    · obtain ⟨m2, e, _, _, hb2, _⟩ := store_spec m p b i v hb hc.1 hc.2.1 hc.2.2
      rw [h] at e
      cases e
      exact ⟨_, hb2, by simp⟩
    · rw [store_eq_none_of m p i v (fun b' hb' => by
        rw [hb] at hb'
        cases hb'
        exact hc)] at h
      cases h
  · intro hn
    rw [store_eq_none_of m p i v (fun b' hb' => by rw [hn] at hb'; cases hb')] at h
    cases h

theorem storesTo_of_copyElem (m m1 : Memory T) (src dst : Nat) (i : Int)
    (h : copyElem src dst i m = some m1) : StoresTo dst m m1 := by
  unfold copyElem at h
  cases hl : load m src i with
  | none => simp [hl] at h
  | some v =>
    rw [hl] at h
    exact storesTo_of_store m m1 dst i v h

theorem storesTo_of_forLoop (p : Nat) (body : Int → Memory T → Option (Memory T))
    (hbody : ∀ i mm mm1, body i mm = some mm1 → StoresTo p mm mm1) (n : Nat) :
    ∀ (lo : Int) (m m1 : Memory T), forLoop body n lo m = some m1 → StoresTo p m m1 := by
  induction n with
  | zero =>
    intro lo m m1 h
    simp only [forLoop] at h
    cases h
    exact storesTo_refl p m
  | succ n ih =>
    intro lo m m1 h
    simp only [forLoop] at h
    cases hb : body lo m with
    | none => simp [hb] at h
    | some mm =>
      rw [hb] at h
      exact storesTo_trans p m mm m1 (hbody lo m mm hb) (ih (lo + 1) mm m1 h)

theorem storesTo_of_blocks_eq (p : Nat) (m m1 : Memory T) (hb : m1.blocks = m.blocks)
    (ht : m1.trace = m.trace) : StoresTo p m m1 :=
  ⟨ht, fun q _ => block?_of_blocks_eq m m1 hb q,
    fun b h => ⟨b.cells, (block?_of_blocks_eq m m1 hb p).trans h, rfl⟩,
    fun h => (block?_of_blocks_eq m m1 hb p).trans h⟩

theorem state?_eq_some {α : Type} (r : Result α T) (c1 : qs_vector T) (m1 : Memory T)
    (h : r.state? = some (c1, m1)) : ∃ ret, r = Result.ok ret c1 m1 := by
  cases r with
  | ok ret c m =>
    simp only [Result.state?, Option.some.injEq, Prod.mk.injEq] at h
    obtain ⟨rfl, rfl⟩ := h
    exact ⟨ret, rfl⟩
  | abort c m => simp [Result.state?] at h
  | undefined => simp [Result.state?] at h

theorem freshBuffer_of (m m1 : Memory T) (c1 : qs_vector T) (N : Int)
    (policy : AllocationPolicy)
    (hst : StoresTo (m.blocks.length + 1) (allocate N policy m).2 m1)
    (hd : c1._data = m.blocks.length + 1) (hc : c1._capacity = N)
    (hp : c1._memPolicy = policy) : FreshBuffer m c1 m1 := by
  obtain ⟨s1, s2, s3, _⟩ := hst
  obtain ⟨cells1, hb, hl⟩ := s3 _ (allocate_block?_new N policy m)
  refine ⟨hd, ?_, ⟨cells1, ?_, ?_⟩, ?_⟩
  · rw [s1, allocate_trace, hc, hp]
  · rw [hb, hc, hp]
  · rw [hl, hc]
    simp
  · intro q hq
    rw [s2 q hq, allocate_block?_old N policy m q hq]

theorem keepsBuffer_same (c c1 : qs_vector T) (m : Memory T) (hd : c1._data = c._data)
    (hc : c1._capacity = c._capacity) (hp : c1._memPolicy = c._memPolicy) :
    KeepsBuffer c m c1 m :=
  ⟨hd, hc, hp, storesTo_refl _ m⟩

theorem run_effect (cfg : Build) (f : Method T) (c c1 : qs_vector T) (m m1 : Memory T)
    (h : f.run cfg c m = some (c1, m1)) :
    KeepsBuffer c m c1 m1 ∨ (c._capacity = 0 ∧ FreshBuffer m c1 m1) := by
  cases f with
  | set_label label =>
    left
    simp only [Method.run, Option.some.injEq] at h
    obtain ⟨a1, a2, _, _, a5, a7, a8⟩ := set_label_frame cfg label c m
    rw [h] at a1 a2 a5 a7 a8
    exact ⟨a1, a2, a5, storesTo_of_blocks_eq _ m m1 a7 a8⟩
  | push_back v =>
    left
    obtain ⟨ret, e⟩ := state?_eq_some _ c1 m1 h
    unfold push_back at e
    split_ifs at e
    cases hs : store m c._data c._size (some v) with
    | none => simp [hs] at e
    | some mm =>
      rw [hs] at e
      simp only [Result.ok.injEq] at e
      obtain ⟨_, rfl, rfl⟩ := e
      exact ⟨rfl, rfl, rfl, storesTo_of_store m mm _ _ _ hs⟩
  | Open =>
    left
    obtain ⟨ret, e⟩ := state?_eq_some (Open c m) c1 m1 h
    simp only [Open, Result.ok.injEq] at e
    obtain ⟨_, rfl, rfl⟩ := e
    exact keepsBuffer_same _ _ _ rfl rfl rfl
  | Close =>
    left
    obtain ⟨ret, e⟩ := state?_eq_some (Close c m) c1 m1 h
    simp only [Close, Result.ok.injEq] at e
    obtain ⟨_, rfl, rfl⟩ := e
    exact keepsBuffer_same _ _ _ rfl rfl rfl
  | operator_index_assign index v =>
    left
    obtain ⟨ret, e⟩ := state?_eq_some _ c1 m1 h
    unfold operator_index_assign at e
    cases hs : store m c._data index (some v) with
    | none => simp [hs] at e
    | some mm =>
      rw [hs] at e
      simp only [Result.ok.injEq] at e
      obtain ⟨_, rfl, rfl⟩ := e
      exact ⟨rfl, rfl, rfl, storesTo_of_store m mm _ _ _ hs⟩
  | reserve N policy =>
    right
    obtain ⟨ret, e⟩ := state?_eq_some _ c1 m1 h
    by_cases h0 : c._capacity = 0
    · obtain ⟨c2, m2, e2, g1, g2, _, _, g5, g6, g7⟩ := reserve_ok cfg N policy c m h0
      rw [e2] at e
      simp only [Result.ok.injEq] at e
      obtain ⟨_, rfl, rfl⟩ := e
      exact ⟨h0, freshBuffer_of m m2 c2 N policy
        (storesTo_of_blocks_eq _ _ _ g6 (by rw [g7, allocate_trace])) g1 g2 g5⟩
    · simp [reserve, h0] at e
  | resize N policy =>
    right
    obtain ⟨ret, e⟩ := state?_eq_some _ c1 m1 h
    by_cases h0 : c._capacity = 0
    · obtain ⟨c2, m2, e2, g1, g2, _, _, g5, g6, g7⟩ := resize_ok cfg N policy c m h0
      rw [e2] at e
      simp only [Result.ok.injEq] at e
      obtain ⟨_, rfl, rfl⟩ := e
      exact ⟨h0, freshBuffer_of m m2 c2 N policy
        (storesTo_of_blocks_eq _ _ _ g6 (by rw [g7, allocate_trace])) g1 g2 g5⟩
    · simp [resize, h0] at e
  | resize_value N value policy =>
    right
    obtain ⟨ret, e⟩ := state?_eq_some _ c1 m1 h
    by_cases h0 : c._capacity = 0
    · obtain ⟨c2, m2, cells2, e2, g1, g2, _, _, g5, g6, g7, _, g9, g10⟩ :=
        resize_value_ok cfg N value policy c m h0
      rw [e2] at e
      simp only [Result.ok.injEq] at e
      obtain ⟨_, rfl, rfl⟩ := e
      refine ⟨h0, g1, ?_, ⟨cells2, ?_, by rw [g7, g2]⟩, g9⟩
      · rw [g10, g2, g5]
      · rw [g6, g2, g5]
    · simp [resize_value, h0] at e
  | eraseEnd k =>
    left
    obtain ⟨ret, e⟩ := state?_eq_some (eraseEnd k c m) c1 m1 h
    simp only [eraseEnd, Result.ok.injEq] at e
    obtain ⟨_, rfl, rfl⟩ := e
    exact keepsBuffer_same _ _ _ rfl rfl rfl
  | pop_back =>
    left
    obtain ⟨ret, e⟩ := state?_eq_some (pop_back c m) c1 m1 h
    simp only [pop_back, Result.ok.injEq] at e
    obtain ⟨_, rfl, rfl⟩ := e
    exact keepsBuffer_same _ _ _ rfl rfl rfl
  | clear =>
    left
    obtain ⟨ret, e⟩ := state?_eq_some (clear c m) c1 m1 h
    simp only [clear, Result.ok.injEq] at e
    obtain ⟨_, rfl, rfl⟩ := e
    exact keepsBuffer_same _ _ _ rfl rfl rfl
  | appendList listSize list =>
    left
    obtain ⟨ret, e⟩ := state?_eq_some (appendList listSize list c m) c1 m1 h
    unfold appendList at e
    split_ifs at e
    simp only at e
    split at e
    · cases e
    · rename_i mm hs
      simp only [Result.ok.injEq] at e
      obtain ⟨_, rfl, rfl⟩ := e
      exact ⟨rfl, rfl, rfl, storesTo_of_forLoop _ _
        (fun i m2 m3 h3 => storesTo_of_store m2 m3 _ _ _ h3) _ _ _ _ hs⟩
  | atomic_Index_Inc inc =>
    left
    obtain ⟨ret, e⟩ := state?_eq_some (atomic_Index_Inc inc c m) c1 m1 h
    simp only [atomic_Index_Inc, ATOMIC_CAPTURE, Result.ok.injEq] at e
    obtain ⟨_, rfl, rfl⟩ := e
    exact keepsBuffer_same _ _ _ rfl rfl rfl

theorem sized_fresh (cfg : Build) (N : Int) (policy : AllocationPolicy)
    (label : Option (List Nat)) (m m1 : Memory T) (c1 : qs_vector T)
    (h : (sized cfg N policy label m).state? = some (c1, m1)) :
    FreshBuffer m c1 m1 ∧ c1._capacity = N ∧ c1._size = N ∧ c1._isOpen = false := by
  obtain ⟨ret, e⟩ := state?_eq_some _ c1 m1 h
  obtain ⟨c2, m2, e2, g1, g2, g3, g4, g5, g6, g7⟩ := sized_ok cfg N policy label m
  rw [e2] at e
  simp only [Result.ok.injEq] at e
  obtain ⟨_, rfl, rfl⟩ := e
  exact ⟨freshBuffer_of m m2 c2 N policy
    (storesTo_of_blocks_eq _ _ _ g6 (by rw [g7, allocate_trace])) g1 g2 g5, g2, g3, g4⟩

theorem filled_fresh (cfg : Build) (N : Int) (value : T) (policy : AllocationPolicy)
    (label : Option (List Nat)) (m m1 : Memory T) (c1 : qs_vector T)
    (h : (filled cfg N value policy label m).state? = some (c1, m1)) :
    FreshBuffer m c1 m1 ∧ c1._capacity = N ∧ c1._size = N ∧ c1._isOpen = false := by
  obtain ⟨ret, e⟩ := state?_eq_some _ c1 m1 h
  obtain ⟨c2, m2, cells2, e2, g1, g2, g3, g4, g5, g6, g7, _, g9, g10⟩ :=
    filled_ok cfg N value policy label m
  rw [e2] at e
  simp only [Result.ok.injEq] at e
  obtain ⟨_, rfl, rfl⟩ := e
  refine ⟨⟨g1, ?_, ⟨cells2, ?_, by rw [g7, g2]⟩, g9⟩, g2, g3, g4⟩
  · rw [g10, g2, g5]
  · rw [g6, g2, g5]

theorem copy_fresh (cfg : Build) (aa : qs_vector T) (m m1 : Memory T) (c1 : qs_vector T)
    (h : (copy cfg aa m).state? = some (c1, m1)) :
    FreshBuffer m c1 m1 ∧ c1._capacity = aa._capacity ∧ c1._size = aa._size ∧
      c1._isOpen = aa._isOpen ∧ c1._memPolicy = aa._memPolicy := by
  obtain ⟨ret, e⟩ := state?_eq_some _ c1 m1 h
  unfold copy at e
  simp only at e
  split at e
  · cases e
  · rename_i mm hs
    simp only [Result.ok.injEq] at e
    obtain ⟨_, rfl, rfl⟩ := e
    obtain ⟨a1, a2, a3, a4, a5, a7, a8⟩ := set_label_frame cfg (some aa._label)
      { _data := (allocate aa._capacity aa._memPolicy m).1, _capacity := aa._capacity,
        _size := aa._size, _memPolicy := aa._memPolicy, _isOpen := aa._isOpen,
        _label := List.replicate 64 0, _tracking := false } mm
    have hst := storesTo_of_forLoop (m.blocks.length + 1)
      (copyElem aa._data (allocate aa._capacity aa._memPolicy m).1)
      (fun i m2 m3 h3 => storesTo_of_copyElem m2 m3 _ _ i h3) _ _ _ _ hs
    exact ⟨freshBuffer_of m _ _ aa._capacity aa._memPolicy
      (storesTo_trans _ _ _ _ hst (storesTo_of_blocks_eq _ _ _ a7 a8)) a1 a2 a5,
      a2, a3, a4, a5⟩

theorem swap_eq (c d : qs_vector T) : swap c d = (d, c) := by
  cases c
  cases d
  rfl

theorem assign_effect (cfg : Build) (a b : Nat) (c src c1 : qs_vector T) (m m2 : Memory T)
    (h : (operator_assign cfg a b c src m).state? = some (c1, m2)) :
    (b = a ∧ c1 = c ∧ m2 = m) ∨
    (b ≠ a ∧ ∃ m1, (copy cfg src m).state? = some (c1, m1) ∧ m2 = destroy cfg c m1) := by
  obtain ⟨ret, e⟩ := state?_eq_some _ c1 m2 h
  unfold operator_assign at e
  by_cases hab : b = a
  · left
    simp only [hab, ne_eq, not_true_eq_false, if_false, Result.ok.injEq] at e
    exact ⟨hab, e.2.1.symm, e.2.2.symm⟩
  · right
    refine ⟨hab, ?_⟩
    simp only [ne_eq, hab, not_false_eq_true, if_true] at e
    split at e
    · rename_i r temp mt hc
      simp only [swap_eq, Result.ok.injEq] at e
      obtain ⟨_, rfl, rfl⟩ := e
      exact ⟨mt, by rw [hc]; rfl, rfl⟩
    · cases e
    · cases e

theorem storesTo_block (p : Nat) (m m1 : Memory T) (h : StoresTo p m m1) (q : Nat) :
    (m.block? q = none ∧ m1.block? q = none) ∨
    ∃ b cells1, m.block? q = some b ∧ m1.block? q = some { b with cells := cells1 } ∧
      cells1.length = b.cells.length := by
  obtain ⟨_, h2, h3, h4⟩ := h
  by_cases hq : q = p
  · subst hq
    cases hb : m.block? q with
    | none => exact Or.inl ⟨rfl, h4 hb⟩
    | some b =>
      obtain ⟨cells1, hc, hl⟩ := h3 b hb
      exact Or.inr ⟨b, cells1, rfl, hc, hl⟩
  · rw [h2 q hq]
    cases hb : m.block? q with
    | none => exact Or.inl ⟨rfl, rfl⟩
    | some b => exact Or.inr ⟨b, b.cells, rfl, rfl, rfl⟩

theorem validStorage_of_storesTo (p : Nat) (m m1 : Memory T) (d : qs_vector T)
    (h : StoresTo p m m1) (hv : ValidStorage m d) : ValidStorage m1 d := by
  unfold ValidStorage at hv ⊢
  rcases storesTo_block p m m1 h d._data with ⟨h1, h2⟩ | ⟨b, cells1, h1, h2, h3⟩
  · rw [h1] at hv
    rw [h2]
    exact hv
  · rw [h1] at hv
    rw [h2]
    exact ⟨hv.1, hv.2.1, by simpa [h3] using hv.2.2⟩

theorem policyOK_of_storesTo (p : Nat) (m m1 : Memory T) (d : qs_vector T)
    (h : StoresTo p m m1) (hv : PolicyOK m d) : PolicyOK m1 d := by
  unfold PolicyOK at hv ⊢
  rcases storesTo_block p m m1 h d._data with ⟨h1, h2⟩ | ⟨b, cells1, h1, h2, h3⟩
  · rw [h2]
    trivial
  · rw [h1] at hv
    rw [h2]
    exact hv

theorem memOK_of_storesTo (p : Nat) (m m1 : Memory T) (h : StoresTo p m m1)
    (hm : MemOK m) : MemOK m1 := by
  intro q n pol
  rw [h.1, hm q n pol]
  rcases storesTo_block p m m1 h q with ⟨h1, h2⟩ | ⟨b, cells1, h1, h2, h3⟩
  · simp [h1, h2]
  · simp [h1, h2]

theorem deallocOK_of_storesTo (p : Nat) (m m1 : Memory T) (h : StoresTo p m m1)
    (hm : DeallocOK m) : DeallocOK m1 := by
  intro q n pol
  rw [h.1]
  exact hm q n pol

theorem validStorage_of_fresh (m m1 : Memory T) (c1 d : qs_vector T)
    (h : FreshBuffer m c1 m1) (hv : ValidStorage m d) : ValidStorage m1 d := by
  have hne := validStorage_ne_fresh m d hv
  unfold ValidStorage at hv ⊢
  rw [h.2.2.2 _ hne]
  exact hv

theorem policyOK_of_fresh (m m1 : Memory T) (c1 d : qs_vector T)
    (h : FreshBuffer m c1 m1) (hv : ValidStorage m d) (hp : PolicyOK m d) :
    PolicyOK m1 d := by
  have hne := validStorage_ne_fresh m d hv
  unfold PolicyOK at hp ⊢
  rw [h.2.2.2 _ hne]
  exact hp

theorem validStorage_fresh (m m1 : Memory T) (c1 : qs_vector T)
    (h : FreshBuffer m c1 m1) : ValidStorage m1 c1 ∧ PolicyOK m1 c1 := by
  obtain ⟨h1, _, ⟨cells1, hb, hl⟩, _⟩ := h
  unfold ValidStorage PolicyOK
  rw [h1, hb]
  exact ⟨⟨rfl, rfl, hl⟩, rfl⟩

theorem memOK_of_fresh (m m1 : Memory T) (c1 : qs_vector T) (h : FreshBuffer m c1 m1)
    (hm : MemOK m) : MemOK m1 := by
  obtain ⟨_, h2, ⟨cells1, hb, _⟩, h4⟩ := h
  intro q n pol
  rw [h2, List.mem_append, List.mem_singleton, hm q n pol]
  by_cases hq : q = m.blocks.length + 1
  · subst hq
    rw [hb, block?_fresh]
    constructor
    · rintro (⟨b, hb', _⟩ | he)
      · cases hb'
      · simp only [Event.allocate.injEq, true_and] at he
        exact ⟨_, rfl, he.1.symm, he.2.symm⟩
    · rintro ⟨b, hb', hn, hp⟩
      cases hb'
      right
      simp only at hn hp
      rw [hn, hp]
  · rw [h4 q hq]
    constructor
    · rintro (h | he)
      · exact h
      · simp only [Event.allocate.injEq] at he
        exact absurd he.1 hq
    · intro h
      exact Or.inl h

theorem deallocOK_of_fresh (m m1 : Memory T) (c1 : qs_vector T) (h : FreshBuffer m c1 m1)
    (hm : DeallocOK m) : DeallocOK m1 := by
  intro q n pol hmem
  rw [h.2.1] at hmem ⊢
  rcases List.mem_append.1 hmem with h1 | h1
  · rcases hm q n pol h1 with h0 | ⟨n1, hn1⟩
    · exact Or.inl h0
    · exact Or.inr ⟨n1, List.mem_append.2 (Or.inl hn1)⟩
  · simp at h1

theorem block?_zero (m : Memory T) : m.block? 0 = none := rfl

theorem destroy_block (cfg : Build) (c : qs_vector T) (m : Memory T) (q : Nat) :
    (m.block? q = none ∧ (destroy cfg c m).block? q = none) ∨
    ∃ b b1, m.block? q = some b ∧ (destroy cfg c m).block? q = some b1 ∧
      b1.count = b.count ∧ b1.policy = b.policy ∧ (q ≠ c._data → b1 = b) := by
  obtain ⟨_, t2⟩ := destroy_spec cfg c m
  obtain ⟨r1, r2⟩ := release_block? m (destroy cfg c m) c._data t2
  by_cases hq : q = c._data
  · subst hq
    cases hb : m.block? c._data with
    | none =>
      left
      refine ⟨rfl, ?_⟩
      have hbl : (destroy cfg c m).blocks = m.blocks := by
        rw [t2]
        unfold release
        cases hd : c._data with
        | zero => rfl
        | succ k =>
          have : m.blocks[k]? = none := by
            rw [hd] at hb
            exact hb
          simp only [this]
      rw [block?_of_blocks_eq _ _ hbl, hb]
    | some b => exact Or.inr ⟨b, _, rfl, r2 b hb, rfl, rfl, fun h => absurd rfl h⟩
  · rw [r1 q hq]
    cases hb : m.block? q with
    | none => exact Or.inl ⟨rfl, rfl⟩
    | some b => exact Or.inr ⟨b, b, rfl, rfl, rfl, rfl, fun _ => rfl⟩

theorem destroy_block_other (cfg : Build) (c : qs_vector T) (m : Memory T) (q : Nat)
    (hq : q = 0 ∨ q ≠ c._data) : (destroy cfg c m).block? q = m.block? q := by
  rcases hq with h0 | hne
  · subst h0
    rfl
  · rcases destroy_block cfg c m q with ⟨h1, h2⟩ | ⟨b, b1, h1, h2, _, _, h5⟩
    · rw [h1, h2]
    · rw [h1, h2, h5 hne]

theorem validStorage_of_destroy (cfg : Build) (c d : qs_vector T) (m : Memory T)
    (hd : d._data = 0 ∨ d._data ≠ c._data) (hv : ValidStorage m d) :
    ValidStorage (destroy cfg c m) d := by
  unfold ValidStorage at hv ⊢
  rw [destroy_block_other cfg c m _ hd]
  exact hv

theorem policyOK_of_destroy (cfg : Build) (c d : qs_vector T) (m : Memory T)
    (hv : PolicyOK m d) : PolicyOK (destroy cfg c m) d := by
  unfold PolicyOK at hv ⊢
  rcases destroy_block cfg c m d._data with ⟨h1, h2⟩ | ⟨b, b1, h1, h2, _, h4, _⟩
  · rw [h2]
    trivial
  · rw [h1] at hv
    rw [h2]
    exact h4.trans hv

theorem memOK_of_destroy (cfg : Build) (c : qs_vector T) (m : Memory T) (hm : MemOK m) :
    MemOK (destroy cfg c m) := by
  intro q n pol
  rw [(destroy_spec cfg c m).1, List.mem_append, List.mem_singleton]
  have hne : Event.allocate q n pol ≠ Event.deallocate c._data c._size c._memPolicy := by
    intro h
    cases h
  rw [or_iff_left hne, hm q n pol]
  rcases destroy_block cfg c m q with ⟨h1, h2⟩ | ⟨b, b1, h1, h2, h3, h4, _⟩
  · simp [h1, h2]
  · simp [h1, h2, h3, h4]

theorem deallocOK_of_destroy (cfg : Build) (c : qs_vector T) (m : Memory T)
    (hm : MemOK m) (hd : DeallocOK m) (hv : ValidStorage m c) (hp : PolicyOK m c) :
    DeallocOK (destroy cfg c m) := by
  intro q n pol hmem
  rw [(destroy_spec cfg c m).1] at hmem ⊢
  rcases List.mem_append.1 hmem with h1 | h1
  · rcases hd q n pol h1 with h0 | ⟨n1, hn1⟩
    · exact Or.inl h0
    · exact Or.inr ⟨n1, List.mem_append.2 (Or.inl hn1)⟩
  · simp only [List.mem_singleton, Event.deallocate.injEq] at h1
    obtain ⟨rfl, _, rfl⟩ := h1
    unfold ValidStorage at hv
    unfold PolicyOK at hp
    cases hb : m.block? c._data with
    | none =>
      rw [hb] at hv
      exact Or.inl hv.1
    | some b =>
      rw [hb] at hp
      right
      exact ⟨b.count, List.mem_append.2 (Or.inl ((hm _ _ _).2 ⟨b, hb, rfl, hp⟩))⟩

theorem get?_iff (w : World T) (a : Nat) (c : qs_vector T) :
    w.get? a = some c ↔ w.objs[a]? = some (some c) := by
  unfold World.get?
  cases h : w.objs[a]? with
  | none => simp
  | some o =>
    cases o with
    | none => simp
    | some d => simp

theorem get?_lt (w : World T) (a : Nat) (c : qs_vector T) (h : w.get? a = some c) :
    a < w.objs.length := by
  rw [get?_iff] at h
  exact (List.getElem?_eq_some.1 h).1

theorem get?_congr (w w1 : World T) (a : Nat) (h : w1.objs[a]? = w.objs[a]?) :
    w1.get? a = w.get? a := by
  unfold World.get?
  rw [h]

theorem get?_set_ne (w w1 : World T) (t a : Nat) (x : Option (qs_vector T))
    (h : w1.objs = w.objs.set t x) (hne : a ≠ t) : w1.get? a = w.get? a := by
  apply get?_congr
  rw [h, List.getElem?_set_ne (Ne.symm hne)]

theorem get?_set_self (w w1 : World T) (t : Nat) (x : Option (qs_vector T))
    (h : w1.objs = w.objs.set t x) (hlt : t < w.objs.length) : w1.get? t = x := by
  unfold World.get?
  rw [h, List.getElem?_set_self hlt]
  cases x <;> rfl

theorem get?_append_old (w w1 : World T) (a : Nat) (x : Option (qs_vector T))
    (h : w1.objs = w.objs ++ [x]) (hlt : a < w.objs.length) : w1.get? a = w.get? a := by
  apply get?_congr
  rw [h, List.getElem?_append_left hlt]

theorem get?_append_new (w w1 : World T) (x : Option (qs_vector T))
    (h : w1.objs = w.objs ++ [x]) : w1.get? w.objs.length = x := by
  unfold World.get?
  rw [h, List.getElem?_append_right (le_refl _)]
  simp only [Nat.sub_self, List.getElem?_cons_zero]
  cases x <;> rfl

theorem get?_append_cases (w w1 : World T) (a : Nat) (x : Option (qs_vector T))
    (d : qs_vector T) (h : w1.objs = w.objs ++ [x]) (hg : w1.get? a = some d) :
    (a < w.objs.length ∧ w.get? a = some d) ∨ (a = w.objs.length ∧ x = some d) := by
  have hlt := get?_lt w1 a d hg
  rw [h, List.length_append, List.length_singleton] at hlt
  by_cases ha : a < w.objs.length
  · left
    rw [get?_append_old w w1 a x h ha] at hg
    exact ⟨ha, hg⟩
  · right
    have : a = w.objs.length := by omega
    subst this
    rw [get?_append_new w w1 x h] at hg
    exact ⟨rfl, hg⟩

theorem worldOK_new (w w1 : World T) (c1 : qs_vector T)
    (hobjs : w1.objs = w.objs ++ [some c1]) (hw : WorldOK w)
    (hmem : MemOK w1.mem ∧ DeallocOK w1.mem)
    (hold : ∀ d, ValidStorage w.mem d → PolicyOK w.mem d →
      ValidStorage w1.mem d ∧ PolicyOK w1.mem d)
    (hnew : ValidStorage w1.mem c1 ∧ PolicyOK w1.mem c1)
    (hdist : ∀ d, ValidStorage w.mem d →
      (c1._data = 0 ∨ c1._data ≠ d._data) ∧ (d._data = 0 ∨ d._data ≠ c1._data)) :
    WorldOK w1 := by
  obtain ⟨_, _, hv, hd⟩ := hw
  refine ⟨hmem.1, hmem.2, ?_, ?_⟩
  · intro a c hg
    rcases get?_append_cases w w1 a _ c hobjs hg with ⟨_, h⟩ | ⟨_, h⟩
    · exact hold c (hv a c h).1 (hv a c h).2
    · cases h
      exact hnew
  · intro a b ca cb hab hga hgb
    rcases get?_append_cases w w1 a _ ca hobjs hga with ⟨_, ha⟩ | ⟨ha1, ha⟩
    · rcases get?_append_cases w w1 b _ cb hobjs hgb with ⟨_, hb⟩ | ⟨_, hb⟩
      · exact hd a b ca cb hab ha hb
      · cases hb
        exact (hdist ca (hv a ca ha).1).2
    · rcases get?_append_cases w w1 b _ cb hobjs hgb with ⟨_, hb⟩ | ⟨hb1, hb⟩
      · cases ha
        exact (hdist cb (hv b cb hb).1).1
      · exact absurd (ha1.trans hb1.symm) hab

theorem worldOK_set (w w1 : World T) (t : Nat) (c c1 : qs_vector T)
    (hobjs : w1.objs = w.objs.set t (some c1)) (hget : w.get? t = some c) (hw : WorldOK w)
    (hmem : MemOK w1.mem ∧ DeallocOK w1.mem)
    (hold : ∀ d, (d._data = 0 ∨ d._data ≠ c._data) → ValidStorage w.mem d →
      PolicyOK w.mem d → ValidStorage w1.mem d ∧ PolicyOK w1.mem d)
    (hnew : ValidStorage w1.mem c1 ∧ PolicyOK w1.mem c1)
    (hdist : ∀ d, ValidStorage w.mem d → (d._data = 0 ∨ d._data ≠ c._data) →
      (c._data = 0 ∨ c._data ≠ d._data) →
      (c1._data = 0 ∨ c1._data ≠ d._data) ∧ (d._data = 0 ∨ d._data ≠ c1._data)) :
    WorldOK w1 := by
  obtain ⟨_, _, hv, hd⟩ := hw
  have hlt := get?_lt w t c hget
  have hself := get?_set_self w w1 t _ hobjs hlt
  refine ⟨hmem.1, hmem.2, ?_, ?_⟩
  · intro a d hg
    by_cases ha : a = t
    · subst ha
      rw [hself] at hg
      cases hg
      exact hnew
    · rw [get?_set_ne w w1 t a _ hobjs ha] at hg
      exact hold d (hd a t d c ha hg hget) (hv a d hg).1 (hv a d hg).2
  · intro a b ca cb hab hga hgb
    by_cases ha : a = t
    · subst ha
      rw [hself] at hga
      cases hga
      have hb : b ≠ a := Ne.symm hab
      rw [get?_set_ne w w1 a b _ hobjs hb] at hgb
      exact (hdist cb (hv b cb hgb).1 (hd b a cb c hb hgb hget) (hd a b c cb hab hget hgb)).1
    · rw [get?_set_ne w w1 t a _ hobjs ha] at hga
      by_cases hb : b = t
      · subst hb
        rw [hself] at hgb
        cases hgb
        exact (hdist ca (hv a ca hga).1 (hd a b ca c ha hga hget)
          (hd b a c ca (Ne.symm ha) hget hga)).2
      · rw [get?_set_ne w w1 t b _ hobjs hb] at hgb
        exact hd a b ca cb hab hga hgb

theorem validStorage_congr (m : Memory T) (c c1 : qs_vector T) (hd : c1._data = c._data)
    (hc : c1._capacity = c._capacity) (hv : ValidStorage m c) : ValidStorage m c1 := by
  unfold ValidStorage at hv ⊢
  rw [hd, hc]
  exact hv

theorem policyOK_congr (m : Memory T) (c c1 : qs_vector T) (hd : c1._data = c._data)
    (hp : c1._memPolicy = c._memPolicy) (hv : PolicyOK m c) : PolicyOK m c1 := by
  unfold PolicyOK at hv ⊢
  rw [hd, hp]
  exact hv

theorem validStorage_default (m : Memory T) :
    ValidStorage m (qs_vector.default : qs_vector T) ∧
      PolicyOK m (qs_vector.default : qs_vector T) := by
  unfold ValidStorage PolicyOK
  exact ⟨⟨rfl, rfl⟩, trivial⟩

theorem fresh_dist (m m1 : Memory T) (c1 d : qs_vector T) (h : FreshBuffer m c1 m1)
    (hv : ValidStorage m d) :
    (c1._data = 0 ∨ c1._data ≠ d._data) ∧ (d._data = 0 ∨ d._data ≠ c1._data) := by
  have hne := validStorage_ne_fresh m d hv
  rw [h.1]
  exact ⟨Or.inr (Ne.symm hne), Or.inr hne⟩

theorem worldOK_fresh (w w1 : World T) (c1 : qs_vector T)
    (hobjs : w1.objs = w.objs ++ [some c1]) (hw : WorldOK w)
    (hf : FreshBuffer w.mem c1 w1.mem) : WorldOK w1 :=
  worldOK_new w w1 c1 hobjs hw
    ⟨memOK_of_fresh _ _ c1 hf hw.1, deallocOK_of_fresh _ _ c1 hf hw.2.1⟩
    (fun d hv hp => ⟨validStorage_of_fresh _ _ c1 d hf hv, policyOK_of_fresh _ _ c1 d hf hv hp⟩)
    (validStorage_fresh _ _ c1 hf) (fun d hv => fresh_dist _ _ c1 d hf hv)

theorem worldOK_step (cfg : Build) (op : Op T) (w w1 : World T) (hw : WorldOK w)
    (h : step cfg op w = some w1) : WorldOK w1 := by
  cases op with
  | construct =>
    simp only [step, Option.some.injEq] at h
    subst h
    refine worldOK_new w _ qs_vector.default rfl hw ⟨hw.1, hw.2.1⟩ (fun d hv hp => ⟨hv, hp⟩)
      (validStorage_default _) (fun d _ => ⟨Or.inl rfl, ?_⟩)
    by_cases h0 : d._data = 0
    · exact Or.inl h0
    · exact Or.inr h0
  | construct_sized size memPolicy label =>
    simp only [step] at h
    split at h
    · rename_i s hs
      simp only [Option.some.injEq] at h
      subst h
      exact worldOK_fresh w _ s.1 rfl hw (sized_fresh cfg size memPolicy label _ _ _ hs).1
    · cases h
  | construct_filled size value memPolicy label =>
    simp only [step] at h
    split at h
    · rename_i s hs
      simp only [Option.some.injEq] at h
      subst h
      exact worldOK_fresh w _ s.1 rfl hw
        (filled_fresh cfg size value memPolicy label _ _ _ hs).1
    · cases h
  | construct_copy aa =>
    simp only [step] at h
    split at h
    · rename_i src hsrc
      split at h
      · rename_i s hs
        simp only [Option.some.injEq] at h
        subst h
        exact worldOK_fresh w _ s.1 rfl hw (copy_fresh cfg src _ _ _ hs).1
      · cases h
    · cases h
  | destruct t =>
    simp only [step] at h
    split at h
    · rename_i c hc
      simp only [Option.some.injEq] at h
      subst h
      obtain ⟨hm, hdl, hv, hd⟩ := hw
      have hlt := get?_lt w t c hc
      have hnone : ∀ a d, (World.mk (w.objs.set t none) (destroy cfg c w.mem)).get? a = some d →
          a ≠ t ∧ w.get? a = some d := by
        intro a d hg
        by_cases ha : a = t
        · subst ha
          rw [get?_set_self w _ a none rfl hlt] at hg
          cases hg
        · rw [get?_set_ne w _ t a none rfl ha] at hg
          exact ⟨ha, hg⟩
      refine ⟨memOK_of_destroy cfg c _ hm,
        deallocOK_of_destroy cfg c _ hm hdl (hv t c hc).1 (hv t c hc).2, ?_, ?_⟩
      · intro a d hg
        obtain ⟨ha, hg'⟩ := hnone a d hg
        exact ⟨validStorage_of_destroy cfg c d _ (hd a t d c ha hg' hc) (hv a d hg').1,
          policyOK_of_destroy cfg c d _ (hv a d hg').2⟩
      · intro a b ca cb hab hga hgb
        exact hd a b ca cb hab (hnone a ca hga).2 (hnone b cb hgb).2
    · cases h
  | assign t s =>
    simp only [step] at h
    split at h
    · rename_i c src hc hsrc
      split at h
      · rename_i st hst
        simp only [Option.some.injEq] at h
        subst h
        obtain ⟨hm, hdl, hv, hd⟩ := hw
        rcases assign_effect cfg t s c src st.1 w.mem st.2 hst with ⟨_, h1, h2⟩ | ⟨_, m1, hcp, h2⟩
        · refine worldOK_set w _ t c st.1 rfl hc ⟨hm, hdl, hv, hd⟩ ?_ ?_ ?_ ?_
          · simp only [h2]
            exact ⟨hm, hdl⟩
          · intro d _ hvd hpd
            simp only [h2]
            exact ⟨hvd, hpd⟩
          · simp only [h1, h2]
            exact hv t c hc
          · intro d _ h3 h4
            rw [h1]
            exact ⟨h4, h3⟩
        · obtain ⟨hf, _⟩ := copy_fresh cfg src _ _ _ hcp
          have hvc := validStorage_of_fresh _ _ st.1 c hf (hv t c hc).1
          have hpc := policyOK_of_fresh _ _ st.1 c hf (hv t c hc).1 (hv t c hc).2
          have hm1 := memOK_of_fresh _ _ st.1 hf hm
          have hd1 := deallocOK_of_fresh _ _ st.1 hf hdl
          refine worldOK_set w _ t c st.1 rfl hc ⟨hm, hdl, hv, hd⟩ ?_ ?_ ?_ ?_
          · simp only [h2]
            exact ⟨memOK_of_destroy cfg c _ hm1, deallocOK_of_destroy cfg c _ hm1 hd1 hvc hpc⟩
          · intro d hdc hvd hpd
            simp only [h2]
            exact ⟨validStorage_of_destroy cfg c d _ hdc (validStorage_of_fresh _ _ st.1 d hf hvd),
              policyOK_of_destroy cfg c d _ (policyOK_of_fresh _ _ st.1 d hf hvd hpd)⟩
          · simp only [h2]
            obtain ⟨hv1, hp1⟩ := validStorage_fresh _ _ st.1 hf
            exact ⟨validStorage_of_destroy cfg c st.1 _
              (fresh_dist _ _ st.1 c hf (hv t c hc).1).1 hv1,
              policyOK_of_destroy cfg c st.1 _ hp1⟩
          · intro d hvd _ _
            exact fresh_dist _ _ st.1 d hf hvd
      · cases h
    · cases h
  | swap t s =>
    simp only [step] at h
    split at h
    · rename_i c d hc hdd
      simp only [Option.some.injEq, swap_eq] at h
      subst h
      obtain ⟨hm, hdl, hv, hd⟩ := hw
      have hlt := get?_lt w t c hc
      have hls := get?_lt w s d hdd
      have key : ∀ a x,
          (World.mk ((w.objs.set t (some d)).set s (some c)) w.mem).get? a = some x →
          w.get? (if a = s then t else if a = t then s else a) = some x := by
        intro a x hg
        rw [get?_iff] at hg
        simp only at hg
        by_cases ha : a = s
        · subst ha
          rw [List.getElem?_set_self (by simpa using hls)] at hg
          simp only [Option.some.injEq] at hg
          rw [if_pos rfl, ← hg]
          exact hc
        · rw [List.getElem?_set_ne (Ne.symm ha)] at hg
          by_cases hat : a = t
          · subst hat
            rw [List.getElem?_set_self hlt] at hg
            simp only [Option.some.injEq] at hg
            rw [if_neg ha, if_pos rfl, ← hg]
            exact hdd
          · rw [List.getElem?_set_ne (Ne.symm hat)] at hg
            rw [if_neg ha, if_neg hat]
            exact (get?_iff w a x).2 hg
      refine ⟨hm, hdl, fun a x hg => hv _ x (key a x hg), ?_⟩
      intro a b ca cb hab hga hgb
      refine hd _ _ ca cb ?_ (key a ca hga) (key b cb hgb)
      split_ifs <;> omega
    · cases h
  | call t f =>
    simp only [step] at h
    split at h
    · rename_i c hc
      split at h
      · rename_i st hst
        simp only [Option.some.injEq] at h
        subst h
        obtain ⟨hm, hdl, hv, hd⟩ := hw
        rcases run_effect cfg f c st.1 w.mem st.2 hst with ⟨k1, k2, k3, k4⟩ | ⟨_, hf⟩
        · refine worldOK_set w _ t c st.1 rfl hc ⟨hm, hdl, hv, hd⟩
            ⟨memOK_of_storesTo _ _ _ k4 hm, deallocOK_of_storesTo _ _ _ k4 hdl⟩
            (fun d _ hvd hpd => ⟨validStorage_of_storesTo _ _ _ d k4 hvd,
              policyOK_of_storesTo _ _ _ d k4 hpd⟩)
            ⟨validStorage_congr _ c st.1 k1 k2 (validStorage_of_storesTo _ _ _ c k4 (hv t c hc).1),
              policyOK_congr _ c st.1 k1 k3 (policyOK_of_storesTo _ _ _ c k4 (hv t c hc).2)⟩ ?_
          intro d _ h3 h4
          rw [k1]
          exact ⟨h4, h3⟩
        · exact worldOK_set w _ t c st.1 rfl hc ⟨hm, hdl, hv, hd⟩
            ⟨memOK_of_fresh _ _ st.1 hf hm, deallocOK_of_fresh _ _ st.1 hf hdl⟩
            (fun d _ hvd hpd => ⟨validStorage_of_fresh _ _ st.1 d hf hvd,
              policyOK_of_fresh _ _ st.1 d hf hvd hpd⟩)
            (validStorage_fresh _ _ st.1 hf) (fun d hvd _ _ => fresh_dist _ _ st.1 d hf hvd)
      · cases h
    · cases h

theorem worldOK_empty : WorldOK (World.empty : World T) := by
  refine ⟨?_, ?_, ?_, ?_⟩
  · intro q n p
    simp only [World.empty, List.not_mem_nil, false_iff, not_exists, not_and]
    intro b hb
    cases q <;> simp [Memory.block?] at hb
  · intro q n p h
    simp [World.empty] at h
  · intro a c h
    simp [World.get?, World.empty] at h
  · intro a b ca cb _ h
    simp [World.get?, World.empty] at h

theorem worldOK_run (cfg : Build) (ops : List (Op T)) :
    ∀ (w w1 : World T), WorldOK w → run cfg ops w = some w1 → WorldOK w1 := by
  induction ops with
  | nil =>
    intro w w1 hw h
    simp only [run, Option.some.injEq] at h
    subst h
    exact hw
  | cons op ops ih =>
    intro w w1 hw h
    simp only [run] at h
    split at h
    · rename_i w2 h2
      exact ih w2 w1 (worldOK_step cfg op w w2 hw h2) h
    · cases h

theorem store_some_inv (m m1 : Memory T) (p : Nat) (i : Int) (v : Option T)
    (h : store m p i v = some m1) :
    ∃ b, m.block? p = some b ∧ b.live = true ∧ 0 ≤ i ∧ i.toNat < b.cells.length := by
  cases hb : m.block? p with
  | none =>
    rw [store_eq_none_of m p i v (fun b' hb' => by rw [hb] at hb'; cases hb')] at h
    cases h
  | some b =>
    by_cases hc : b.live = true ∧ 0 ≤ i ∧ i.toNat < b.cells.length
    · exact ⟨b, rfl, hc⟩
    · rw [store_eq_none_of m p i v (fun b' hb' => by
        rw [hb] at hb'
        cases hb'
        exact hc)] at h
      cases h

theorem run_size (cfg : Build) (f : Method T) (c c1 : qs_vector T) (m m1 : Memory T)
    (h : f.run cfg c m = some (c1, m1)) (hv : ValidStorage m c)
    (hs : 0 ≤ c._size ∧ c._size ≤ c._capacity) (hc : f.inContract c = true) :
    0 ≤ c1._size ∧ c1._size ≤ c1._capacity := by
  cases f with
  | set_label label =>
    simp only [Method.run, Option.some.injEq] at h
    obtain ⟨_, a2, a3, _⟩ := set_label_frame cfg label c m
    rw [h] at a2 a3
    rw [a2, a3]
    exact hs
  | push_back v =>
    obtain ⟨ret, e⟩ := state?_eq_some (push_back v c m) c1 m1 h
    unfold push_back at e
    split_ifs at e
    split at e
    · cases e
    · rename_i mm hst
      simp only [Result.ok.injEq] at e
      obtain ⟨_, rfl, rfl⟩ := e
      obtain ⟨b, hb, _, h0, hlt⟩ := store_some_inv m mm _ _ _ hst
      unfold ValidStorage at hv
      rw [hb] at hv
      obtain ⟨_, _, hlen⟩ := hv
      simp only
      omega
  | Open =>
    obtain ⟨ret, e⟩ := state?_eq_some (Open c m) c1 m1 h
    simp only [Open, Result.ok.injEq] at e
    obtain ⟨_, rfl, rfl⟩ := e
    exact hs
  | Close =>
    obtain ⟨ret, e⟩ := state?_eq_some (Close c m) c1 m1 h
    simp only [Close, Result.ok.injEq] at e
    obtain ⟨_, rfl, rfl⟩ := e
    exact hs
  | operator_index_assign index v =>
    obtain ⟨ret, e⟩ := state?_eq_some (operator_index_assign index v c m) c1 m1 h
    unfold operator_index_assign at e
    split at e
    · cases e
    · simp only [Result.ok.injEq] at e
      obtain ⟨_, rfl, rfl⟩ := e
      exact hs
  | reserve N policy =>
    obtain ⟨ret, e⟩ := state?_eq_some (reserve cfg N policy c m) c1 m1 h
    simp only [Method.inContract, decide_eq_true_eq] at hc
    by_cases h0 : c._capacity = 0
    · obtain ⟨c2, m2, e2, _, g2, g3, _⟩ := reserve_ok cfg N policy c m h0
      rw [e2] at e
      simp only [Result.ok.injEq] at e
      obtain ⟨_, rfl, rfl⟩ := e
      rw [g2, g3]
      omega
    · simp [reserve, h0] at e
  | resize N policy =>
    obtain ⟨ret, e⟩ := state?_eq_some (resize cfg N policy c m) c1 m1 h
    simp only [Method.inContract, decide_eq_true_eq] at hc
    by_cases h0 : c._capacity = 0
    · obtain ⟨c2, m2, e2, _, g2, g3, _⟩ := resize_ok cfg N policy c m h0
      rw [e2] at e
      simp only [Result.ok.injEq] at e
      obtain ⟨_, rfl, rfl⟩ := e
      rw [g2, g3]
      omega
    · simp [resize, h0] at e
  | resize_value N value policy =>
    obtain ⟨ret, e⟩ := state?_eq_some (resize_value cfg N value policy c m) c1 m1 h
    simp only [Method.inContract, decide_eq_true_eq] at hc
    by_cases h0 : c._capacity = 0
    · obtain ⟨c2, m2, cells2, e2, _, g2, g3, _⟩ := resize_value_ok cfg N value policy c m h0
      rw [e2] at e
      simp only [Result.ok.injEq] at e
      obtain ⟨_, rfl, rfl⟩ := e
      rw [g2, g3]
      omega
    · simp [resize_value, h0] at e
  | eraseEnd k =>
    obtain ⟨ret, e⟩ := state?_eq_some (eraseEnd k c m) c1 m1 h
    simp only [eraseEnd, Result.ok.injEq] at e
    obtain ⟨_, rfl, rfl⟩ := e
    simp only [Method.inContract, decide_eq_true_eq] at hc
    simp only
    omega
  | pop_back =>
    obtain ⟨ret, e⟩ := state?_eq_some (pop_back c m) c1 m1 h
    simp only [pop_back, Result.ok.injEq] at e
    obtain ⟨_, rfl, rfl⟩ := e
    simp only [Method.inContract, decide_eq_true_eq] at hc
    simp only
    omega
  | clear =>
    obtain ⟨ret, e⟩ := state?_eq_some (clear c m) c1 m1 h
    simp only [clear, Result.ok.injEq] at e
    obtain ⟨_, rfl, rfl⟩ := e
    simp only
    omega
  | appendList listSize list =>
    obtain ⟨ret, e⟩ := state?_eq_some (appendList listSize list c m) c1 m1 h
    simp only [Method.inContract, decide_eq_true_eq] at hc
    unfold appendList at e
    split_ifs at e with hlt
    simp only at e
    split at e
    · cases e
    · simp only [Result.ok.injEq] at e
      obtain ⟨_, rfl, rfl⟩ := e
      simp only
      omega
  | atomic_Index_Inc inc =>
    obtain ⟨ret, e⟩ := state?_eq_some (atomic_Index_Inc inc c m) c1 m1 h
    simp only [atomic_Index_Inc, ATOMIC_CAPTURE, Result.ok.injEq] at e
    obtain ⟨_, rfl, rfl⟩ := e
    simp only [Method.inContract, decide_eq_true_eq] at hc
    simp only
    omega

theorem get?_destruct (w : World T) (m1 : Memory T) (t a : Nat) (c d : qs_vector T)
    (hc : w.get? t = some c)
    (hg : (World.mk (w.objs.set t none) m1).get? a = some d) :
    a ≠ t ∧ w.get? a = some d := by
  have hlt := get?_lt w t c hc
  by_cases ha : a = t
  · subst ha
    rw [get?_set_self w _ a none rfl hlt] at hg
    cases hg
  · rw [get?_set_ne w _ t a none rfl ha] at hg
    exact ⟨ha, hg⟩

theorem get?_swap (w : World T) (m1 : Memory T) (t s a : Nat) (c d x : qs_vector T)
    (hc : w.get? t = some c) (hd : w.get? s = some d)
    (hg : (World.mk ((w.objs.set t (some d)).set s (some c)) m1).get? a = some x) :
    w.get? (if a = s then t else if a = t then s else a) = some x := by
  have hlt := get?_lt w t c hc
  have hls := get?_lt w s d hd
  rw [get?_iff] at hg
  simp only at hg
  by_cases ha : a = s
  · subst ha
    rw [List.getElem?_set_self (by simpa using hls)] at hg
    simp only [Option.some.injEq] at hg
    rw [if_pos rfl, ← hg]
    exact hc
  · rw [List.getElem?_set_ne (Ne.symm ha)] at hg
    by_cases hat : a = t
    · subst hat
      rw [List.getElem?_set_self hlt] at hg
      simp only [Option.some.injEq] at hg
      rw [if_neg ha, if_pos rfl, ← hg]
      exact hd
    · rw [List.getElem?_set_ne (Ne.symm hat)] at hg
      rw [if_neg ha, if_neg hat]
      exact (get?_iff w a x).2 hg

theorem sizeOK_step (cfg : Build) (op : Op T) (w w1 : World T) (hw : WorldOK w)
    (hs : SizeOK w) (hc : op.inContract w = true) (h : step cfg op w = some w1) :
    SizeOK w1 := by
  intro a x hg
  cases op with
  | construct =>
    simp only [step, Option.some.injEq] at h
    subst h
    rcases get?_append_cases w _ a _ x rfl hg with ⟨_, h1⟩ | ⟨_, h1⟩
    · exact hs a x h1
    · cases h1
      exact ⟨le_refl _, le_refl _⟩
  | construct_sized size memPolicy label =>
    simp only [Op.inContract, decide_eq_true_eq] at hc
    simp only [step] at h
    split at h
    · rename_i s hst
      simp only [Option.some.injEq] at h
      subst h
      rcases get?_append_cases w _ a _ x rfl hg with ⟨_, h1⟩ | ⟨_, h1⟩
      · exact hs a x h1
      · cases h1
        obtain ⟨_, g2, g3, _⟩ := sized_fresh cfg size memPolicy label _ _ _ hst
        rw [g2, g3]
        exact ⟨hc.1, le_refl _⟩
    · cases h
  | construct_filled size value memPolicy label =>
    simp only [Op.inContract, decide_eq_true_eq] at hc
    simp only [step] at h
    split at h
    · rename_i s hst
      simp only [Option.some.injEq] at h
      subst h
      rcases get?_append_cases w _ a _ x rfl hg with ⟨_, h1⟩ | ⟨_, h1⟩
      · exact hs a x h1
      · cases h1
        obtain ⟨_, g2, g3, _⟩ := filled_fresh cfg size value memPolicy label _ _ _ hst
        rw [g2, g3]
        exact ⟨hc.1, le_refl _⟩
    · cases h
  | construct_copy aa =>
    simp only [step] at h
    split at h
    · rename_i src hsrc
      split at h
      · rename_i s hst
        simp only [Option.some.injEq] at h
        subst h
        rcases get?_append_cases w _ a _ x rfl hg with ⟨_, h1⟩ | ⟨_, h1⟩
        · exact hs a x h1
        · cases h1
          obtain ⟨_, g2, g3, _⟩ := copy_fresh cfg src _ _ _ hst
          rw [g2, g3]
          exact hs aa src hsrc
      · cases h
    · cases h
  | destruct t =>
    simp only [step] at h
    split at h
    · rename_i c hct
      simp only [Option.some.injEq] at h
      subst h
      exact hs a x (get?_destruct w _ t a c x hct hg).2
    · cases h
  | assign t s =>
    simp only [step] at h
    split at h
    · rename_i c src hct hsrc
      split at h
      · rename_i st hst
        simp only [Option.some.injEq] at h
        subst h
        by_cases ha : a = t
        · subst ha
          rw [get?_set_self w _ a _ rfl (get?_lt w a c hct)] at hg
          cases hg
          rcases assign_effect cfg a s c src st.1 w.mem st.2 hst with ⟨_, h1, _⟩ | ⟨_, m1, hcp, _⟩
          · rw [h1]
            exact hs a c hct
          · obtain ⟨_, g2, g3, _⟩ := copy_fresh cfg src _ _ _ hcp
            rw [g2, g3]
            exact hs s src hsrc
        · rw [get?_set_ne w _ t a _ rfl ha] at hg
          exact hs a x hg
      · cases h
    · cases h
  | swap t s =>
    simp only [step] at h
    split at h
    · rename_i c d hct hds
      simp only [Option.some.injEq, swap_eq] at h
      subst h
      exact hs _ x (get?_swap w _ t s a c d x hct hds hg)
    · cases h
  | call t f =>
    simp only [step] at h
    split at h
    · rename_i c hct
      split at h
      · rename_i st hst
        simp only [Option.some.injEq] at h
        subst h
        by_cases ha : a = t
        · subst ha
          rw [get?_set_self w _ a _ rfl (get?_lt w a c hct)] at hg
          cases hg
          simp only [Op.inContract, hct] at hc
          exact run_size cfg f c st.1 w.mem st.2 hst (hw.2.2.1 a c hct).1 (hs a c hct) hc
        · rw [get?_set_ne w _ t a _ rfl ha] at hg
          exact hs a x hg
      · cases h
    · cases h

theorem sizeOK_run (cfg : Build) (ops : List (Op T)) :
    ∀ (w w1 : World T), WorldOK w → SizeOK w → allInContract cfg ops w = true →
      run cfg ops w = some w1 → SizeOK w1 := by
  induction ops with
  | nil =>
    intro w w1 _ hs _ h
    simp only [run, Option.some.injEq] at h
    subst h
    exact hs
  | cons op ops ih =>
    intro w w1 hw hs hc h
    simp only [run] at h
    simp only [allInContract, Bool.and_eq_true] at hc
    split at h
    · rename_i w2 h2
      rw [h2] at hc
      exact ih w2 w1 (worldOK_step cfg op w w2 hw h2)
        (sizeOK_step cfg op w w2 hw hs hc.1 h2) hc.2 h
    · cases h

theorem step_frame (cfg : Build) (op : Op T) (w w1 : World T) (a : Nat) (c : qs_vector T)
    (hget : w.get? a = some c) (hreb : op.rebinds a = false)
    (h : step cfg op w = some w1) :
    (op.isCallOn a = false ∧ w1.get? a = some c) ∨
    ∃ f c1, op = Op.call a f ∧ f.run cfg c w.mem = some (c1, w1.mem) ∧
      w1.get? a = some c1 := by
  have hlt := get?_lt w a c hget
  cases op with
  | construct =>
    left
    simp only [step, Option.some.injEq] at h
    subst h
    exact ⟨rfl, (get?_append_old w _ a _ rfl hlt).trans hget⟩
  | construct_sized size memPolicy label =>
    left
    simp only [step] at h
    split at h
    · simp only [Option.some.injEq] at h
      subst h
      exact ⟨rfl, (get?_append_old w _ a _ rfl hlt).trans hget⟩
    · cases h
  | construct_filled size value memPolicy label =>
    left
    simp only [step] at h
    split at h
    · simp only [Option.some.injEq] at h
      subst h
      exact ⟨rfl, (get?_append_old w _ a _ rfl hlt).trans hget⟩
    · cases h
  | construct_copy aa =>
    left
    simp only [step] at h
    split at h
    · split at h
      · simp only [Option.some.injEq] at h
        subst h
        exact ⟨rfl, (get?_append_old w _ a _ rfl hlt).trans hget⟩
      · cases h
    · cases h
  | destruct t =>
    left
    simp only [Op.rebinds, decide_eq_false_iff_not] at hreb
    simp only [step] at h
    split at h
    · simp only [Option.some.injEq] at h
      subst h
      exact ⟨rfl, (get?_set_ne w _ t a _ rfl (Ne.symm hreb)).trans hget⟩
    · cases h
  | assign t s =>
    left
    simp only [Op.rebinds, decide_eq_false_iff_not] at hreb
    simp only [step] at h
    split at h
    · split at h
      · simp only [Option.some.injEq] at h
        subst h
        exact ⟨rfl, (get?_set_ne w _ t a _ rfl (Ne.symm hreb)).trans hget⟩
      · cases h
    · cases h
  | swap t s =>
    left
    simp only [Op.rebinds, Bool.or_eq_false_iff, decide_eq_false_iff_not] at hreb
    simp only [step] at h
    split at h
    · simp only [Option.some.injEq] at h
      subst h
      refine ⟨rfl, ?_⟩
      rw [← hget]
      apply get?_congr
      simp only
      rw [List.getElem?_set_ne hreb.2, List.getElem?_set_ne hreb.1]
    · cases h
  | call t f =>
    simp only [step] at h
    split at h
    · rename_i ct hct
      split at h
      · rename_i st hst
        simp only [Option.some.injEq] at h
        subst h
        by_cases ha : t = a
        · subst ha
          right
          rw [hget] at hct
          cases hct
          exact ⟨f, st.1, rfl, hst, get?_set_self w _ t _ rfl hlt⟩
        · left
          exact ⟨by simp [Op.isCallOn, ha],
            (get?_set_ne w _ t a _ rfl (Ne.symm ha)).trans hget⟩
      · cases h
    · cases h

theorem run_capacity (cfg : Build) (f : Method T) (c c1 : qs_vector T) (m m1 : Memory T)
    (h : f.run cfg c m = some (c1, m1)) (hcap : c._capacity ≠ 0) :
    c1._capacity = c._capacity := by
  rcases run_effect cfg f c c1 m m1 h with ⟨_, k2, _⟩ | ⟨h0, _⟩
  · exact k2
  · exact absurd h0 hcap

theorem sizeOK_empty : SizeOK (World.empty : World T) := by
  intro a c h
  simp [World.get?, World.empty] at h

theorem capacity_run (cfg : Build) (ops : List (Op T)) :
    ∀ (w w1 : World T) (a : Nat) (c : qs_vector T), w.get? a = some c → c._capacity ≠ 0 →
      (∀ op ∈ ops, op.rebinds a = false) → run cfg ops w = some w1 →
      ∃ c1, w1.get? a = some c1 ∧ c1._capacity = c._capacity := by
  induction ops with
  | nil =>
    intro w w1 a c hget _ _ h
    simp only [run, Option.some.injEq] at h
    subst h
    exact ⟨c, hget, rfl⟩
  | cons op ops ih =>
    intro w w1 a c hget hcap hops h
    simp only [run] at h
    split at h
    · rename_i w2 h2
      have hreb : op.rebinds a = false := hops op (by simp)
      have hrest : ∀ o ∈ ops, o.rebinds a = false := fun o ho => hops o (by simp [ho])
      rcases step_frame cfg op w w2 a c hget hreb h2 with ⟨_, hg⟩ | ⟨f, c2, _, hf, hg⟩
      · exact ih w2 w1 a c hg hcap hrest h
      · have hc2 := run_capacity cfg f c c2 w.mem w2.mem hf hcap
        obtain ⟨c1, g1, g2⟩ := ih w2 w1 a c2 hg (by rw [hc2]; exact hcap) hrest h
        exact ⟨c1, g1, g2.trans hc2⟩
    · cases h

/-- C12, on the code. The destructor calls
`deallocate(_data, _size, _memPolicy)`: the element count it passes is the size,
not the capacity that every call of `allocate` was given.  After the default
constructor and `reserve(4)` the destructor pairs `allocate(4, HOST_MEM)` with
`deallocate(p, 0, HOST_MEM)`; inside a copy assignment the temporary releases a
buffer obtained by `allocate(3, HOST_MEM)` with `deallocate(p, 0, HOST_MEM)`. -/
theorem C12_deallocate_count (cfg : Build) (c : qs_vector T) (m : Memory T) :
    (destroy cfg c m).trace = m.trace ++ [Event.deallocate c._data c._size c._memPolicy] ∧
    (run exBuild [Op.construct, Op.call 0 (Method.reserve 4 AllocationPolicy.HOST_MEM),
        Op.destruct 0] (World.empty : World Nat)).map (fun w => w.mem.trace) =
      some [Event.allocate 1 4 AllocationPolicy.HOST_MEM,
        Event.deallocate 1 0 AllocationPolicy.HOST_MEM] ∧
    (run exBuild [Op.construct_sized 3 AllocationPolicy.HOST_MEM none,
        Op.call 0 Method.clear, Op.construct, Op.assign 0 1]
        (World.empty : World Nat)).map (fun w => w.mem.trace) =
      some [Event.allocate 1 3 AllocationPolicy.HOST_MEM,
        Event.allocate 2 0 AllocationPolicy.HOST_MEM,
        Event.deallocate 1 0 AllocationPolicy.HOST_MEM] :=
  ⟨(destroy_spec cfg c m).1, by decide, by decide⟩

/-- C13. In every world reached from the empty world by constructors and public
operations that return, every live container records the policy its buffer was
allocated with: the block named by `_data` was requested from `_memPolicy`, the
call `allocate` on record for `_data` names `_memPolicy`, and the destructor
calls `deallocate` with `_memPolicy`.  Every call `deallocate` already on record
for a non-null pointer, those of the temporaries of copy assignment included,
names the policy of the one call `allocate` that returned the pointer. -/
theorem C13_policy_tag (cfg : Build) (ops : List (Op T)) (w : World T) (a : Nat)
    (c : qs_vector T) (hrun : run cfg ops World.empty = some w)
    (hget : w.get? a = some c) :
    PolicyOK w.mem c ∧
    (∀ n p, Event.allocate c._data n p ∈ w.mem.trace → p = c._memPolicy) ∧
    (c._data ≠ 0 → ∃ n, Event.allocate c._data n c._memPolicy ∈ w.mem.trace) ∧
    (destroy cfg c w.mem).trace =
      w.mem.trace ++ [Event.deallocate c._data c._size c._memPolicy] ∧
    (∀ q n p, Event.deallocate q n p ∈ w.mem.trace → q ≠ 0 →
      (∃ n1, Event.allocate q n1 p ∈ w.mem.trace) ∧
      ∀ n2 p2, Event.allocate q n2 p2 ∈ w.mem.trace → p2 = p) := by
  obtain ⟨hm, hdl, hv, _⟩ := worldOK_run cfg ops World.empty w worldOK_empty hrun
  obtain ⟨hvc, hpc⟩ := hv a c hget
  refine ⟨hpc, ?_, ?_, (destroy_spec cfg c w.mem).1, ?_⟩
  · intro n p hmem
    obtain ⟨b, hb, _, hp⟩ := (hm _ _ _).1 hmem
    unfold PolicyOK at hpc
    rw [hb] at hpc
    exact hp.symm.trans hpc
  · intro hne
    unfold ValidStorage at hvc
    unfold PolicyOK at hpc
    cases hb : w.mem.block? c._data with
    | none =>
      rw [hb] at hvc
      exact absurd hvc.1 hne
    | some b =>
      rw [hb] at hpc
      exact ⟨b.count, (hm _ _ _).2 ⟨b, hb, rfl, hpc⟩⟩
  · intro q n p hmem hq
    rcases hdl q n p hmem with h0 | ⟨n1, hn1⟩
    · exact absurd h0 hq
    · refine ⟨⟨n1, hn1⟩, ?_⟩
      intro n2 p2 h2
      obtain ⟨b, hb, _, hp⟩ := (hm _ _ _).1 hn1
      obtain ⟨b2, hb2, _, hp2⟩ := (hm _ _ _).1 h2
      rw [hb] at hb2
      cases hb2
      exact hp2.symm.trans hp

/-- C13, at a concrete input: the copy-constructed container of `exRunW`. -/
theorem C13_policy_tag_witness :
    run exBuild exRunOps World.empty = some exRunW ∧ exRunW.get? 1 = some exRun1 ∧
    PolicyOK exRunW.mem exRun1 ∧
    (∀ n p, Event.allocate exRun1._data n p ∈ exRunW.mem.trace → p = exRun1._memPolicy) ∧
    (exRun1._data ≠ 0 →
      ∃ n, Event.allocate exRun1._data n exRun1._memPolicy ∈ exRunW.mem.trace) ∧
    (destroy exBuild exRun1 exRunW.mem).trace =
      exRunW.mem.trace ++ [Event.deallocate exRun1._data exRun1._size exRun1._memPolicy] ∧
    (∀ q n p, Event.deallocate q n p ∈ exRunW.mem.trace → q ≠ 0 →
      (∃ n1, Event.allocate q n1 p ∈ exRunW.mem.trace) ∧
      ∀ n2 p2, Event.allocate q n2 p2 ∈ exRunW.mem.trace → p2 = p) :=
  ⟨by decide, by decide, C13_policy_tag exBuild exRunOps exRunW 1 exRun1 (by decide) (by decide)⟩

/-- C14 as stated fails: a container constructed with capacity 1 has capacity 4
after the copy assignment from a container of capacity 4, and also after a swap
with it.  Both operations returned. -/
theorem C14_counterexample :
    (run exBuild [Op.construct_sized 1 AllocationPolicy.HOST_MEM none,
        Op.construct_sized 4 AllocationPolicy.HOST_MEM none]
        (World.empty : World Nat)).map (fun w => (w.get? 0).map (fun c => c._capacity)) =
      some (some 1) ∧
    (run exBuild [Op.construct_sized 1 AllocationPolicy.HOST_MEM none,
        Op.construct_sized 4 AllocationPolicy.HOST_MEM none, Op.assign 0 1]
        (World.empty : World Nat)).map (fun w => (w.get? 0).map (fun c => c._capacity)) =
      some (some 4) ∧
    (run exBuild [Op.construct_sized 1 AllocationPolicy.HOST_MEM none,
        Op.construct_sized 4 AllocationPolicy.HOST_MEM none, Op.swap 0 1]
        (World.empty : World Nat)).map (fun w => (w.get? 0).map (fun c => c._capacity)) =
      some (some 4) := by
  decide

/-- C14, amended. Once the capacity of a container is not 0, it stays as it is
through every sequence of constructors and public operations that return, on
this or on other containers, as long as none of them is a swap with this
container, a copy assignment to it, or its destructor: `reserve` and `resize`
on it abort, and no other member call writes the capacity. -/
theorem C14_capacity_fixed (cfg : Build) (ops : List (Op T)) (w w1 : World T) (a : Nat)
    (c : qs_vector T) (hget : w.get? a = some c) (hcap : c._capacity ≠ 0)
    (hops : ∀ op ∈ ops, op.rebinds a = false) (hrun : run cfg ops w = some w1) :
    ∃ c1, w1.get? a = some c1 ∧ c1._capacity = c._capacity :=
  capacity_run cfg ops w w1 a c hget hcap hops hrun

/-- C14 amended, at a concrete input: the second container of `exRunW` through
the operations `exMoreOps`. -/
theorem C14_capacity_fixed_witness :
    exRunW.get? 1 = some exRun1 ∧ exRun1._capacity ≠ 0 ∧
    (∀ op ∈ exMoreOps, op.rebinds 1 = false) ∧ run exBuild exMoreOps exRunW = some exMoreW ∧
    ∃ c1, exMoreW.get? 1 = some c1 ∧ c1._capacity = exRun1._capacity :=
  ⟨by decide, by decide, by decide, by decide,
    C14_capacity_fixed exBuild exMoreOps exRunW exMoreW 1 exRun1 (by decide) (by decide)
      (by decide) (by decide)⟩

/-- C15 as stated fails: a default-constructed container after `Open()` is an
open container; `clear()` leaves it as it is, and the following `push_back(5)`
writes through the null pointer, so it has no defined outcome and writes no
element at index 0. -/
theorem C15_counterexample :
    Open (qs_vector.default : qs_vector Nat) exEmpty = Result.ok () exOpen0 exEmpty ∧
    clear exOpen0 exEmpty = Result.ok () exOpen0 exEmpty ∧
    exOpen0._isOpen = true ∧
    push_back 5 exOpen0 exEmpty = Result.undefined := by
  decide

/-- C15 (amended): `clear()` returns with the size 0 and every other field and
the whole memory, so the buffer, the capacity and the stored elements, as
before; no allocate or deallocate call is recorded.  When the container is
open and owns a buffer of capacity at least 1, a following `push_back(v)`
returns, the pointer is the one from before `clear()`, the size is 1, index 0
reads `v`, and no other slot of the memory changes. -/
theorem C15_clear (v : T) (c : qs_vector T) (m : Memory T) :
    clear c m = Result.ok ()
        { _data := c._data, _capacity := c._capacity, _size := 0,
          _isOpen := c._isOpen, _memPolicy := c._memPolicy, _label := c._label,
          _tracking := c._tracking } m ∧
    (c._isOpen = true → ValidStorage m c → 0 < c._capacity →
      ∃ c1 c2 m2, clear c m = Result.ok () c1 m ∧
        push_back v c1 m = Result.ok () c2 m2 ∧
        c2._data = c._data ∧ c2._capacity = c._capacity ∧ c2._size = 1 ∧
        operator_index 0 c2 m2 = Result.ok (some v) c2 m2 ∧
        (∀ (q : Nat) (i : Int), q ≠ c._data ∨ i ≠ 0 → load m2 q i = load m q i) ∧
        m2.trace = m.trace) := by
  refine ⟨rfl, ?_⟩
  intro hopen hv hpos
  obtain ⟨b, hb, hl, _, hlen⟩ := validStorage_block m c hv hpos
  obtain ⟨m1, e, h1, h3, h4⟩ := push_back_ok v { c with _size := 0 } m b hopen hb hl
    (le_refl _) (by simp only [Int.toNat_zero]; omega)
  refine ⟨{ c with _size := 0 }, _, m1, rfl, e, rfl, rfl, by simp, ?_, ?_, h1⟩
  · exact operator_index_of_block _ m1 _ 0 (some v) h3 hl (le_refl _)
      (by simp only [Int.toNat_zero]; rw [List.getElem?_set_self (by omega)])
  · intro q i h
    refine load_store_frame m m1 c._data b 0 (some v) hb h3 h4 q i ?_
    rcases h with h | h
    · exact Or.inl h
    · exact Or.inr (by simpa using h)

/-- The amended C15 at the open container `exB`, which holds two of the four
elements of its buffer. -/
theorem C15_clear_witness :
    exB._isOpen = true ∧ ValidStorage exTwo exB ∧ 0 < exB._capacity ∧
    ∃ c1 c2 m2, clear exB exTwo = Result.ok () c1 exTwo ∧
      push_back 9 c1 exTwo = Result.ok () c2 m2 ∧
      c2._data = exB._data ∧ c2._capacity = exB._capacity ∧ c2._size = 1 ∧
      operator_index 0 c2 m2 = Result.ok (some 9) c2 m2 ∧
      (∀ (q : Nat) (i : Int), q ≠ exB._data ∨ i ≠ 0 → load m2 q i = load exTwo q i) ∧
      m2.trace = exTwo.trace :=
  ⟨by decide, by decide, by decide,
    (C15_clear 9 exB exTwo).2 (by decide) (by decide) (by decide)⟩

/-- C16: `eraseEnd(k)` returns with the size `k` and every other field and the
whole memory unchanged, for every `k` and so for `0 <= k <= size`: the buffer,
the capacity and every element slot are as before, and `operator[]` reads any
index as it did before the call. -/
theorem C16_eraseEnd (k : Int) (c : qs_vector T) (m : Memory T) :
    ∃ c1, eraseEnd k c m = Result.ok () c1 m ∧
      c1 = { _data := c._data, _capacity := c._capacity, _size := k,
             _isOpen := c._isOpen, _memPolicy := c._memPolicy, _label := c._label,
             _tracking := c._tracking } ∧
      c1._size = k ∧ c1._data = c._data ∧ c1._capacity = c._capacity ∧
      ∀ (i : Int) (x : Option T),
        operator_index i c m = Result.ok x c m ↔ operator_index i c1 m = Result.ok x c1 m := by
  refine ⟨{ c with _size := k }, rfl, rfl, rfl, rfl, rfl, ?_⟩
  intro i x
  simp only [operator_index]
  cases load m c._data i with
  | none => simp
  | some y => simp

theorem validStorage_of_block_eq (m m1 : Memory T) (c : qs_vector T)
    (h : m1.block? c._data = m.block? c._data) (hv : ValidStorage m c) :
    ValidStorage m1 c := by
  unfold ValidStorage at hv ⊢
  rw [h]
  exact hv

theorem isCallOn_eq (t : Nat) (op : Op T) (h : op.isCallOn t = true) :
    ∃ f, op = Op.call t f := by
  cases op with
  | call s f =>
    simp only [Op.isCallOn, decide_eq_true_eq] at h
    subst h
    exact ⟨f, rfl⟩
  | _ => simp [Op.isCallOn] at h

theorem calls_frame (cfg : Build) (muts : List (Op T)) :
    ∀ (w1 w2 : World T) (t a : Nat) (C D : qs_vector T), a ≠ t →
      w1.get? t = some D → w1.get? a = some C → D._data ≠ C._data →
      ValidStorage w1.mem C → (∀ op ∈ muts, op.isCallOn t = true) →
      run cfg muts w1 = some w2 →
      ∃ D2, w2.get? t = some D2 ∧ D2._data ≠ C._data ∧ w2.get? a = some C ∧
        w2.mem.block? C._data = w1.mem.block? C._data := by
  induction muts with
  | nil =>
    intro w1 w2 t a C D _ hD hC hne _ _ h
    simp only [run, Option.some.injEq] at h
    subst h
    exact ⟨D, hD, hne, hC, rfl⟩
  | cons op muts ih =>
    intro w1 w2 t a C D hat hD hC hne hv hall h
    obtain ⟨f, rfl⟩ := isCallOn_eq t op (hall op (by simp))
    have hrest : ∀ o ∈ muts, o.isCallOn t = true := fun o ho => hall o (by simp [ho])
    simp only [run] at h
    split at h
    · rename_i w3 h3
      simp only [step] at h3
      split at h3
      · rename_i ct hct
        rw [hD] at hct
        cases hct
        split at h3
        · rename_i st hst
          simp only [Option.some.injEq] at h3
          subst h3
          have hlt := get?_lt w1 t D hD
          have hgt : (World.mk (w1.objs.set t (some st.1)) st.2).get? t = some st.1 :=
            get?_set_self w1 _ t _ rfl hlt
          have hga : (World.mk (w1.objs.set t (some st.1)) st.2).get? a = some C :=
            (get?_set_ne w1 _ t a _ rfl hat).trans hC
          have hfresh := validStorage_ne_fresh w1.mem C hv
          have hblk : st.2.block? C._data = w1.mem.block? C._data ∧ st.1._data ≠ C._data := by
            rcases run_effect cfg f D st.1 w1.mem st.2 hst with ⟨k1, _, _, k4⟩ | ⟨_, kf⟩
            · exact ⟨k4.2.1 _ (Ne.symm hne), by rw [k1]; exact hne⟩
            · exact ⟨kf.2.2.2 _ hfresh, by rw [kf.1]; exact Ne.symm hfresh⟩
          obtain ⟨D2, g1, g2, g3, g4⟩ := ih _ w2 t a C st.1 hat hgt hga hblk.2
            (validStorage_of_block_eq w1.mem st.2 C hblk.1 hv) hrest h
          exact ⟨D2, g1, g2, g3, g4.trans hblk.1⟩
        · cases h3
      · cases h3
    · cases h

/-- C18: in a world reached by public operations, let `C2` be made from the
container `C` by copy construction or by copy assignment to another object.
Then `C2` has the size and the capacity of `C` and a buffer that is not the
buffer of `C`, and after any sequence of member calls on `C2` that return
(`push_back`, `operator[]` writes, `clear`, `pop_back` and the others) the
object `C` is the same, so its size and capacity are unchanged, its buffer is
the same block, and every index of it reads as before. -/
theorem C18_deep_copy_independence (cfg : Build) (ops muts : List (Op T))
    (w w1 w2 : World T) (a t : Nat) (C : qs_vector T)
    (hreach : run cfg ops World.empty = some w) (hC : w.get? a = some C)
    (hmk : (t = w.objs.length ∧ step cfg (Op.construct_copy a) w = some w1) ∨
      (t ≠ a ∧ step cfg (Op.assign t a) w = some w1))
    (hmuts : ∀ op ∈ muts, op.isCallOn t = true)
    (hrun : run cfg muts w1 = some w2) :
    ∃ C2 C3, w1.get? t = some C2 ∧ C2._data ≠ C._data ∧ C2._size = C._size ∧
      C2._capacity = C._capacity ∧ w1.get? a = some C ∧
      w2.get? t = some C3 ∧ C3._data ≠ C._data ∧ w2.get? a = some C ∧
      w2.mem.block? C._data = w.mem.block? C._data ∧
      ∀ (i : Int), load w2.mem C._data i = load w.mem C._data i := by
  have hw : WorldOK w := worldOK_run cfg ops World.empty w worldOK_empty hreach
  obtain ⟨_, _, hv, hd⟩ := hw
  have hvC := (hv a C hC).1
  have hfresh := validStorage_ne_fresh w.mem C hvC
  have hlt := get?_lt w a C hC
  have step1 : a ≠ t ∧ ∃ C2, w1.get? t = some C2 ∧ C2._data ≠ C._data ∧
      C2._size = C._size ∧ C2._capacity = C._capacity ∧ w1.get? a = some C ∧
      w1.mem.block? C._data = w.mem.block? C._data := by
    rcases hmk with ⟨ht, h⟩ | ⟨ht, h⟩
    · subst ht
      refine ⟨by omega, ?_⟩
      simp only [step] at h
      split at h
      · rename_i src hsrc
        rw [hC] at hsrc
        cases hsrc
        split at h
        · rename_i st hst
          simp only [Option.some.injEq] at h
          subst h
          obtain ⟨hf, f2, f3, _⟩ := copy_fresh cfg C w.mem st.2 st.1 hst
          exact ⟨st.1, get?_append_new w _ _ rfl, by rw [hf.1]; exact Ne.symm hfresh, f3, f2,
            (get?_append_old w _ a _ rfl hlt).trans hC, hf.2.2.2 _ hfresh⟩
        · cases h
      · cases h
    · refine ⟨Ne.symm ht, ?_⟩
      simp only [step] at h
      split at h
      · rename_i c src hc hsrc
        rw [hC] at hsrc
        cases hsrc
        split at h
        · rename_i st hst
          simp only [Option.some.injEq] at h
          subst h
          rcases assign_effect cfg t a c C st.1 w.mem st.2 hst with ⟨h1, _⟩ | ⟨_, m1, hcp, h2⟩
          · exact absurd h1.symm ht
          · obtain ⟨hf, f2, f3, _⟩ := copy_fresh cfg C w.mem m1 st.1 hcp
            refine ⟨st.1, get?_set_self w _ t _ rfl (get?_lt w t c hc),
              by rw [hf.1]; exact Ne.symm hfresh, f3, f2,
              (get?_set_ne w _ t a _ rfl (Ne.symm ht)).trans hC, ?_⟩
            simp only [h2]
            rw [destroy_block_other cfg c m1 C._data (hd a t C c (Ne.symm ht) hC hc)]
            exact hf.2.2.2 _ hfresh
        · cases h
      · cases h
  obtain ⟨hat, C2, s1, s2, s3, s4, s5, s6⟩ := step1
  obtain ⟨C3, g1, g2, g3, g4⟩ := calls_frame cfg muts w1 w2 t a C C2 hat s1 s5 s2
    (validStorage_of_block_eq w.mem w1.mem C s6 hvC) hmuts hrun
  exact ⟨C2, C3, s1, s2, s3, s4, s5, g1, g2, g3, g4.trans s6,
    fun i => load_congr w.mem w2.mem C._data i (g4.trans s6)⟩

/-- C18 at a concrete input: the container of `exSrcW` is copy-constructed and
the copy goes through the calls `exCopyMuts`. -/
theorem C18_deep_copy_independence_witness :
    run exBuild exSrcOps World.empty = some exSrcW ∧ exSrcW.get? 0 = some exRun0 ∧
    step exBuild (Op.construct_copy 0) exSrcW = some exCopyW ∧
    (∀ op ∈ exCopyMuts, op.isCallOn 1 = true) ∧
    run exBuild exCopyMuts exCopyW = some exMutW ∧
    ∃ C2 C3, exCopyW.get? 1 = some C2 ∧ C2._data ≠ exRun0._data ∧
      C2._size = exRun0._size ∧ C2._capacity = exRun0._capacity ∧
      exCopyW.get? 0 = some exRun0 ∧
      exMutW.get? 1 = some C3 ∧ C3._data ≠ exRun0._data ∧ exMutW.get? 0 = some exRun0 ∧
      exMutW.mem.block? exRun0._data = exSrcW.mem.block? exRun0._data ∧
      ∀ (i : Int), load exMutW.mem exRun0._data i = load exSrcW.mem exRun0._data i :=
  ⟨by decide, by decide, by decide, by decide, by decide,
    C18_deep_copy_independence exBuild exSrcOps exCopyMuts exSrcW exCopyW exMutW 0 1 exRun0
      (by decide) (by decide) (Or.inl ⟨by decide, by decide⟩) (by decide) (by decide)⟩

theorem run_isOpen (cfg : Build) (f : Method T) (c c1 : qs_vector T) (m m1 : Memory T)
    (h : f.run cfg c m = some (c1, m1)) :
    (f.isOpenClose = false → c1._isOpen = c._isOpen) ∧
    (f ≠ Method.Open → c._isOpen = false → c1._isOpen = false) := by
  have key : c1._isOpen = c._isOpen → (f.isOpenClose = false → c1._isOpen = c._isOpen) ∧
      (f ≠ Method.Open → c._isOpen = false → c1._isOpen = false) :=
    fun hk => ⟨fun _ => hk, fun _ hc => hk.trans hc⟩
  cases f with
  | set_label label =>
    simp only [Method.run, Option.some.injEq] at h
    obtain ⟨_, _, _, a4, _⟩ := set_label_frame cfg label c m
    rw [h] at a4
    exact key a4
  | push_back v =>
    obtain ⟨ret, e⟩ := state?_eq_some (push_back v c m) c1 m1 h
    unfold push_back at e
    split_ifs at e
    split at e
    · cases e
    · simp only [Result.ok.injEq] at e
      obtain ⟨_, rfl, rfl⟩ := e
      exact key rfl
  | Open =>
    exact ⟨fun hf => by simp [Method.isOpenClose] at hf, fun hf => absurd rfl hf⟩
  | Close =>
    obtain ⟨ret, e⟩ := state?_eq_some (Close c m) c1 m1 h
    simp only [Close, Result.ok.injEq] at e
    obtain ⟨_, rfl, rfl⟩ := e
    exact ⟨fun hf => by simp [Method.isOpenClose] at hf, fun _ _ => rfl⟩
  | operator_index_assign index v =>
    obtain ⟨ret, e⟩ := state?_eq_some (operator_index_assign index v c m) c1 m1 h
    unfold operator_index_assign at e
    split at e
    · cases e
    · simp only [Result.ok.injEq] at e
      obtain ⟨_, rfl, rfl⟩ := e
      exact key rfl
  | reserve N policy =>
    obtain ⟨ret, e⟩ := state?_eq_some (reserve cfg N policy c m) c1 m1 h
    by_cases h0 : c._capacity = 0
    · obtain ⟨c2, m2, e2, _, _, _, g4, _⟩ := reserve_ok cfg N policy c m h0
      rw [e2] at e
      simp only [Result.ok.injEq] at e
      obtain ⟨_, rfl, rfl⟩ := e
      exact key g4
    · simp [reserve, h0] at e
  | resize N policy =>
    obtain ⟨ret, e⟩ := state?_eq_some (resize cfg N policy c m) c1 m1 h
    by_cases h0 : c._capacity = 0
    · obtain ⟨c2, m2, e2, _, _, _, g4, _⟩ := resize_ok cfg N policy c m h0
      rw [e2] at e
      simp only [Result.ok.injEq] at e
      obtain ⟨_, rfl, rfl⟩ := e
      exact key g4
    · simp [resize, h0] at e
  | resize_value N value policy =>
    obtain ⟨ret, e⟩ := state?_eq_some (resize_value cfg N value policy c m) c1 m1 h
    by_cases h0 : c._capacity = 0
    · obtain ⟨c2, m2, cells2, e2, _, _, _, g4, _⟩ := resize_value_ok cfg N value policy c m h0
      rw [e2] at e
      simp only [Result.ok.injEq] at e
      obtain ⟨_, rfl, rfl⟩ := e
      exact key g4
    · simp [resize_value, h0] at e
  | eraseEnd k =>
    obtain ⟨ret, e⟩ := state?_eq_some (eraseEnd k c m) c1 m1 h
    simp only [eraseEnd, Result.ok.injEq] at e
    obtain ⟨_, rfl, rfl⟩ := e
    exact key rfl
  | pop_back =>
    obtain ⟨ret, e⟩ := state?_eq_some (pop_back c m) c1 m1 h
    simp only [pop_back, Result.ok.injEq] at e
    obtain ⟨_, rfl, rfl⟩ := e
    exact key rfl
  | clear =>
    obtain ⟨ret, e⟩ := state?_eq_some (clear c m) c1 m1 h
    simp only [clear, Result.ok.injEq] at e
    obtain ⟨_, rfl, rfl⟩ := e
    exact key rfl
  | appendList listSize list =>
    obtain ⟨ret, e⟩ := state?_eq_some (appendList listSize list c m) c1 m1 h
    unfold appendList at e
    split_ifs at e
    simp only at e
    split at e
    · cases e
    · simp only [Result.ok.injEq] at e
      obtain ⟨_, rfl, rfl⟩ := e
      exact key rfl
  | atomic_Index_Inc inc =>
    obtain ⟨ret, e⟩ := state?_eq_some (atomic_Index_Inc inc c m) c1 m1 h
    simp only [atomic_Index_Inc, Result.ok.injEq] at e
    obtain ⟨_, rfl, rfl⟩ := e
    exact key rfl

theorem isOpenClose_of_call (a : Nat) (f : Method T)
    (h : (Op.call a f).opensOrCloses a = false) : f.isOpenClose = false := by
  cases f <;> first | rfl | simp [Op.opensOrCloses] at h

theorem isOpen_run (cfg : Build) (ops : List (Op T)) :
    ∀ (w w1 : World T) (a : Nat) (c : qs_vector T), w.get? a = some c →
      (∀ op ∈ ops, op.rebinds a = false ∧ op.opensOrCloses a = false) →
      run cfg ops w = some w1 →
      ∃ c1, w1.get? a = some c1 ∧ c1._isOpen = c._isOpen := by
  induction ops with
  | nil =>
    intro w w1 a c hget _ h
    simp only [run, Option.some.injEq] at h
    subst h
    exact ⟨c, hget, rfl⟩
  | cons op ops ih =>
    intro w w1 a c hget hops h
    simp only [run] at h
    split at h
    · rename_i w2 h2
      have hop := hops op (by simp)
      have hrest : ∀ o ∈ ops, o.rebinds a = false ∧ o.opensOrCloses a = false :=
        fun o ho => hops o (by simp [ho])
      rcases step_frame cfg op w w2 a c hget hop.1 h2 with ⟨_, hg⟩ | ⟨f, c2, hf0, hf, hg⟩
      · exact ih w2 w1 a c hg hrest h
      · have hoc : f.isOpenClose = false :=
          isOpenClose_of_call a f (by rw [← hf0]; exact hop.2)
        have hc2 := (run_isOpen cfg f c c2 w.mem w2.mem hf).1 hoc
        obtain ⟨c1, g1, g2⟩ := ih w2 w1 a c2 hg hrest h
        exact ⟨c1, g1, g2.trans hc2⟩
    · cases h

theorem closed_run (cfg : Build) (ops : List (Op T)) :
    ∀ (w w1 : World T) (a : Nat) (c : qs_vector T), w.get? a = some c →
      c._isOpen = false →
      (∀ op ∈ ops, op.rebinds a = false ∧ op.opens a = false) →
      run cfg ops w = some w1 →
      ∃ c1, w1.get? a = some c1 ∧ c1._isOpen = false := by
  induction ops with
  | nil =>
    intro w w1 a c hget hcl _ h
    simp only [run, Option.some.injEq] at h
    subst h
    exact ⟨c, hget, hcl⟩
  | cons op ops ih =>
    intro w w1 a c hget hcl hops h
    simp only [run] at h
    split at h
    · rename_i w2 h2
      have hop := hops op (by simp)
      have hrest : ∀ o ∈ ops, o.rebinds a = false ∧ o.opens a = false :=
        fun o ho => hops o (by simp [ho])
      rcases step_frame cfg op w w2 a c hget hop.1 h2 with ⟨_, hg⟩ | ⟨f, c2, hf0, hf, hg⟩
      · exact ih w2 w1 a c hg hcl hrest h
      · have hoc : f ≠ Method.Open := by
          intro hfo
          have := hop.2
          rw [hf0, hfo] at this
          simp [Op.opens] at this
        have hc2 := (run_isOpen cfg f c c2 w.mem w2.mem hf).2 hoc hcl
        exact ih w2 w1 a c2 hg hc2 hrest h
    · cases h

/-- C20: the default constructor and both sized constructors return a closed
container.  `Open()` sets the flag, after which `push_back` does not abort;
`Close()` clears it, after which `push_back` aborts.  Every other member call
that returns leaves the flag as it was, and so does every sequence of
operations on a world that holds the container, as long as none of them is
`Open()` or `Close()` on it, a swap with it, a copy assignment to it or its
destruction.  So a closed container, such as a newly constructed one, also
after `reserve` or `resize`, is still closed and aborts on `push_back` after any
sequence of operations without `Open()` on it, a swap with it, a copy
assignment to it or its destruction. -/
theorem C20_open_flag (cfg : Build) (v : T) (c : qs_vector T) (m : Memory T) :
    (qs_vector.default : qs_vector T)._isOpen = false ∧
    (∀ N policy label, ∃ c1 m1, sized cfg N policy label m = Result.ok () c1 m1 ∧
      c1._isOpen = false) ∧
    (∀ N (value : T) policy label, ∃ c1 m1,
      filled cfg N value policy label m = Result.ok () c1 m1 ∧ c1._isOpen = false) ∧
    (∃ c1, Open c m = Result.ok () c1 m ∧ c1._isOpen = true ∧
      push_back v c1 m ≠ Result.abort c1 m) ∧
    (∃ c1, Close c m = Result.ok () c1 m ∧ c1._isOpen = false ∧
      push_back v c1 m = Result.abort c1 m) ∧
    (c._isOpen = false → push_back v c m = Result.abort c m) ∧
    (∀ (f : Method T) c1 m1, f.isOpenClose = false → f.run cfg c m = some (c1, m1) →
      c1._isOpen = c._isOpen) ∧
    (∀ (ops : List (Op T)) (w w1 : World T) (a : Nat), w.get? a = some c →
      (∀ op ∈ ops, op.rebinds a = false ∧ op.opensOrCloses a = false) →
      run cfg ops w = some w1 →
      ∃ c1, w1.get? a = some c1 ∧ c1._isOpen = c._isOpen) ∧
    (∀ (ops : List (Op T)) (w w1 : World T) (a : Nat), w.get? a = some c →
      c._isOpen = false →
      (∀ op ∈ ops, op.rebinds a = false ∧ op.opens a = false) →
      run cfg ops w = some w1 →
      ∃ c1, w1.get? a = some c1 ∧ c1._isOpen = false ∧
        push_back v c1 w1.mem = Result.abort c1 w1.mem) := by
  refine ⟨rfl, ?_, ?_, ?_, ?_, ?_, ?_, ?_, ?_⟩
  · intro N policy label
    obtain ⟨c1, m1, e, _, _, _, g4, _⟩ := sized_ok cfg N policy label m
    exact ⟨c1, m1, e, g4⟩
  · intro N value policy label
    obtain ⟨c1, m1, cells1, e, _, _, _, g4, _⟩ := filled_ok cfg N value policy label m
    exact ⟨c1, m1, e, g4⟩
  · refine ⟨{ c with _isOpen := true }, rfl, rfl, ?_⟩
    simp only [push_back, if_true]
    split <;> simp
  · exact ⟨{ c with _isOpen := false }, rfl, rfl, by simp [push_back]⟩
  · intro hcl
    simp [push_back, hcl]
  · intro f c1 m1 hf h
    exact (run_isOpen cfg f c c1 m m1 h).1 hf
  · intro ops w w1 a hget hops h
    exact isOpen_run cfg ops w w1 a c hget hops h
  · intro ops w w1 a hget hcl hops h
    obtain ⟨c1, g1, g2⟩ := closed_run cfg ops w w1 a c hget hcl hops h
    exact ⟨c1, g1, g2, by simp [push_back, g2]⟩

/-- C20 at a concrete input: the closed second container of `exMoreW` through
the operations `exShutOps`. -/
theorem C20_open_flag_witness :
    exMoreW.get? 1 = some { exRun1 with _size := 1, _isOpen := false } ∧
    (∀ op ∈ exShutOps, op.rebinds 1 = false ∧ op.opens 1 = false) ∧
    run exBuild exShutOps exMoreW = some exShutW ∧
    ∃ c1, exShutW.get? 1 = some c1 ∧ c1._isOpen = false ∧
      push_back 5 c1 exShutW.mem = Result.abort c1 exShutW.mem :=
  ⟨by decide, by decide, by decide,
    (C20_open_flag exBuild 5 { exRun1 with _size := 1, _isOpen := false }
      exMoreW.mem).2.2.2.2.2.2.2.2 exShutOps exMoreW exShutW 1 (by decide) (by decide)
      (by decide) (by decide)⟩

/-! ## The members that add to the size, on 32-bit `int` -/

theorem toInt32_of_isInt (x : Int) (h : isInt x) : toInt32 x = x := by
  unfold isInt INT_MIN INT_MAX at h
  unfold toInt32 INT_MIN
  omega

theorem isInt_toInt32 (x : Int) : isInt (toInt32 x) := by
  unfold isInt toInt32 INT_MIN INT_MAX
  omega

/-- The two embeddings of `atomic_Index_Inc` agree where the sum `size + inc` is a
value of `int`. -/
theorem int32_atomic_Index_Inc_eq (inc : Int) (c : qs_vector T) (m : Memory T)
    (h : isInt (c._size + inc)) :
    int32.atomic_Index_Inc inc c m = atomic_Index_Inc inc c m := by
  simp only [int32.atomic_Index_Inc, atomic_Index_Inc, int32.ATOMIC_CAPTURE, ATOMIC_CAPTURE,
    toInt32_of_isInt _ h]

theorem sum_getD_nonneg (incs : List Int) (order : List Nat)
    (hnn : ∀ k ∈ order, 0 ≤ incs.getD k 0) :
    0 ≤ (order.map (fun k => incs.getD k 0)).sum := by
  apply List.sum_nonneg
  intro x hx
  obtain ⟨k, hk, rfl⟩ := List.mem_map.1 hx
  exact hnn k hk

theorem int32_atomicCalls_eq (incs : List Int) (order : List Nat) :
    ∀ (c : qs_vector T) (m : Memory T), (∀ k ∈ order, 0 ≤ incs.getD k 0) →
      INT_MIN ≤ c._size → c._size + (order.map (fun k => incs.getD k 0)).sum ≤ INT_MAX →
      int32.atomicCalls incs order c m = atomicCalls incs order c m := by
  induction order with
  | nil =>
    intro c m _ _ _
    rfl
  | cons k rest ih =>
    intro c m hnn hlo hhi
    have hk : 0 ≤ incs.getD k 0 := hnn k (by simp)
    have hrest : ∀ j ∈ rest, 0 ≤ incs.getD j 0 := fun j hj => hnn j (by simp [hj])
    have hsum := sum_getD_nonneg incs rest hrest
    simp only [List.map_cons, List.sum_cons] at hhi
    have hfit : isInt (c._size + incs.getD k 0) := ⟨by omega, by omega⟩
    have hstep := int32_atomic_Index_Inc_eq (incs.getD k 0) c m hfit
    have hih := ih { c with _size := c._size + incs.getD k 0 } m hrest
      (by simp only; omega) (by simp only; omega)
    simp only [int32.atomicCalls, atomicCalls, hstep]
    simp only [atomic_Index_Inc, ATOMIC_CAPTURE, hih]

/-- C1 as stated fails on `int`: after `atomic_Index_Inc(2147483647)` on a
default-constructed container the size is the largest `int`; the call
`atomic_Index_Inc(1)` then returns that size and leaves the size -2147483648,
not the returned value plus 1. -/
theorem C1_counterexample :
    int32.atomic_Index_Inc 2147483647 (qs_vector.default : qs_vector Nat) exEmpty =
      Result.ok 0 exMax exEmpty ∧
    isInt exMax._size ∧ isInt 1 ∧
    int32.atomic_Index_Inc 1 exMax exEmpty = Result.ok 2147483647 exMin exEmpty ∧
    exMin._size = -2147483648 ∧ exMin._size ≠ 2147483647 + 1 := by
  decide

/-- C1 (amended): a call `atomic_Index_Inc(inc)` returns the value `_size` had
before the call, whatever the state and `inc`; every other data member and the
whole memory (every element of every buffer, and the record of calls to the
allocation service) are as before, and the call returns rather than aborts,
whatever `_isOpen` is and however `_size + inc` compares with `_capacity`.  The
size it leaves is the sum `_size + inc` as stored in an `int`; when the sum is a
value of `int`, it is that value plus `inc`. -/
theorem C1_atomic_Index_Inc (inc : Int) (c : qs_vector T) (m : Memory T) :
    int32.atomic_Index_Inc inc c m =
      Result.ok c._size
        { _data := c._data, _capacity := c._capacity, _size := toInt32 (c._size + inc),
          _isOpen := c._isOpen, _memPolicy := c._memPolicy, _label := c._label,
          _tracking := c._tracking } m ∧
    (isInt (c._size + inc) →
      int32.atomic_Index_Inc inc c m =
        Result.ok c._size
          { _data := c._data, _capacity := c._capacity, _size := c._size + inc,
            _isOpen := c._isOpen, _memPolicy := c._memPolicy, _label := c._label,
            _tracking := c._tracking } m) := by
  refine ⟨rfl, ?_⟩
  intro h
  rw [int32_atomic_Index_Inc_eq inc c m h]
  rfl

/-- The amended C1 at a concrete input: capacity 100, size 0, `inc = 10`. -/
theorem C1_atomic_Index_Inc_witness :
    isInt (exC100._size + 10) ∧
    int32.atomic_Index_Inc 10 exC100 exM100 =
      Result.ok exC100._size
        { _data := exC100._data, _capacity := exC100._capacity, _size := exC100._size + 10,
          _isOpen := exC100._isOpen, _memPolicy := exC100._memPolicy,
          _label := exC100._label, _tracking := exC100._tracking } exM100 :=
  ⟨by decide, (C1_atomic_Index_Inc 10 exC100 exM100).2 (by decide)⟩

/-- C2 as stated fails on `int`: from the size 2147483647 (reached by
`atomic_Index_Inc(2147483647)` on a default-constructed container) two callers
asking for 1 each get the start indices 2147483647 and -2147483648; the second
range lies outside `[s0, s0 + 2)`, and the size ends at -2147483647, not at
`s0 + 2`. -/
theorem C2_counterexample :
    int32.atomic_Index_Inc 2147483647 (qs_vector.default : qs_vector Nat) exEmpty =
      Result.ok 0 exMax exEmpty ∧
    (∀ x ∈ ([1, 1] : List Int), 0 ≤ x) ∧
    int32.atomicCalls [1, 1] [0, 1] exMax exEmpty =
      Result.ok [(0, 2147483647), (1, -2147483648)]
        { exMax with _size := -2147483647 } exEmpty ∧
    ¬ (exMax._size ≤ -2147483648) ∧
    (-2147483647 : Int) ≠ exMax._size + ([1, 1] : List Int).sum := by
  decide

/-- C2 (amended). Callers `0 .. N-1` ask for the non-negative increments `incs`, and
their calls of `atomic_Index_Inc`, each one atomic step, take effect in any
order `order` (a permutation of the callers), on a container whose size `s0` is
a value of `int` with `s0 + sum of incs` at most the largest `int`.  Every call
returns; each caller gets one start index, the size before plus the increments
of the calls that took effect earlier; the ranges `[r_k, r_k + inc_k)` are
pairwise disjoint; an index lies in one of them exactly when it lies in
`[s0, s0 + sum of incs)`; the final size is `s0 + sum of incs`, and nothing else
of the object or the memory has changed. -/
theorem C2_atomic_reservations (incs : List Int) (order : List Nat) (c : qs_vector T)
    (m : Memory T) (hnn : ∀ x ∈ incs, 0 ≤ x)
    (hperm : order.Perm (List.range incs.length))
    (hlo : INT_MIN ≤ c._size) (hhi : c._size + incs.sum ≤ INT_MAX) :
    ∃ rets c1, int32.atomicCalls incs order c m = Result.ok rets c1 m ∧
      c1 = { _data := c._data, _capacity := c._capacity, _size := c._size + incs.sum,
             _isOpen := c._isOpen, _memPolicy := c._memPolicy, _label := c._label,
             _tracking := c._tracking } ∧
      rets.map Prod.fst = order ∧
      rets.map Prod.snd = startsOf c._size (order.map (fun k => incs.getD k 0)) ∧
      rets.Pairwise (fun a b => ∀ x : Int,
        ¬ (inRange a.2 (incs.getD a.1 0) x ∧ inRange b.2 (incs.getD b.1 0) x)) ∧
      (∀ x : Int, inRange c._size incs.sum x ↔
        ∃ a ∈ rets, inRange a.2 (incs.getD a.1 0) x) := by
  have hnn2 := getD_nonneg_of_perm incs order hnn hperm
  obtain ⟨rets, e, h1, h2, _, h4, h5⟩ := atomicCalls_spec incs order c m hnn2
  have heq := int32_atomicCalls_eq incs order c m hnn2 hlo
    (by rw [sum_map_getD_of_perm incs order hperm]; exact hhi)
  rw [sum_map_getD_of_perm incs order hperm] at e h5
  exact ⟨rets, _, heq.trans e, rfl, h1, h2, h4, h5⟩

/-- The amended C2 at the input of the spec: capacity 100, size 0, ten callers
asking for 10 each, taking effect in the order 3, 7, 0, 9, 1, 4, 8, 2, 6, 5.  The
start indices returned are 0, 10, ..., 90, each once, and the size ends at 100. -/
theorem C2_atomic_reservations_witness :
    (∀ x ∈ List.replicate 10 (10 : Int), 0 ≤ x) ∧
    List.Perm [3, 7, 0, 9, 1, 4, 8, 2, 6, 5] (List.range (List.replicate 10 (10 : Int)).length) ∧
    INT_MIN ≤ exC100._size ∧ exC100._size + (List.replicate 10 (10 : Int)).sum ≤ INT_MAX ∧
    int32.atomicCalls (List.replicate 10 10) [3, 7, 0, 9, 1, 4, 8, 2, 6, 5] exC100 exM100 =
      Result.ok [(3, 0), (7, 10), (0, 20), (9, 30), (1, 40), (4, 50), (8, 60), (2, 70),
        (6, 80), (5, 90)] { exC100 with _size := 100 } exM100 ∧
    ∃ rets c1,
      int32.atomicCalls (List.replicate 10 10) [3, 7, 0, 9, 1, 4, 8, 2, 6, 5] exC100 exM100 =
        Result.ok rets c1 exM100 ∧
      c1 = { _data := exC100._data, _capacity := exC100._capacity,
             _size := exC100._size + (List.replicate 10 (10 : Int)).sum,
             _isOpen := exC100._isOpen, _memPolicy := exC100._memPolicy,
             _label := exC100._label, _tracking := exC100._tracking } ∧
      rets.map Prod.fst = [3, 7, 0, 9, 1, 4, 8, 2, 6, 5] ∧
      rets.map Prod.snd = startsOf exC100._size
        (([3, 7, 0, 9, 1, 4, 8, 2, 6, 5] : List Nat).map
          (fun k => (List.replicate 10 (10 : Int)).getD k 0)) ∧
      rets.Pairwise (fun a b => ∀ x : Int,
        ¬ (inRange a.2 ((List.replicate 10 (10 : Int)).getD a.1 0) x ∧
           inRange b.2 ((List.replicate 10 (10 : Int)).getD b.1 0) x)) ∧
      (∀ x : Int, inRange exC100._size (List.replicate 10 (10 : Int)).sum x ↔
        ∃ a ∈ rets, inRange a.2 ((List.replicate 10 (10 : Int)).getD a.1 0) x) :=
  ⟨by decide, by decide, by decide, by decide, by decide,
    C2_atomic_reservations (List.replicate 10 10) [3, 7, 0, 9, 1, 4, 8, 2, 6, 5] exC100 exM100
      (by decide) (by decide) (by decide) (by decide)⟩

theorem load_of_store (m m1 : Memory T) (p : Nat) (k : Int) (v : Option T)
    (h : store m p k v = some m1) (q : Nat) (i : Int) (hne : q ≠ p ∨ i ≠ k) :
    load m1 q i = load m q i := by
  obtain ⟨b, hb, hl, h0, hlt⟩ := store_some_inv m m1 p k v h
  obtain ⟨m2, e, _, _, hb2, hfr⟩ := store_spec m p b k v hb hl h0 hlt
  rw [h] at e
  cases e
  refine load_store_frame m m1 p b k.toNat v hb hb2 hfr q i ?_
  rcases hne with h1 | h1
  · exact Or.inl h1
  · exact Or.inr (by omega)

theorem forLoop_copyElem_load (src dst : Nat) (hne : src ≠ dst) (n : Nat) :
    ∀ (lo : Int) (m m1 : Memory T), forLoop (copyElem src dst) n lo m = some m1 →
      ∀ j : Nat, j < n → ∃ v, load m src (lo + (j : Int)) = some v := by
  induction n with
  | zero =>
    intro lo m m1 _ j hj
    omega
  | succ n ih =>
    intro lo m m1 h j hj
    simp only [forLoop] at h
    cases hb : copyElem src dst lo m with
    | none => simp [hb] at h
    | some m2 =>
      rw [hb] at h
      simp only at h
      cases j with
      | zero =>
        unfold copyElem at hb
        cases hl : load m src lo with
        | none => simp [hl] at hb
        | some v => exact ⟨v, by simpa using hl⟩
      | succ k =>
        obtain ⟨v, hv⟩ := ih (lo + 1) m2 m1 h k (by omega)
        have hst := storesTo_of_copyElem m m2 src dst lo hb
        refine ⟨v, ?_⟩
        rw [← load_congr m m2 src _ (hst.2.1 src hne)]
        rw [← hv]
        congr 1
        push_cast
        ring

theorem copy_returns_bound (cfg : Build) (aa : qs_vector T) (m m1 : Memory T)
    (c1 : qs_vector T) (h : (copy cfg aa m).state? = some (c1, m1))
    (hv : ValidStorage m aa) : aa._size.toNat ≤ aa._capacity.toNat := by
  by_contra hcon
  have hne := validStorage_ne_fresh m aa hv
  obtain ⟨ret, e⟩ := state?_eq_some _ c1 m1 h
  unfold copy at e
  simp only at e
  split at e
  · cases e
  · rename_i mm hs
    simp only [allocate_fst, sub_zero] at hs
    obtain ⟨v, hload⟩ := forLoop_copyElem_load aa._data (m.blocks.length + 1) hne _ _ _ _ hs
      aa._capacity.toNat (by omega)
    rw [load_congr m _ aa._data _ (allocate_block?_old _ _ m _ hne)] at hload
    unfold ValidStorage at hv
    simp only [load] at hload
    cases hb : m.block? aa._data with
    | none => simp [hb] at hload
    | some b =>
      rw [hb] at hv hload
      simp only at hload
      split_ifs at hload
      · simp only [zero_add, Int.toNat_ofNat] at hload
        rw [List.getElem?_eq_none (by rw [hv.2.2])] at hload
        cases hload

theorem objInv_step (P : qs_vector T → Prop) (cfg : Build) (op : Op T) (w w1 : World T)
    (hdef : P qs_vector.default)
    (hsized : ∀ N p l c1 m1, op = Op.construct_sized N p l →
      (sized cfg N p l w.mem).state? = some (c1, m1) → P c1)
    (hfilled : ∀ N v p l c1 m1, op = Op.construct_filled N v p l →
      (filled cfg N v p l w.mem).state? = some (c1, m1) → P c1)
    (hcopy : ∀ src c1 m m1, P src → (copy cfg src m).state? = some (c1, m1) → P c1)
    (hcall : ∀ t f c c1 m1, op = Op.call t f → w.get? t = some c → P c →
      f.run cfg c w.mem = some (c1, m1) → P c1)
    (hP : ∀ a c, w.get? a = some c → P c) (h : step cfg op w = some w1) :
    ∀ a c, w1.get? a = some c → P c := by
  intro a x hg
  cases op with
  | construct =>
    simp only [step, Option.some.injEq] at h
    subst h
    rcases get?_append_cases w _ a _ x rfl hg with ⟨_, h1⟩ | ⟨_, h1⟩
    · exact hP a x h1
    · cases h1
      exact hdef
  | construct_sized size memPolicy label =>
    simp only [step] at h
    split at h
    · rename_i s hst
      simp only [Option.some.injEq] at h
      subst h
      rcases get?_append_cases w _ a _ x rfl hg with ⟨_, h1⟩ | ⟨_, h1⟩
      · exact hP a x h1
      · cases h1
        exact hsized size memPolicy label s.1 s.2 rfl hst
    · cases h
  | construct_filled size value memPolicy label =>
    simp only [step] at h
    split at h
    · rename_i s hst
      simp only [Option.some.injEq] at h
      subst h
      rcases get?_append_cases w _ a _ x rfl hg with ⟨_, h1⟩ | ⟨_, h1⟩
      · exact hP a x h1
      · cases h1
        exact hfilled size value memPolicy label s.1 s.2 rfl hst
    · cases h
  | construct_copy aa =>
    simp only [step] at h
    split at h
    · rename_i src hsrc
      split at h
      · rename_i s hst
        simp only [Option.some.injEq] at h
        subst h
        rcases get?_append_cases w _ a _ x rfl hg with ⟨_, h1⟩ | ⟨_, h1⟩
        · exact hP a x h1
        · cases h1
          exact hcopy src s.1 w.mem s.2 (hP aa src hsrc) hst
      · cases h
    · cases h
  | destruct t =>
    simp only [step] at h
    split at h
    · rename_i c hct
      simp only [Option.some.injEq] at h
      subst h
      exact hP a x (get?_destruct w _ t a c x hct hg).2
    · cases h
  | assign t s =>
    simp only [step] at h
    split at h
    · rename_i c src hct hsrc
      split at h
      · rename_i st hst
        simp only [Option.some.injEq] at h
        subst h
        by_cases ha : a = t
        · subst ha
          rw [get?_set_self w _ a _ rfl (get?_lt w a c hct)] at hg
          cases hg
          rcases assign_effect cfg a s c src st.1 w.mem st.2 hst with ⟨_, h1, _⟩ | ⟨_, m1, hcp, _⟩
          · rw [h1]
            exact hP a c hct
          · exact hcopy src st.1 w.mem m1 (hP s src hsrc) hcp
        · rw [get?_set_ne w _ t a _ rfl ha] at hg
          exact hP a x hg
      · cases h
    · cases h
  | swap t s =>
    simp only [step] at h
    split at h
    · rename_i c d hct hds
      simp only [Option.some.injEq, swap_eq] at h
      subst h
      exact hP _ x (get?_swap w _ t s a c d x hct hds hg)
    · cases h
  | call t f =>
    simp only [step] at h
    split at h
    · rename_i c hct
      split at h
      · rename_i st hst
        simp only [Option.some.injEq] at h
        subst h
        by_cases ha : a = t
        · subst ha
          rw [get?_set_self w _ a _ rfl (get?_lt w a c hct)] at hg
          cases hg
          exact hcall a f c st.1 st.2 rfl hct (hP a c hct) hst
        · rw [get?_set_ne w _ t a _ rfl ha] at hg
          exact hP a x hg
      · cases h
    · cases h

theorem run_label (cfg : Build) (f : Method T) (c c1 : qs_vector T) (m m1 : Memory T)
    (h : f.run cfg c m = some (c1, m1)) (hl : LabelOK c._label) : LabelOK c1._label := by
  have key : c1._label = c._label → LabelOK c1._label := fun hk => by rw [hk]; exact hl
  cases f with
  | set_label label =>
    simp only [Method.run, Option.some.injEq] at h
    have := set_label_labelOK cfg label c m
    rw [h] at this
    exact this
  | push_back v =>
    obtain ⟨ret, e⟩ := state?_eq_some (push_back v c m) c1 m1 h
    unfold push_back at e
    split_ifs at e
    split at e
    · cases e
    · simp only [Result.ok.injEq] at e
      obtain ⟨_, rfl, rfl⟩ := e
      exact key rfl
  | Open =>
    obtain ⟨ret, e⟩ := state?_eq_some (Open c m) c1 m1 h
    simp only [Open, Result.ok.injEq] at e
    obtain ⟨_, rfl, rfl⟩ := e
    exact key rfl
  | Close =>
    obtain ⟨ret, e⟩ := state?_eq_some (Close c m) c1 m1 h
    simp only [Close, Result.ok.injEq] at e
    obtain ⟨_, rfl, rfl⟩ := e
    exact key rfl
  | operator_index_assign index v =>
    obtain ⟨ret, e⟩ := state?_eq_some (operator_index_assign index v c m) c1 m1 h
    unfold operator_index_assign at e
    split at e
    · cases e
    · simp only [Result.ok.injEq] at e
      obtain ⟨_, rfl, rfl⟩ := e
      exact key rfl
  | reserve N policy =>
    obtain ⟨ret, e⟩ := state?_eq_some (reserve cfg N policy c m) c1 m1 h
    unfold reserve at e
    split_ifs at e
    simp only [Result.ok.injEq] at e
    obtain ⟨_, rfl, rfl⟩ := e
    exact key (apply_label_frame cfg _ _).2.2.2.2.2.1
  | resize N policy =>
    obtain ⟨ret, e⟩ := state?_eq_some (resize cfg N policy c m) c1 m1 h
    unfold resize at e
    split_ifs at e
    simp only [Result.ok.injEq] at e
    obtain ⟨_, rfl, rfl⟩ := e
    exact key (apply_label_frame cfg _ _).2.2.2.2.2.1
  | resize_value N value policy =>
    obtain ⟨ret, e⟩ := state?_eq_some (resize_value cfg N value policy c m) c1 m1 h
    unfold resize_value at e
    split_ifs at e
    simp only at e
    split at e
    · cases e
    · simp only [Result.ok.injEq] at e
      obtain ⟨_, rfl, rfl⟩ := e
      exact key (apply_label_frame cfg _ _).2.2.2.2.2.1
  | eraseEnd k =>
    obtain ⟨ret, e⟩ := state?_eq_some (eraseEnd k c m) c1 m1 h
    simp only [eraseEnd, Result.ok.injEq] at e
    obtain ⟨_, rfl, rfl⟩ := e
    exact key rfl
  | pop_back =>
    obtain ⟨ret, e⟩ := state?_eq_some (pop_back c m) c1 m1 h
    simp only [pop_back, Result.ok.injEq] at e
    obtain ⟨_, rfl, rfl⟩ := e
    exact key rfl
  | clear =>
    obtain ⟨ret, e⟩ := state?_eq_some (clear c m) c1 m1 h
    simp only [clear, Result.ok.injEq] at e
    obtain ⟨_, rfl, rfl⟩ := e
    exact key rfl
  | appendList listSize list =>
    obtain ⟨ret, e⟩ := state?_eq_some (appendList listSize list c m) c1 m1 h
    unfold appendList at e
    split_ifs at e
    simp only at e
    split at e
    · cases e
    · simp only [Result.ok.injEq] at e
      obtain ⟨_, rfl, rfl⟩ := e
      exact key rfl
  | atomic_Index_Inc inc =>
    obtain ⟨ret, e⟩ := state?_eq_some (atomic_Index_Inc inc c m) c1 m1 h
    simp only [atomic_Index_Inc, Result.ok.injEq] at e
    obtain ⟨_, rfl, rfl⟩ := e
    exact key rfl

theorem copy_labelOK (cfg : Build) (aa : qs_vector T) (m m1 : Memory T) (c1 : qs_vector T)
    (h : (copy cfg aa m).state? = some (c1, m1)) : LabelOK c1._label := by
  obtain ⟨ret, e⟩ := state?_eq_some _ c1 m1 h
  unfold copy at e
  simp only at e
  split at e
  · cases e
  · simp only [Result.ok.injEq] at e
    obtain ⟨_, rfl, rfl⟩ := e
    exact set_label_labelOK cfg _ _ _

theorem labelsOK_step (cfg : Build) (op : Op T) (w w1 : World T)
    (hP : ∀ a c, w.get? a = some c → LabelOK c._label) (h : step cfg op w = some w1) :
    ∀ a c, w1.get? a = some c → LabelOK c._label := by
  refine objInv_step (fun c => LabelOK c._label) cfg op w w1 default_labelOK ?_ ?_ ?_ ?_ hP h
  · intro N p l c1 m1 _ hs
    obtain ⟨ret, e⟩ := state?_eq_some _ c1 m1 hs
    unfold sized at e
    simp only [Result.ok.injEq] at e
    obtain ⟨_, rfl, rfl⟩ := e
    exact set_label_labelOK cfg _ _ _
  · intro N v p l c1 m1 _ hs
    obtain ⟨ret, e⟩ := state?_eq_some _ c1 m1 hs
    unfold filled at e
    simp only at e
    split at e
    · cases e
    · simp only [Result.ok.injEq] at e
      obtain ⟨_, rfl, rfl⟩ := e
      exact set_label_labelOK cfg _ _ _
  · intro src c1 m m1 _ hs
    exact copy_labelOK cfg src m m1 c1 hs
  · intro t f c c1 m1 _ _ hc hs
    exact run_label cfg f c c1 w.mem m1 hs hc

theorem labelsOK_run (cfg : Build) (ops : List (Op T)) :
    ∀ (w w1 : World T), (∀ a c, w.get? a = some c → LabelOK c._label) →
      run cfg ops w = some w1 → ∀ a c, w1.get? a = some c → LabelOK c._label := by
  induction ops with
  | nil =>
    intro w w1 hP h
    simp only [run, Option.some.injEq] at h
    subst h
    exact hP
  | cons op ops ih =>
    intro w w1 hP h
    simp only [run] at h
    split at h
    · rename_i w2 h2
      exact ih w2 w1 (labelsOK_step cfg op w w2 hP h2) h
    · cases h

theorem assign_of_copy (cfg : Build) (a b : Nat) (A B C2 : qs_vector T) (m m1 : Memory T)
    (hab : b ≠ a) (h : (copy cfg B m).state? = some (C2, m1)) :
    operator_assign cfg a b A B m = Result.ok () C2 (destroy cfg A m1) := by
  obtain ⟨ret, e⟩ := state?_eq_some _ C2 m1 h
  simp only [operator_assign, ne_eq, hab, not_false_eq_true, if_true, e, swap_eq]

theorem step_assign_eq (cfg : Build) (w : World T) (a b : Nat) (A B : qs_vector T)
    (hA : w.get? a = some A) (hB : w.get? b = some B) :
    step cfg (Op.assign a b) w =
      ((operator_assign cfg a b A B w.mem).state?).map
        (fun s => World.mk (w.objs.set a (some s.1)) s.2) := by
  simp only [step, hA, hB]
  cases (operator_assign cfg a b A B w.mem).state? <;> rfl

theorem step_copy_eq (cfg : Build) (w : World T) (b : Nat) (B : qs_vector T)
    (hB : w.get? b = some B) :
    step cfg (Op.construct_copy b) w =
      ((copy cfg B w.mem).state?).map (fun s => World.mk (w.objs ++ [some s.1]) s.2) := by
  simp only [step, hB]
  cases (copy cfg B w.mem).state? <;> rfl

/-- C5: in a world reached by public operations, let `A` and `B` be two distinct
containers.  The assignment `A = B` returns exactly when the copy constructor
returns on `B`, and it does when `B.size <= B.capacity`.  When both return, `A`
is exactly the object the copy constructor builds from `B`: the size, capacity,
policy, open flag and label of `B`, a `_data` obtained by one call
`allocate(capacity, policy)`, and at every index `0 <= i < size` the element `B`
has there; the memory is the one the copy constructor leaves, apart from the
previous buffer of `A`.  `B` and its buffer are as before.  The previous buffer
of `A` is released by one call of `deallocate` on its pointer with the previous
policy of `A`, and it is no longer live. -/
theorem C5_copy_assignment (cfg : Build) (ops : List (Op T)) (w : World T) (a b : Nat)
    (A B : qs_vector T) (hreach : run cfg ops World.empty = some w)
    (hA : w.get? a = some A) (hB : w.get? b = some B) (hab : a ≠ b) :
    ((∃ wa, step cfg (Op.assign a b) w = some wa) ↔
      ∃ wc, step cfg (Op.construct_copy b) w = some wc) ∧
    (B._size ≤ B._capacity → ∃ wa, step cfg (Op.assign a b) w = some wa) ∧
    ∀ wa wc, step cfg (Op.assign a b) w = some wa →
      step cfg (Op.construct_copy b) w = some wc →
      ∃ C2, wc.get? w.objs.length = some C2 ∧ wa.get? a = some C2 ∧
        C2._size = B._size ∧ C2._capacity = B._capacity ∧ C2._memPolicy = B._memPolicy ∧
        C2._isOpen = B._isOpen ∧ C2._label = B._label ∧
        AllocatedFor w.mem wa.mem C2._data B._capacity B._memPolicy ∧
        (∀ i : Int, 0 ≤ i → i < B._size →
          ∃ v, operator_index i B w.mem = Result.ok v B w.mem ∧
            operator_index i C2 wa.mem = Result.ok v C2 wa.mem) ∧
        (∀ q, q ≠ A._data → wa.mem.block? q = wc.mem.block? q) ∧
        wa.get? b = some B ∧ wa.mem.block? B._data = w.mem.block? B._data ∧
        (∃ n, wa.mem.trace = wc.mem.trace ++ [Event.deallocate A._data n A._memPolicy]) ∧
        (∀ blk, w.mem.block? A._data = some blk →
          wa.mem.block? A._data = some { blk with live := false }) := by
  have hw : WorldOK w := worldOK_run cfg ops World.empty w worldOK_empty hreach
  have hlab : LabelOK B._label :=
    labelsOK_run cfg ops World.empty w
      (fun x c hx => by simp [World.get?, World.empty] at hx) hreach b B hB
  obtain ⟨_, _, hv, hd⟩ := hw
  have hvA := (hv a A hA).1
  have hvB := (hv b B hB).1
  have hbuf := hd a b A B hab hA hB
  have hba : b ≠ a := Ne.symm hab
  have hsa := step_assign_eq cfg w a b A B hA hB
  have hsc := step_copy_eq cfg w b B hB
  refine ⟨?_, ?_, ?_⟩
  · constructor
    · rintro ⟨wa, h⟩
      rw [hsa] at h
      cases hst : (operator_assign cfg a b A B w.mem).state? with
      | none =>
        rw [hst] at h
        cases h
      | some st =>
        rcases assign_effect cfg a b A B st.1 w.mem st.2 hst with ⟨h1, _⟩ | ⟨_, m1, hcp, _⟩
        · exact absurd h1 hba
        · rw [hsc, hcp]
          exact ⟨_, rfl⟩
    · rintro ⟨wc, h⟩
      rw [hsc] at h
      cases hst : (copy cfg B w.mem).state? with
      | none =>
        rw [hst] at h
        cases h
      | some st =>
        rw [hsa, assign_of_copy cfg a b A B st.1 w.mem st.2 hba hst]
        exact ⟨_, rfl⟩
  · intro hsize
    obtain ⟨C2, m1, _, e, _⟩ := copy_ok cfg B w.mem hvB hsize
    rw [hsa, assign_of_copy cfg a b A B C2 w.mem m1 hba (by rw [e]; rfl)]
    exact ⟨_, rfl⟩
  · intro wa wc ha hc
    rw [hsc] at hc
    cases hst : (copy cfg B w.mem).state? with
    | none =>
      rw [hst] at hc
      cases hc
    | some st =>
      rw [hst] at hc
      simp only [Option.map_some', Option.some.injEq] at hc
      subst hc
      rw [hsa, assign_of_copy cfg a b A B st.1 w.mem st.2 hba hst] at ha
      simp only [Result.state?, Option.map_some', Option.some.injEq] at ha
      subst ha
      have hbound := copy_returns_bound cfg B w.mem st.2 st.1 hst hvB
      obtain ⟨C2, m1, cells1, e, h1, h2, h3, h4, h5, h6, h7, h8, h9, h10, h11⟩ :=
        copy_ok_nat cfg B w.mem hvB hbound
      obtain ⟨ret, e2⟩ := state?_eq_some _ st.1 st.2 hst
      rw [e] at e2
      simp only [Result.ok.injEq] at e2
      obtain ⟨_, hC, hM⟩ := e2
      rw [← hC, ← hM]
      have hAne := validStorage_ne_fresh w.mem A hvA
      have hBne := validStorage_ne_fresh w.mem B hvB
      obtain ⟨t1, t2⟩ := destroy_spec cfg A m1
      obtain ⟨r1, r2⟩ := release_block? m1 (destroy cfg A m1) A._data t2
      have hfresh : (destroy cfg A m1).block? (w.mem.blocks.length + 1) =
          some { count := B._capacity, policy := B._memPolicy, cells := cells1,
                 live := true } := by
        rw [r1 _ (Ne.symm hAne)]
        exact h7
      refine ⟨C2, get?_append_new w _ _ rfl,
        get?_set_self w _ a _ rfl (get?_lt w a A hA), h3, h2, h5, h4, h6 hlab,
        ?_, ?_, r1, (get?_set_ne w _ a b _ rfl hba).trans hB, ?_, ⟨A._size, t1⟩, ?_⟩
      · rw [h1]
        exact ⟨block?_fresh w.mem, _, hfresh, rfl, rfl, rfl, h8⟩
      · intro i hi hlt
        obtain ⟨x, hx, hcx⟩ := h9 i.toNat (by omega)
        rw [Int.toNat_of_nonneg hi] at hx
        refine ⟨x, by simp [operator_index, hx], ?_⟩
        exact operator_index_of_block C2 _ _ i x (by rw [h1]; exact hfresh) rfl hi hcx
      · rcases hbuf with h0 | hne
        · by_cases hAB : B._data = A._data
          · have hz : B._data = 0 := by rw [hAB, h0]
            simp only
            rw [hz]
            rfl
          · simp only
            rw [r1 _ hAB, h10 _ hBne]
        · simp only
          rw [r1 _ (Ne.symm hne), h10 _ hBne]
      · intro blk hblk
        exact r2 blk ((h10 _ hAne).trans hblk)

/-- C5 at a concrete input: in the world `exRunW`, reached by `exRunOps`, the
second container is assigned to the first. -/
theorem C5_copy_assignment_witness :
    run exBuild exRunOps World.empty = some exRunW ∧ exRunW.get? 1 = some exRun1 ∧
    exRunW.get? 0 = some exRun0 ∧ (1 : Nat) ≠ 0 ∧ exRun0._size ≤ exRun0._capacity ∧
    ((∃ wa, step exBuild (Op.assign 1 0) exRunW = some wa) ↔
      ∃ wc, step exBuild (Op.construct_copy 0) exRunW = some wc) ∧
    ∃ wa, step exBuild (Op.assign 1 0) exRunW = some wa :=
  ⟨by decide, by decide, by decide, by decide, by decide,
    (C5_copy_assignment exBuild exRunOps exRunW 1 0 exRun1 exRun0 (by decide) (by decide)
      (by decide) (by decide)).1,
    (C5_copy_assignment exBuild exRunOps exRunW 1 0 exRun1 exRun0 (by decide) (by decide)
      (by decide) (by decide)).2.1 (by decide)⟩

/-! ## The size invariant inside the caller contracts -/

theorem run_cap (cfg : Build) (f : Method T) (c c1 : qs_vector T) (m m1 : Memory T)
    (h : f.run cfg c m = some (c1, m1)) (hc : f.inContract c = true)
    (hcap : c._capacity ≤ INT_MAX) : c1._capacity ≤ INT_MAX := by
  have key : c1._capacity = c._capacity → c1._capacity ≤ INT_MAX :=
    fun hk => by rw [hk]; exact hcap
  cases f with
  | set_label label =>
    simp only [Method.run, Option.some.injEq] at h
    have := (set_label_frame cfg label c m).2.1
    rw [h] at this
    exact key this
  | push_back v =>
    obtain ⟨ret, e⟩ := state?_eq_some (push_back v c m) c1 m1 h
    unfold push_back at e
    split_ifs at e
    split at e
    · cases e
    · simp only [Result.ok.injEq] at e
      obtain ⟨_, rfl, rfl⟩ := e
      exact key rfl
  | Open =>
    obtain ⟨ret, e⟩ := state?_eq_some (Open c m) c1 m1 h
    simp only [Open, Result.ok.injEq] at e
    obtain ⟨_, rfl, rfl⟩ := e
    exact key rfl
  | Close =>
    obtain ⟨ret, e⟩ := state?_eq_some (Close c m) c1 m1 h
    simp only [Close, Result.ok.injEq] at e
    obtain ⟨_, rfl, rfl⟩ := e
    exact key rfl
  | operator_index_assign index v =>
    obtain ⟨ret, e⟩ := state?_eq_some (operator_index_assign index v c m) c1 m1 h
    unfold operator_index_assign at e
    split at e
    · cases e
    · simp only [Result.ok.injEq] at e
      obtain ⟨_, rfl, rfl⟩ := e
      exact key rfl
  | reserve N policy =>
    obtain ⟨ret, e⟩ := state?_eq_some (reserve cfg N policy c m) c1 m1 h
    simp only [Method.inContract, decide_eq_true_eq] at hc
    unfold reserve at e
    split_ifs at e
    simp only [Result.ok.injEq] at e
    obtain ⟨_, rfl, rfl⟩ := e
    rw [(apply_label_frame cfg _ _).2.1]
    exact hc.2
  | resize N policy =>
    obtain ⟨ret, e⟩ := state?_eq_some (resize cfg N policy c m) c1 m1 h
    simp only [Method.inContract, decide_eq_true_eq] at hc
    unfold resize at e
    split_ifs at e
    simp only [Result.ok.injEq] at e
    obtain ⟨_, rfl, rfl⟩ := e
    rw [(apply_label_frame cfg _ _).2.1]
    exact hc.2
  | resize_value N value policy =>
    obtain ⟨ret, e⟩ := state?_eq_some (resize_value cfg N value policy c m) c1 m1 h
    simp only [Method.inContract, decide_eq_true_eq] at hc
    unfold resize_value at e
    split_ifs at e
    simp only at e
    split at e
    · cases e
    · simp only [Result.ok.injEq] at e
      obtain ⟨_, rfl, rfl⟩ := e
      rw [(apply_label_frame cfg _ _).2.1]
      exact hc.2
  | eraseEnd k =>
    obtain ⟨ret, e⟩ := state?_eq_some (eraseEnd k c m) c1 m1 h
    simp only [eraseEnd, Result.ok.injEq] at e
    obtain ⟨_, rfl, rfl⟩ := e
    exact key rfl
  | pop_back =>
    obtain ⟨ret, e⟩ := state?_eq_some (pop_back c m) c1 m1 h
    simp only [pop_back, Result.ok.injEq] at e
    obtain ⟨_, rfl, rfl⟩ := e
    exact key rfl
  | clear =>
    obtain ⟨ret, e⟩ := state?_eq_some (clear c m) c1 m1 h
    simp only [clear, Result.ok.injEq] at e
    obtain ⟨_, rfl, rfl⟩ := e
    exact key rfl
  | appendList listSize list =>
    obtain ⟨ret, e⟩ := state?_eq_some (appendList listSize list c m) c1 m1 h
    unfold appendList at e
    split_ifs at e
    simp only at e
    split at e
    · cases e
    · simp only [Result.ok.injEq] at e
      obtain ⟨_, rfl, rfl⟩ := e
      exact key rfl
  | atomic_Index_Inc inc =>
    obtain ⟨ret, e⟩ := state?_eq_some (atomic_Index_Inc inc c m) c1 m1 h
    simp only [atomic_Index_Inc, Result.ok.injEq] at e
    obtain ⟨_, rfl, rfl⟩ := e
    exact key rfl

theorem capOK_step (cfg : Build) (op : Op T) (w w1 : World T)
    (hP : ∀ a c, w.get? a = some c → c._capacity ≤ INT_MAX)
    (hc : op.inContract w = true) (h : step cfg op w = some w1) :
    ∀ a c, w1.get? a = some c → c._capacity ≤ INT_MAX := by
  have hdef : (qs_vector.default : qs_vector T)._capacity ≤ INT_MAX := by
    simp only [qs_vector.default]
    decide
  refine objInv_step (fun c => c._capacity ≤ INT_MAX) cfg op w w1 hdef ?_ ?_ ?_ ?_ hP h
  · intro N p l c1 m1 hop hs
    subst hop
    simp only [Op.inContract, decide_eq_true_eq] at hc
    obtain ⟨_, g2, _⟩ := sized_fresh cfg N p l _ _ _ hs
    rw [g2]
    exact hc.2
  · intro N v p l c1 m1 hop hs
    subst hop
    simp only [Op.inContract, decide_eq_true_eq] at hc
    obtain ⟨_, g2, _⟩ := filled_fresh cfg N v p l _ _ _ hs
    rw [g2]
    exact hc.2
  · intro src c1 m m1 hsrc hs
    obtain ⟨_, g2, _⟩ := copy_fresh cfg src _ _ _ hs
    rw [g2]
    exact hsrc
  · intro t f c c1 m1 hop hget hcc hs
    subst hop
    simp only [Op.inContract, hget] at hc
    exact run_cap cfg f c c1 w.mem m1 hs hc hcc

theorem capOK_run (cfg : Build) (ops : List (Op T)) :
    ∀ (w w1 : World T), (∀ a c, w.get? a = some c → c._capacity ≤ INT_MAX) →
      allInContract cfg ops w = true → run cfg ops w = some w1 →
      ∀ a c, w1.get? a = some c → c._capacity ≤ INT_MAX := by
  induction ops with
  | nil =>
    intro w w1 hP _ h
    simp only [run, Option.some.injEq] at h
    subst h
    exact hP
  | cons op ops ih =>
    intro w w1 hP hc h
    simp only [run] at h
    simp only [allInContract, Bool.and_eq_true] at hc
    split at h
    · rename_i w2 h2
      rw [h2] at hc
      exact ih w2 w1 (capOK_step cfg op w w2 hP hc.1 h2) hc.2 h
    · cases h

theorem run_progress (cfg : Build) (f : Method T) (c : qs_vector T) (m : Memory T)
    (hv : ValidStorage m c) (h0 : 0 ≤ c._size) (h1 : c._size ≤ c._capacity)
    (hc : f.inContract c = true) (h : f.run cfg c m = none) : f.asserts c = true := by
  cases f with
  | set_label label => simp [Method.run] at h
  | push_back v =>
    simp only [Method.inContract, decide_eq_true_eq] at hc
    cases ho : c._isOpen with
    | false => simp [Method.asserts, ho]
    | true =>
      obtain ⟨b, hb, hl, _, hlen⟩ := validStorage_block m c hv (by omega)
      obtain ⟨m1, e, _⟩ := push_back_ok v c m b ho hb hl h0 (by omega)
      simp [Method.run, e, Result.state?] at h
  | Open => simp [Method.run, Open, Result.state?] at h
  | Close => simp [Method.run, Close, Result.state?] at h
  | operator_index_assign index v =>
    simp only [Method.inContract, decide_eq_true_eq] at hc
    obtain ⟨b, hb, hl, _, hlen⟩ := validStorage_block m c hv (by omega)
    obtain ⟨m1, e, _⟩ := store_spec m c._data b index (some v) hb hl hc.1 (by omega)
    simp [Method.run, operator_index_assign, e, Result.state?] at h
  | reserve N policy =>
    by_cases hz : c._capacity = 0
    · obtain ⟨c1, m1, e, _⟩ := reserve_ok cfg N policy c m hz
      simp [Method.run, e, Result.state?] at h
    · simp [Method.asserts, hz]
  | resize N policy =>
    by_cases hz : c._capacity = 0
    · obtain ⟨c1, m1, e, _⟩ := resize_ok cfg N policy c m hz
      simp [Method.run, e, Result.state?] at h
    · simp [Method.asserts, hz]
  | resize_value N value policy =>
    by_cases hz : c._capacity = 0
    · obtain ⟨c1, m1, cells1, e, _⟩ := resize_value_ok cfg N value policy c m hz
      simp [Method.run, e, Result.state?] at h
    · simp [Method.asserts, hz]
  | eraseEnd k => simp [Method.run, eraseEnd, Result.state?] at h
  | pop_back => simp [Method.run, pop_back, Result.state?] at h
  | clear => simp [Method.run, clear, Result.state?] at h
  | appendList listSize list =>
    simp only [Method.inContract, decide_eq_true_eq] at hc
    obtain ⟨b, hb, hl, _, hlen⟩ := validStorage_block m c hv (by omega)
    obtain ⟨m1, cells1, e, _⟩ := appendList_ok listSize list c m b hb hl h0 hc.2 (by omega)
    simp [Method.run, e, Result.state?] at h
  | atomic_Index_Inc inc => simp [Method.run, atomic_Index_Inc, Result.state?] at h

theorem step_progress (cfg : Build) (op : Op T) (w : World T) (hw : WorldOK w)
    (hs : SizeOK w) (hc : op.inContract w = true) (h : step cfg op w = none) :
    op.halts w = true := by
  obtain ⟨_, _, hv, _⟩ := hw
  cases op with
  | construct => simp [step] at h
  | construct_sized size memPolicy label =>
    obtain ⟨c1, m1, e, _⟩ := sized_ok cfg size memPolicy label w.mem
    simp [step, e, Result.state?] at h
  | construct_filled size value memPolicy label =>
    obtain ⟨c1, m1, cells1, e, _⟩ := filled_ok cfg size value memPolicy label w.mem
    simp [step, e, Result.state?] at h
  | construct_copy aa =>
    cases hg : w.get? aa with
    | none => simp [Op.halts, hg]
    | some src =>
      obtain ⟨c1, m1, cells1, e, _⟩ := copy_ok cfg src w.mem (hv aa src hg).1 (hs aa src hg).2
      simp [step, hg, e, Result.state?] at h
  | destruct t =>
    cases hg : w.get? t with
    | none => simp [Op.halts, hg]
    | some c => simp [step, hg] at h
  | assign t s =>
    cases hg : w.get? t with
    | none => simp [Op.halts, hg]
    | some c =>
      cases hg2 : w.get? s with
      | none => simp [Op.halts, hg2]
      | some src =>
        by_cases hst : s = t
        · simp [step, hg, hg2, operator_assign, hst, Result.state?] at h
        · obtain ⟨c1, m1, cells1, e, _⟩ :=
            copy_ok cfg src w.mem (hv s src hg2).1 (hs s src hg2).2
          have ha := assign_of_copy cfg t s c src c1 w.mem m1 hst (by rw [e]; rfl)
          simp [step, hg, hg2, ha, Result.state?] at h
  | swap t s =>
    cases hg : w.get? t with
    | none => simp [Op.halts, hg]
    | some c =>
      cases hg2 : w.get? s with
      | none => simp [Op.halts, hg2]
      | some d => simp [step, hg, hg2] at h
  | call t f =>
    cases hg : w.get? t with
    | none => simp [Op.halts, hg]
    | some c =>
      simp only [Op.inContract, hg] at hc
      cases hr : f.run cfg c w.mem with
      | none =>
        simp only [Op.halts, hg]
        exact run_progress cfg f c w.mem (hv t c hg).1 (hs t c hg).1 (hs t c hg).2 hc hr
      | some st => simp [step, hg, hr] at h

/-- C11 as stated fails.  After the default constructor and `pop_back()` the
size is -1, below 0; after the default constructor, `reserve(1)` and
`atomic_Index_Inc(2)` the size is 2, past the capacity 1; every call returned.
After `reserve(1)`, `Open()` and `push_back(5)` the container is full, and a
further `push_back(6)` writes index 1 of a one-element buffer and adds 1 to the
size: undefined behaviour that leaves the size past the capacity where the write
goes through.  On that container `appendList(2147483647, list)` passes its
check, because the sum overflows `int`, and returns with the size -2147483648. -/
theorem C11_counterexample :
    run exBuild [Op.construct, Op.call 0 Method.pop_back] World.empty = some exPopW ∧
    ¬ SizeOK exPopW ∧
    run exBuild [Op.construct, Op.call 0 (Method.reserve 1 AllocationPolicy.HOST_MEM),
      Op.call 0 (Method.atomic_Index_Inc 2)] World.empty = some exOverW ∧
    ¬ SizeOK exOverW ∧
    run exBuild [Op.construct, Op.call 0 (Method.reserve 1 AllocationPolicy.HOST_MEM),
      Op.call 0 Method.Open, Op.call 0 (Method.push_back 5)] World.empty = some exFullW ∧
    exFullW.get? 0 = some exFull ∧ exFull._size = exFull._capacity ∧
    push_back 6 exFull exFullMem = Result.undefined ∧
    (0 : Int) ≤ 2147483647 ∧
    int32.appendList 2147483647 (Ptr.mk 0 0) exFull exFullMem =
      Result.ok () { exFull with _size := -2147483648 } exFullMem ∧
    ¬ (0 ≤ ({ exFull with _size := -2147483648 } : qs_vector Nat)._size) := by
  refine ⟨by decide, ?_, by decide, ?_, by decide, by decide, by decide, by decide,
    by decide, by decide, by decide⟩
  · intro h
    exact absurd (h 0 _ rfl).1 (by decide)
  · intro h
    exact absurd (h 0 _ rfl).2 (by decide)

/-- C11 (amended): `0 <= size <= capacity`, with the capacity a value of `int`,
holds for every live container of every world reached from the empty world by
constructors and public operations that return, when each is called inside its
contract: the sized constructors, `reserve` and `resize` with an `int`
`N >= 0`, `push_back` with `size < capacity`, a write through `operator[]` at an
index in `[0, capacity)`, `appendList` with `listSize >= 0` and
`size + listSize < capacity`, `pop_back` with `size > 0`, `eraseEnd(k)` with
`0 <= k <= size`, and `atomic_Index_Inc(inc)` with `0 <= inc <= capacity - size`.
The other operations (`clear`, `Open`, `Close`, `set_label`, `swap`, copy
construction, assignment, destruction) need no condition.  In such a world an
operation called inside its contract has no undefined behaviour: it returns,
unless a `qs_assert` of it fails or an address it is given names no live
object. -/
theorem C11_size_invariant (cfg : Build) (ops : List (Op T)) (w : World T)
    (hrun : run cfg ops World.empty = some w)
    (hc : allInContract cfg ops World.empty = true) :
    (∀ a c, w.get? a = some c →
      0 ≤ c._size ∧ c._size ≤ c._capacity ∧ c._capacity ≤ INT_MAX) ∧
    ∀ op : Op T, op.inContract w = true → step cfg op w = none → op.halts w = true := by
  have hw := worldOK_run cfg ops World.empty w worldOK_empty hrun
  have hs := sizeOK_run cfg ops World.empty w worldOK_empty sizeOK_empty hc hrun
  have hcap := capOK_run cfg ops World.empty w
    (fun x c hx => by simp [World.get?, World.empty] at hx) hc hrun
  exact ⟨fun a c hg => ⟨(hs a c hg).1, (hs a c hg).2, hcap a c hg⟩,
    fun op hop hstep => step_progress cfg op w hw hs hop hstep⟩

/-- The amended C11 at a concrete input: the run `exRunOps`. -/
theorem C11_size_invariant_witness :
    run exBuild exRunOps World.empty = some exRunW ∧
    allInContract exBuild exRunOps World.empty = true ∧
    ∀ a c, exRunW.get? a = some c →
      0 ≤ c._size ∧ c._size ≤ c._capacity ∧ c._capacity ≤ INT_MAX :=
  ⟨by decide, by decide,
    (C11_size_invariant exBuild exRunOps exRunW (by decide) (by decide)).1⟩

/-! ## The two embeddings of `appendList` -/

theorem forLoop_congr_inv (Inv : Memory T → Prop) (R : Int → Prop)
    (body1 body2 : Int → Memory T → Option (Memory T))
    (hInv : ∀ i mm mm1, R i → Inv mm → body2 i mm = some mm1 → Inv mm1)
    (heq : ∀ i mm, R i → Inv mm → body1 i mm = body2 i mm) (n : Nat) :
    ∀ (lo : Int) (m : Memory T), (∀ j : Nat, j < n → R (lo + (j : Int))) → Inv m →
      forLoop body1 n lo m = forLoop body2 n lo m := by
  induction n with
  | zero =>
    intro lo m _ _
    rfl
  | succ n ih =>
    intro lo m hR hI
    have h0 : R lo := by simpa using hR 0 (by omega)
    simp only [forLoop, heq lo m h0 hI]
    cases hb : body2 lo m with
    | none => rfl
    | some m1 =>
      simp only
      refine ih (lo + 1) m1 (fun j hj => ?_) (hInv lo m m1 h0 hI hb)
      have := hR (j + 1) (by omega)
      have he : lo + 1 + (j : Int) = lo + ((j + 1 : Nat) : Int) := by
        push_cast
        ring
      rw [he]
      exact this

/-- The two embeddings of `appendList` agree where the sum `size + listSize` is a
value of `int` and the list holds initialised elements outside the slots the
call writes: there the member on 32-bit `int`, reading through the pointer, is
the member on the integers with the elements of the list as they were at the
call. -/
theorem int32_appendList_eq (listSize : Int) (list : Ptr) (l : Nat → T)
    (c : qs_vector T) (m : Memory T) (hfit : isInt (c._size + listSize))
    (hread : ∀ j : Int, 0 ≤ j → j < listSize →
      load m list.block (list.index + j) = some (some (l j.toNat)))
    (hdisj : list.block ≠ c._data ∨ list.index + listSize ≤ c._size ∨
      c._size + listSize ≤ list.index) :
    int32.appendList listSize list c m = appendList listSize l c m := by
  have hw := toInt32_of_isInt _ hfit
  simp only [int32.appendList, appendList, hw]
  split_ifs
  · have hloop : forLoop (appendElem list c._size c._data)
        (c._size + listSize - c._size).toNat c._size m =
        forLoop (fun i mm => store mm c._data i (some (l (i - c._size).toNat)))
          (c._size + listSize - c._size).toNat c._size m := by
      refine forLoop_congr_inv
        (fun mm => ∀ j : Int, 0 ≤ j → j < listSize →
          load mm list.block (list.index + j) = some (some (l j.toNat)))
        (fun i => c._size ≤ i ∧ i < c._size + listSize) _ _ ?_ ?_ _ _ _ ?_ hread
      · intro i mm mm1 hi hI hs j hj0 hj1
        rw [load_of_store mm mm1 c._data i _ hs list.block (list.index + j) (by omega)]
        exact hI j hj0 hj1
      · intro i mm hi hI
        simp only [appendElem, hI (i - c._size) (by omega) (by omega)]
      · intro j hj
        omega
    simp only [hloop]
  · rfl

end Operations

end qs_vector

end QSVector
